import Mathlib

/-!
# Verification of the padel-payments roster reconciliation engine

This file is a shallow embedding of the padel-payments repository's data
model and roster-synchronization behavior, together with theorems settling
the specification's claims.

The persistent schema (tournaments, players, player_aliases, entries,
pending_entries, sync_runs, the admin views, and the `normalize_name`
function) is translated from the SQL migrations under `migrations/`.
The reconciliation engine itself (the import script driving upserts,
archiving, quarantine and telemetry) is not part of the available
sources — only its schema, views and documentation are — so the engine's
operations are modelled from the specification, as marked on each such
definition.

Timestamps are modelled as `Nat`, row identifiers as `Nat`, and tables as
lists of rows, mirroring a transactional relational store.
-/

namespace Padel

/-- Payment status of an entry: `payment_status IN ('pending', 'paid')`. -/
inductive PayStatus where
  | pending
  | paid
deriving DecidableEq, Repr

/-- Payment scope of an entry (migration in `src/unnamed/part_001`):
`payment_scope IN ('self', 'pair')`, default `'self'`. -/
inductive PayScope where
  | self
  | pair
deriving DecidableEq, Repr

/-- Tournament format: `tournament_type IN ('personal', 'team')`
(migration `add_tournament_type.sql`). -/
inductive TFormat where
  | personal
  | team
deriving DecidableEq, Repr

/-- Status of a quarantined pending entry (migrations 006 and 007):
`status IN ('pending','approved','rejected','expired','resolved','snoozed')`. -/
inductive PendStatus where
  | pending
  | approved
  | rejected
  | expired
  | resolved
  | snoozed
deriving DecidableEq, Repr

/-- A row of `tournaments` with the columns added by migrations 002/004
and `add_tournament_type.sql`: `active`, `archived_at` (null = live),
`first_seen_in_source`, `last_seen_in_source`. -/
structure Tournament where
  id : Nat
  title : String
  format : TFormat
  active : Bool
  archivedAt : Option Nat
  firstSeenInSource : Nat
  lastSeenInSource : Nat
deriving DecidableEq, Repr

/-- A row of `players` with `normalized_name` (migration 006). -/
structure Player where
  id : Nat
  fullName : String
  normalizedName : String
deriving DecidableEq, Repr

/-- A row of `player_aliases` (migration 006): a normalized alternate
spelling mapped to a player; `normalized_alias` is UNIQUE. -/
structure PlayerAlias where
  id : Nat
  normalizedAlias : String
  playerId : Nat
deriving DecidableEq, Repr

/-- A row of `entries` with the columns added by migrations 001 and the
pair-payment migration (`src/unnamed/part_001`): reciprocal
`paid_for_entry_id` / `paid_by_entry_id`, `payment_scope`, `active`,
`manual_paid`, `first_seen_in_source`, `last_seen_in_source`. -/
structure Entry where
  id : Nat
  tournamentId : Nat
  playerId : Nat
  paymentStatus : PayStatus
  active : Bool
  manualPaid : Bool
  paymentScope : PayScope
  paidForEntryId : Option Nat
  paidByEntryId : Option Nat
  firstSeenInSource : Nat
  lastSeenInSource : Nat
deriving DecidableEq, Repr

/-- A row of `pending_entries` (migrations 006/007): quarantined identity
resolution with ranked candidate players. -/
structure PendingEntry where
  id : Nat
  tournamentId : Nat
  rawPlayerName : String
  normalizedName : String
  candidates : List Nat
  status : PendStatus
  resolvedPlayerId : Option Nat
deriving DecidableEq, Repr

/-- A row of `sync_runs` (migration 001): start/finish timestamps,
per-category counters, optional error text. -/
structure SyncRun where
  id : Nat
  startedAt : Nat
  finishedAt : Option Nat
  tournamentsUpsert : Nat
  playersUpsert : Nat
  entriesNew : Nat
  entriesExisting : Nat
  entriesDeleted : Nat
  entriesInactivated : Nat
  error : Option String
deriving DecidableEq, Repr

/-- The persistent store: one list per table, plus fresh-id counters for
the serial primary keys. -/
structure Store where
  tournaments : List Tournament
  players : List Player
  aliases : List PlayerAlias
  entries : List Entry
  pendings : List PendingEntry
  runs : List SyncRun
  nextPlayerId : Nat
  nextEntryId : Nat
  nextPendingId : Nat
  nextRunId : Nat
deriving DecidableEq, Repr

/-- The empty store. -/
def Store.empty : Store :=
  ⟨[], [], [], [], [], [], 0, 0, 0, 0⟩

/-! ## Name normalization

Translated from `migrations/006_alias_quarantine.sql`:

  CREATE OR REPLACE FUNCTION normalize_name(input_text TEXT) RETURNS TEXT AS
  BEGIN RETURN
    regexp_replace(regexp_replace(lower(trim(input_text)), 'ё', 'е', 'g'),
                   '\s+', ' ', 'g');
  END

(The single-character first replacement appears in the repository file as a
byte-mangled UTF-8 pair; it is the Cyrillic fold ё → е, matching the
Python `normalize_name()` the migration comment refers to.)

Postgres `trim` with one argument strips space characters only; the
regexp class `\s` also matches tab, newline and carriage return; `lower`
lower-cases Unicode letters (modelled here for the ASCII and Cyrillic
ranges the data uses). -/

/-- Whitespace as matched by the regexp class `\s`. -/
def isWs (c : Char) : Bool :=
  c = ' ' || c = '\t' || c = '\n' || c = '\r'

/-- Unicode lower-casing as applied by Postgres `lower`, for the ASCII and
Cyrillic letter ranges. -/
def lowerChar (c : Char) : Char :=
  if 'A' ≤ c ∧ c ≤ 'Z' then Char.ofNat (c.toNat + 32)
  else if 'А' ≤ c ∧ c ≤ 'Я' then Char.ofNat (c.toNat + 32)
  else if c = 'Ё' then 'ё'
  else c

/-- `trim(x)`: strip leading and trailing space characters (spaces only,
as Postgres one-argument `trim` does). -/
def trimSpaces (cs : List Char) : List Char :=
  ((cs.dropWhile (· = ' ')).reverse.dropWhile (· = ' ')).reverse

/-- `regexp_replace(x, 'ё', 'е', 'g')`: fold Cyrillic ё to е. -/
def yoFold (cs : List Char) : List Char :=
  cs.map (fun c => if c = 'ё' then 'е' else c)

/-- `regexp_replace(x, '\s+', ' ', 'g')`: collapse every maximal run of
whitespace to a single space. -/
def collapseWs : List Char → List Char
  | [] => []
  | [c] => [if isWs c then ' ' else c]
  | c :: d :: rest =>
    if isWs c ∧ isWs d then collapseWs (d :: rest)
    else (if isWs c then ' ' else c) :: collapseWs (d :: rest)

/-- `normalize_name` from migration 006:
`regexp_replace(regexp_replace(lower(trim(x)), 'ё','е','g'), '\s+',' ','g')`. -/
def normalizeName (s : String) : String :=
  ⟨collapseWs (yoFold ((trimSpaces s.data).map lowerChar))⟩

/-! ## The snapshot

Modelled from the spec: the external roster snapshot (§6) — a collection
of tournament records, each with identity, title, format tag and a nested
list of entries (raw player name, payment status). The snapshot loader's
validation is out of scope here; the engine receives the validated form. -/

/-- A validated snapshot entry: raw player name and reported payment
status. -/
structure SnapEntry where
  rawName : String
  paymentStatus : PayStatus
deriving DecidableEq, Repr

/-- A validated snapshot tournament record with its nested roster. -/
structure SnapTournament where
  tid : Nat
  title : String
  format : TFormat
  entries : List SnapEntry
deriving DecidableEq, Repr

/-- One external delivery of the full current roster state. -/
abbrev Snapshot := List SnapTournament

/-- The external tournament identities present in a snapshot. -/
def snapTids (snap : Snapshot) : List Nat := snap.map (·.tid)

/-! ## Identity Resolver

Modelled from the spec (§4.2): the resolver itself lives in the import
script, which is not among the available sources; only its schema
(players.normalized_name, player_aliases, pending_entries and their
indexes, migrations 006–008) is. The fuzzy similarity scorer is a
pluggable component (spec §9, open question), modelled as a parameter. -/

/-- The pluggable similarity scoring strategy and its acceptance
threshold (spec §9: replaceable scoring strategy, configurable
threshold). A player is a candidate for a normalized name when its score
reaches the threshold. -/
structure MatchCfg where
  score : String → String → Nat
  threshold : Nat

/-- Exact match against `players.normalized_name` (fast path). -/
def findPlayerByNorm (ps : List Player) (n : String) : Option Player :=
  ps.find? (fun p => p.normalizedName = n)

/-- Exact match against `player_aliases.normalized_alias`. -/
def findAliasByNorm (al : List PlayerAlias) (n : String) : Option PlayerAlias :=
  al.find? (fun a => a.normalizedAlias = n)

/-- Ranked candidates: players whose normalized name scores at or above
the acceptance threshold. -/
def candidatesFor (cfg : MatchCfg) (ps : List Player) (n : String) : List Player :=
  ps.filter (fun p => cfg.threshold ≤ cfg.score n p.normalizedName)

/-- The open pending row for a (tournament, normalized name) pair, if
any. -/
def findPendingFor (ps : List PendingEntry) (tid : Nat) (n : String) : Option PendingEntry :=
  ps.find? (fun pe => pe.tournamentId = tid ∧ pe.normalizedName = n ∧ pe.status = PendStatus.pending)

/-- Outcome of identity resolution (spec §4.2):
`{Linked(player_id) | Quarantined(pending_entry_id)}`. -/
inductive Resolution where
  | linked (playerId : Nat)
  | quarantined (pendingId : Nat)
deriving DecidableEq, Repr

/-- Modelled from the spec (§4.2): resolve one raw entry name within a
tournament. Normalize; exact player match links directly; exact alias
match links to the aliased player; otherwise score candidates — none
above threshold creates a new Player, exactly one dominant candidate
links directly, several plausible candidates quarantine by creating or
reusing the pending row for (tournament, normalized name). The returned
flag records whether a Player row was created. -/
def resolveName (cfg : MatchCfg) (tid : Nat) (raw : String) (st : Store) :
    Resolution × Store × Bool :=
  let n := normalizeName raw
  match findPlayerByNorm st.players n with
  | some p => (.linked p.id, st, false)
  | none =>
    match findAliasByNorm st.aliases n with
    | some a => (.linked a.playerId, st, false)
    | none =>
      match candidatesFor cfg st.players n with
      | [] =>
        (.linked st.nextPlayerId,
         { st with players := st.players ++ [⟨st.nextPlayerId, raw, n⟩],
                   nextPlayerId := st.nextPlayerId + 1 }, true)
      | [p] => (.linked p.id, st, false)
      | cs =>
        match findPendingFor st.pendings tid n with
        | some pe => (.quarantined pe.id, st, false)
        | none =>
          let pe : PendingEntry :=
            ⟨st.nextPendingId, tid, raw, n, cs.map (·.id), .pending, none⟩
          (.quarantined st.nextPendingId,
           { st with pendings := st.pendings ++ [pe],
                     nextPendingId := st.nextPendingId + 1 }, false)

/-! ## Reconciliation Engine and Sync Telemetry

Modelled from the spec (§4.3, §4.6): the engine drives per-tournament
diffs (upsert / touch / deactivate), the telemetry recorder opens a
SyncRun row with zeroed counters and increments them as the engine acts.
The `sync_runs` schema and counters are from migration 001. -/

/-- In-flight state of one reconciliation run: the store plus the open
SyncRun row whose counters the engine increments. -/
structure RunState where
  store : Store
  run : SyncRun
deriving DecidableEq, Repr

/-- Open a SyncRun row: `started_at = now`, counters zeroed, not yet
finished. -/
def openRun (id time : Nat) : SyncRun :=
  ⟨id, time, none, 0, 0, 0, 0, 0, 0, none⟩

/-- Does an entry row key-match (tournament, player)? -/
def entryMatches (tid pid : Nat) (e : Entry) : Bool :=
  e.tournamentId = tid ∧ e.playerId = pid

/-- Modelled from the spec (§4.3, upsert entry): if (tournament, player)
exists, update `payment_status`, set `active = true`, bump
`last_seen_in_source`; if new, insert with both timestamps = run time.
Payment bookkeeping fields (`manual_paid`, pairing links, scope) are
never touched by the upsert. -/
def upsertEntry (time tid pid : Nat) (ps : PayStatus) (rs : RunState) : RunState :=
  if rs.store.entries.any (entryMatches tid pid) then
    { store := { rs.store with entries := rs.store.entries.map (fun e =>
        if entryMatches tid pid e then
          { e with paymentStatus := ps, active := true, lastSeenInSource := time }
        else e) },
      run := { rs.run with entriesExisting := rs.run.entriesExisting + 1 } }
  else
    { store := { rs.store with
        entries := rs.store.entries ++
          [⟨rs.store.nextEntryId, tid, pid, ps, true, false, .self, none, none, time, time⟩],
        nextEntryId := rs.store.nextEntryId + 1 },
      run := { rs.run with entriesNew := rs.run.entriesNew + 1 } }

/-- Modelled from the spec (§4.2–4.3): resolve one snapshot entry and, on
a Linked outcome, upsert the Entry row, accumulating the linked player
ids of the current pass. Quarantined outcomes create no Entry. -/
def reconcileEntry (cfg : MatchCfg) (time tid : Nat)
    (acc : RunState × List Nat) (se : SnapEntry) : RunState × List Nat :=
  match resolveName cfg tid se.rawName acc.1.store with
  | (.linked pid, st', created) =>
    (upsertEntry time tid pid se.paymentStatus
      { store := st',
        run := if created then
            { acc.1.run with playersUpsert := acc.1.run.playersUpsert + 1 }
          else acc.1.run },
     acc.2 ++ [pid])
  | (.quarantined _, st', _) =>
    ({ store := st', run := acc.1.run }, acc.2)

/-- Modelled from the spec (§4.3, deactivate missing entries): every
Entry of this tournament not touched in the current pass has `active`
set to `false` but is not deleted. -/
def deactivateMissing (tid : Nat) (pids : List Nat) (rs : RunState) : RunState :=
  { store := { rs.store with entries := rs.store.entries.map (fun e =>
      if e.tournamentId = tid ∧ e.playerId ∉ pids ∧ e.active then
        { e with active := false }
      else e) },
    run := { rs.run with entriesInactivated := rs.run.entriesInactivated +
      (rs.store.entries.filter
        (fun e => e.tournamentId = tid ∧ e.playerId ∉ pids ∧ e.active)).length } }

/-- The roster pass of one tournament: resolve and upsert every snapshot
entry, accumulating the player ids touched (linked) in this pass. -/
def entriesPass (cfg : MatchCfg) (time tid : Nat) (es : List SnapEntry)
    (rs : RunState) : RunState × List Nat :=
  es.foldl (reconcileEntry cfg time tid) (rs, [])

/-- Modelled from the spec (§4.3): the roster pass of one tournament —
resolve and upsert every snapshot entry, then deactivate this
tournament's untouched entries. -/
def reconcileEntries (cfg : MatchCfg) (time tid : Nat) (es : List SnapEntry)
    (rs : RunState) : RunState :=
  deactivateMissing tid (entriesPass cfg time tid es rs).2
    (entriesPass cfg time tid es rs).1

/-- Modelled from the spec (§4.3 upsert tournament, §4.4 row 3): insert an
unseen tournament with both timestamps = run time; update a seen live
tournament's mutable fields and bump `last_seen_in_source`; a previously
archived tournament is terminal and is never un-archived or touched by
reconciliation. -/
def reconcileTournament (cfg : MatchCfg) (time : Nat) (rs : RunState)
    (t : SnapTournament) : RunState :=
  match rs.store.tournaments.find? (fun tr => tr.id = t.tid) with
  | some existing =>
    if existing.archivedAt.isSome then rs
    else
      reconcileEntries cfg time t.tid t.entries
        { store := { rs.store with tournaments := rs.store.tournaments.map (fun tr =>
            if tr.id = t.tid then
              { tr with title := t.title, format := t.format, active := true,
                        lastSeenInSource := time }
            else tr) },
          run := { rs.run with tournamentsUpsert := rs.run.tournamentsUpsert + 1 } }
  | none =>
    reconcileEntries cfg time t.tid t.entries
      { store := { rs.store with
          tournaments := rs.store.tournaments ++
            [⟨t.tid, t.title, t.format, true, none, time, time⟩] },
        run := { rs.run with tournamentsUpsert := rs.run.tournamentsUpsert + 1 } }

/-- Modelled from the spec (§4.3): the reconciliation pass over the whole
snapshot. -/
def reconcileAll (cfg : MatchCfg) (time : Nat) (snap : Snapshot) (rs : RunState) : RunState :=
  snap.foldl (reconcileTournament cfg time) rs

/-- Does the tournament have at least one entry with
`payment_status = paid` (financial history)? -/
def hasPaidEntry (entries : List Entry) (tid : Nat) : Bool :=
  entries.any (fun e => e.tournamentId = tid ∧ e.paymentStatus = PayStatus.paid)

/-- Modelled from the spec (§4.4, archiving policy): for every tournament
missing from the current snapshot — with at least one paid entry, set
`archived_at = run_time` and `active = false` and retain its entries
as-is; with no paid entries, hard-delete the tournament together with
its entries (and, cascading as the pending_entries foreign key does, its
quarantine rows). Tournaments present in the snapshot are untouched. -/
def archivePhase (time : Nat) (tids : List Nat) (rs : RunState) : RunState :=
  let st := rs.store
  let deadIds := (st.tournaments.filter
      (fun t => t.id ∉ tids ∧ ¬ hasPaidEntry st.entries t.id)).map (·.id)
  { store := { st with
      tournaments := (st.tournaments.filter
          (fun t => t.id ∈ tids ∨ hasPaidEntry st.entries t.id)).map
        (fun t => if t.id ∈ tids then t
          else { t with archivedAt := some time, active := false }),
      entries := st.entries.filter (fun e => e.tournamentId ∉ deadIds),
      pendings := st.pendings.filter (fun pe => pe.tournamentId ∉ deadIds) },
    run := { rs.run with entriesDeleted := rs.run.entriesDeleted +
      (st.entries.filter (fun e => e.tournamentId ∈ deadIds)).length } }

/-- Modelled from the spec (§4.6): close the open SyncRun row — set
`finished_at`, record the error text if any — and append it to
`sync_runs`. -/
def finishRun (time : Nat) (err : Option String) (rs : RunState) : Store :=
  { rs.store with
      runs := rs.store.runs ++ [{ rs.run with finishedAt := some time, error := err }],
      nextRunId := rs.store.nextRunId + 1 }

/-- Modelled from the spec (§2, §4.3–4.6): one complete reconciliation
run — open the SyncRun row, reconcile every snapshot tournament, apply
the archiving policy to tournaments absent from the snapshot, finalize
the run record with `finished_at` set and no error. -/
def runSync (cfg : MatchCfg) (time : Nat) (snap : Snapshot) (st : Store) : Store :=
  finishRun time none
    (archivePhase time (snapTids snap)
      (reconcileAll cfg time snap { store := st, run := openRun st.nextRunId time }))

/-- Modelled from the spec (§4.6, §7): a run aborted by an unrecoverable
storage-layer error after `k` tournaments — already-committed
per-tournament work remains, the error text is recorded on the SyncRun
row, `finished_at` is still set, and the partial counters are left as
evidence of progress. -/
def runSyncAborted (cfg : MatchCfg) (time : Nat) (snap : Snapshot) (k : Nat)
    (msg : String) (st : Store) : Store :=
  finishRun time (some msg)
    (reconcileAll cfg time (snap.take k) { store := st, run := openRun st.nextRunId time })

/-- A sequence of reconciliation runs, each with its own scorer
configuration, run time and snapshot, applied in order. -/
def applyRuns (runsL : List (MatchCfg × Nat × Snapshot)) (st : Store) : Store :=
  runsL.foldl (fun s r => runSync r.1 r.2.1 r.2.2 s) st

/-- The fields of an entry row a reconciliation run never rewrites: its
identity and keys, manual-payment note, pairing links and scope, and
`first_seen_in_source`. (A run may rewrite `payment_status`, `active`
and `last_seen_in_source` of touched rows.) -/
def EntryCore (e : Entry) :
    Nat × Nat × Nat × Bool × PayScope × Option Nat × Option Nat × Nat :=
  (e.id, e.tournamentId, e.playerId, e.manualPaid, e.paymentScope,
   e.paidForEntryId, e.paidByEntryId, e.firstSeenInSource)

/-- The identity, tournament key and pairing links of an entry row: the
fields governing the reciprocal pair-payment relation. -/
def EntryLinks (e : Entry) : Nat × Nat × Option Nat × Option Nat :=
  (e.id, e.tournamentId, e.paidForEntryId, e.paidByEntryId)

/-- Well-formedness of the entries table with respect to its id counter
and the pair-payment relation: ids are fresh-bounded and distinct, no
row is simultaneously payer and payee, and every pairing link points to
a stored partner row of the same tournament holding the reciprocal
link. -/
def EntriesWf (l : List Entry) (next : Nat) : Prop :=
  (∀ e ∈ l, e.id < next) ∧
  (l.map Entry.id).Nodup ∧
  (∀ a ∈ l, ¬ (a.paidForEntryId.isSome ∧ a.paidByEntryId.isSome)) ∧
  (∀ a ∈ l, ∀ bid, a.paidForEntryId = some bid →
    ∃ b ∈ l, b.id = bid ∧ b.tournamentId = a.tournamentId ∧
      b.paidByEntryId = some a.id) ∧
  (∀ a ∈ l, ∀ bid, a.paidByEntryId = some bid →
    ∃ b ∈ l, b.id = bid ∧ b.tournamentId = a.tournamentId ∧
      b.paidForEntryId = some a.id)

/-- The quarantine-uniqueness invariant (migration 008's partial unique
index): at most one `pending` row per (tournament, normalized name). -/
def PendingUniqueL (l : List PendingEntry) : Prop :=
  ∀ (tid : Nat) (n : String),
    (l.filter (fun pe => pe.tournamentId = tid ∧ pe.normalizedName = n ∧
      pe.status = PendStatus.pending)).length ≤ 1

/-! ## Pair Payment Linker

Modelled from the spec (§4.5): the linker lives in the payment handlers,
which are not among the available sources; the reciprocal columns
`paid_for_entry_id` / `paid_by_entry_id` and `payment_scope` are from the
pair-payment migration in `src/unnamed/part_001`. -/

/-- Modelled from the spec (§4.5): the per-row update a successful pair
payment applies to the entries table — the payer row gains
`paid_for_entry_id`, the partner row gains `paid_by_entry_id`, both turn
`paid` with `payment_scope = pair`, all other rows are untouched. -/
def pairMap (payerId partnerId : Nat) (e : Entry) : Entry :=
  if e.id = payerId then
    { e with paymentStatus := .paid, paymentScope := .pair,
             paidForEntryId := some partnerId }
  else if e.id = partnerId then
    { e with paymentStatus := .paid, paymentScope := .pair,
             paidByEntryId := some payerId }
  else e

/-- Modelled from the spec (§4.5): when entry A is marked paid with
`payment_scope = pair` covering partner entry B, set
`A.paid_for_entry_id = B.id`, `B.paid_by_entry_id = A.id`, and propagate
`payment_status = paid` to B. Attempting to pair an entry with itself,
across tournaments, outside a team-format tournament, or when either
entry already participates in a pairing, fails rather than silently
overwriting the link. -/
def pairPayment (payerId partnerId : Nat) (st : Store) : Except String Store :=
  match st.entries.find? (fun e => e.id = payerId),
        st.entries.find? (fun e => e.id = partnerId) with
  | some a, some b =>
    if payerId = partnerId then .error "cannot pair an entry with itself"
    else if a.tournamentId ≠ b.tournamentId then
      .error "entries belong to different tournaments"
    else if ¬ st.tournaments.any
        (fun t => t.id = a.tournamentId ∧ t.format = TFormat.team) then
      .error "pair payments apply to team tournaments only"
    else if a.paidForEntryId.isSome ∨ a.paidByEntryId.isSome then
      .error "payer entry is already paired"
    else if b.paidForEntryId.isSome ∨ b.paidByEntryId.isSome then
      .error "partner entry is already paired"
    else .ok { st with entries := st.entries.map (pairMap payerId partnerId) }
  | _, _ => .error "entry not found"

/-! ## Administrative command interface

Modelled from the spec (§6): commands consumed from the admin
collaborator — resolve a PendingEntry, mark an Entry manually paid,
delete an Entry. The admin UI (`admin/app/page.tsx`) issues these
commands; their server side is not among the available sources. -/

/-- An administrative resolution of a quarantined case (spec §6):
approve with a chosen candidate player (optionally recording the raw
spelling as a PlayerAlias), reject, snooze, or mark expired. -/
inductive PendAction where
  | approve (playerId : Nat) (makeAlias : Bool)
  | reject
  | snooze
  | expire
deriving DecidableEq, Repr

/-- Modelled from the spec (§6): resolve a PendingEntry. Each action
transitions `status` away from `pending`; approve records
`resolved_player_id`, creates the Entry if missing (linking the chosen
player), and may create a PlayerAlias for the quarantined spelling.
Commands addressing no open pending row do nothing. -/
def resolvePending (time pendingId : Nat) (act : PendAction) (st : Store) : Store :=
  match st.pendings.find?
      (fun pe => pe.id = pendingId ∧ pe.status = PendStatus.pending) with
  | none => st
  | some pe =>
    match act with
    | .approve pid mkAlias =>
      let st1 : Store := { st with pendings := st.pendings.map (fun q =>
        if q.id = pendingId then
          { q with status := PendStatus.resolved, resolvedPlayerId := some pid }
        else q) }
      let newAlias : PlayerAlias := ⟨st1.aliases.length, pe.normalizedName, pid⟩
      let st2 : Store := if mkAlias then
          { st1 with aliases := st1.aliases ++ [newAlias] }
        else st1
      if st2.entries.any (entryMatches pe.tournamentId pid) then st2
      else { st2 with
        entries := st2.entries ++
          [⟨st2.nextEntryId, pe.tournamentId, pid, .pending, true, false, .self,
            none, none, time, time⟩],
        nextEntryId := st2.nextEntryId + 1 }
    | .reject => { st with pendings := st.pendings.map (fun q =>
        if q.id = pendingId then { q with status := PendStatus.rejected } else q) }
    | .snooze => { st with pendings := st.pendings.map (fun q =>
        if q.id = pendingId then { q with status := PendStatus.snoozed } else q) }
    | .expire => { st with pendings := st.pendings.map (fun q =>
        if q.id = pendingId then { q with status := PendStatus.expired } else q) }

/-- Modelled from the spec (§6): mark an Entry manually paid (bypasses
the gateway). -/
def markEntryPaid (entryId : Nat) (st : Store) : Store :=
  { st with entries := st.entries.map (fun e =>
    if e.id = entryId then { e with paymentStatus := .paid, manualPaid := true } else e) }

/-- Modelled from the spec (§6): administrative deletion of an Entry
(distinct from automatic deactivation). The pair-payment foreign keys
are declared `ON DELETE SET NULL` (`src/unnamed/part_001`), so links
referencing the deleted entry are nulled. -/
def deleteEntry (entryId : Nat) (st : Store) : Store :=
  { st with entries := (st.entries.filter (fun e => e.id ≠ entryId)).map (fun e =>
    { e with
        paidForEntryId := if e.paidForEntryId = some entryId then none
          else e.paidForEntryId,
        paidByEntryId := if e.paidByEntryId = some entryId then none
          else e.paidByEntryId }) }

/-! ## Read-only admin views (from the SQL sources) -/

/-- `admin_last_sync_view` (migration 001): the `sync_runs` row with the
greatest `started_at` (`ORDER BY started_at DESC LIMIT 1`); returns
nothing on an empty table. A pure read — it takes the run list and
produces a value, touching no state. -/
def adminLastSyncView (runs : List SyncRun) : Option SyncRun :=
  runs.foldl (fun acc r =>
    match acc with
    | none => some r
    | some m => if m.startedAt < r.startedAt then some r else some m) none

/-- A row of `admin_entries_view` as defined in `src/unnamed/part_001`:
entry fields joined with player and tournament data. -/
structure AdminEntryRow where
  entryId : Nat
  tournamentId : Nat
  playerId : Nat
  paymentStatus : PayStatus
  manualPaid : Bool
  active : Bool
  paidForEntryId : Option Nat
  paidByEntryId : Option Nat
  paymentScope : PayScope
  firstSeenInSource : Nat
  lastSeenInSource : Nat
  playerName : String
  tournamentTitle : String
  tournamentArchivedAt : Option Nat
deriving DecidableEq, Repr

/-- The row built by the view's SELECT list for one joined triple. -/
def mkAdminEntryRow (e : Entry) (p : Player) (t : Tournament) : AdminEntryRow :=
  ⟨e.id, e.tournamentId, e.playerId, e.paymentStatus, e.manualPaid, e.active,
   e.paidForEntryId, e.paidByEntryId, e.paymentScope, e.firstSeenInSource,
   e.lastSeenInSource, p.fullName, t.title, t.archivedAt⟩

/-- `admin_entries_view` (`src/unnamed/part_001`): entries JOIN players
JOIN tournaments, filtered by `t.archived_at IS NULL`. A pure read. -/
def adminEntriesView (st : Store) : List AdminEntryRow :=
  st.entries.flatMap (fun e => st.players.flatMap (fun p => st.tournaments.filterMap (fun t =>
    if e.playerId = p.id ∧ e.tournamentId = t.id ∧ t.archivedAt = none then
      some (mkAdminEntryRow e p t)
    else none)))

/-! ## Row-selection helpers for the frame statements -/

/-- The entries of one tournament. -/
def entriesOf (tid : Nat) (l : List Entry) : List Entry :=
  l.filter (fun e => e.tournamentId = tid)

/-- The tournament rows carrying one identity. -/
def tournamentsOf (tid : Nat) (l : List Tournament) : List Tournament :=
  l.filter (fun t => t.id = tid)

/-! ## Reachable store states

The transition system of the specified core: reconciliation runs
(complete or aborted) and the administrative commands. -/

/-- Store states reachable from the empty store through reconciliation
runs and administrative commands. -/
inductive Reachable : Store → Prop where
  | empty : Reachable Store.empty
  | sync (cfg : MatchCfg) (time : Nat) (snap : Snapshot) {st : Store} :
      Reachable st → Reachable (runSync cfg time snap st)
  | syncAborted (cfg : MatchCfg) (time : Nat) (snap : Snapshot) (k : Nat)
      (msg : String) {st : Store} :
      Reachable st → Reachable (runSyncAborted cfg time snap k msg st)
  | pairPay (payerId partnerId : Nat) {st st' : Store} :
      Reachable st → pairPayment payerId partnerId st = .ok st' → Reachable st'
  | resolve (time pendingId : Nat) (act : PendAction) {st : Store} :
      Reachable st → Reachable (resolvePending time pendingId act st)
  | markPaid (entryId : Nat) {st : Store} :
      Reachable st → Reachable (markEntryPaid entryId st)
  | adminDelete (entryId : Nat) {st : Store} :
      Reachable st → Reachable (deleteEntry entryId st)

/-! ## Idempotence predicates (for claim C1)

The resolver's branch between linking, creating and quarantining is a
function of the players and aliases tables alone; the predicates below
capture the state a first run leaves behind and the frame a second run
over the unchanged snapshot maintains. -/

/-- The identity and archive marker of a tournament row: the fields that
select the reconcile branch for a snapshot tournament. -/
def tourKey (tr : Tournament) : Nat × Option Nat :=
  (tr.id, tr.archivedAt)

/-- The resolver's decision for a normalized name, as a function of the
players and aliases tables alone. (Of the store, the resolver otherwise
reads only the quarantine table — to reuse an open pending row — and the
fresh-id counters; neither selects the branch.) -/
inductive ROut where
  | link (pid : Nat)
  | create
  | quar
deriving DecidableEq, Repr

/-- The branch `resolveName` takes for a normalized name `n`, read off
the resolver's cascade over the given players and aliases tables. -/
def rOut (cfg : MatchCfg) (ps : List Player) (al : List PlayerAlias) (n : String) : ROut :=
  match findPlayerByNorm ps n with
  | some p => .link p.id
  | none =>
    match findAliasByNorm al n with
    | some a => .link a.playerId
    | none =>
      match candidatesFor cfg ps n with
      | [] => .create
      | [p] => .link p.id
      | _ => .quar

/-- A snapshot name is ready for an idempotent re-run at a store: its
resolution creates no Player row, and when it links, the linked player's
(tournament, player) Entry row is already stored. -/
def NameReady (cfg : MatchCfg) (tid : Nat) (raw : String) (st : Store) : Prop :=
  rOut cfg st.players st.aliases (normalizeName raw) ≠ ROut.create ∧
  ∀ pid, rOut cfg st.players st.aliases (normalizeName raw) = ROut.link pid →
    st.entries.any (entryMatches tid pid) = true

/-- The whole snapshot is ready for an idempotent re-run at a store:
every snapshot tournament has a stored row; every stored tournament
absent from the snapshot has financial history (so the archive phase
deletes nothing); and every snapshot tournament either has all of its
roster names ready or is blocked behind an archived deciding row (and is
then skipped wholesale). -/
def SnapReady (cfg : MatchCfg) (snap : Snapshot) (st : Store) : Prop :=
  (∀ t ∈ snap, ∃ tr ∈ st.tournaments, tr.id = t.tid) ∧
  (∀ tr ∈ st.tournaments, tr.id ∉ snapTids snap →
    hasPaidEntry st.entries tr.id = true) ∧
  (∀ t ∈ snap,
    (∀ se ∈ t.entries, NameReady cfg t.tid se.rawName st) ∨
    (∀ tr, st.tournaments.find? (fun x => x.id = t.tid) = some tr →
      tr.archivedAt.isSome = true))

/-- The frame a second run over an unchanged snapshot maintains while it
reconciles: players and aliases untouched, tournament identities and
archive markers untouched, entry identities untouched, stored
(tournament, player) entry keys retained, entries of absent tournaments
untouched verbatim, and an `entries_new` counter still at zero. -/
def IdemInv (snap : Snapshot) (st1 : Store) (rs : RunState) : Prop :=
  rs.store.players = st1.players ∧
  rs.store.aliases = st1.aliases ∧
  rs.store.tournaments.map tourKey = st1.tournaments.map tourKey ∧
  rs.store.entries.map Entry.id = st1.entries.map Entry.id ∧
  (∀ tid pid, st1.entries.any (entryMatches tid pid) = true →
    rs.store.entries.any (entryMatches tid pid) = true) ∧
  (∀ tid, tid ∉ snapTids snap →
    entriesOf tid rs.store.entries = entriesOf tid st1.entries) ∧
  rs.store.runs = st1.runs ∧
  rs.run.entriesNew = 0

/-- Does the resolver's branch for this raw name link — so that the run
touches an Entry row — rather than create or quarantine? -/
def linksName (cfg : MatchCfg) (ps : List Player) (al : List PlayerAlias)
    (raw : String) : Bool :=
  match rOut cfg ps al (normalizeName raw) with
  | ROut.link _ => true
  | _ => false

/-- The number of roster entries a run over the snapshot touches when it
resolves against the given store's players and aliases: for each
snapshot tournament whose deciding row is unarchived, the roster names
the resolver links (each of which the run upserts). -/
def touchedCount (cfg : MatchCfg) (st : Store) (snapPart : Snapshot) : Nat :=
  (snapPart.map (fun t =>
    match st.tournaments.find? (fun x => x.id = t.tid) with
    | some tr =>
      if tr.archivedAt.isSome then 0
      else (t.entries.filter (fun se =>
        linksName cfg st.players st.aliases se.rawName)).length
    | none => 0)).sum

/-- The touch postcondition of a reconciled tournament: every stored row
carrying its identity has `last_seen_in_source` at the run time, and
every still-active entry of it was touched, so carries
`last_seen_in_source` at the run time as well. -/
def TouchedDone (time tid : Nat) (st : Store) : Prop :=
  (∀ tr ∈ st.tournaments, tr.id = tid → tr.lastSeenInSource = time) ∧
  (∀ e ∈ st.entries, e.tournamentId = tid → e.active = true →
    e.lastSeenInSource = time)

/-! ## Frame lemmas

The reconciliation pass touches only rows belonging to snapshot
tournaments; rows of other tournaments pass through every phase
untouched. These lemmas characterize that, each phase at a time. -/

/-- Filtering absorbs a map that fixes the selected rows and preserves
the selection predicate. -/
theorem filter_map_fixed {α : Type} (p : α → Bool) (f : α → α)
    (h1 : ∀ a, p (f a) = p a) (h2 : ∀ a, p a = true → f a = a) :
    ∀ l : List α, (l.map f).filter p = l.filter p
  | [] => rfl
  | a :: l => by
    rw [List.map_cons, List.filter_cons, List.filter_cons, h1 a]
    cases hp : p a
    · simp only [Bool.false_eq_true, if_false]
      exact filter_map_fixed p f h1 h2 l
    · simp only [if_true]
      rw [h2 a hp, filter_map_fixed p f h1 h2 l]

/-- Identity resolution never touches entries. -/
theorem resolveName_entries (cfg : MatchCfg) (tid : Nat) (raw : String) (st : Store) :
    (resolveName cfg tid raw st).2.1.entries = st.entries := by
  unfold resolveName
  dsimp only
  repeat' split
  all_goals rfl

/-- Identity resolution never touches tournaments. -/
theorem resolveName_tournaments (cfg : MatchCfg) (tid : Nat) (raw : String) (st : Store) :
    (resolveName cfg tid raw st).2.1.tournaments = st.tournaments := by
  unfold resolveName
  dsimp only
  repeat' split
  all_goals rfl

/-- Identity resolution never touches aliases. -/
theorem resolveName_aliases (cfg : MatchCfg) (tid : Nat) (raw : String) (st : Store) :
    (resolveName cfg tid raw st).2.1.aliases = st.aliases := by
  unfold resolveName
  dsimp only
  repeat' split
  all_goals rfl

/-- Identity resolution never touches the run log. -/
theorem resolveName_runs (cfg : MatchCfg) (tid : Nat) (raw : String) (st : Store) :
    (resolveName cfg tid raw st).2.1.runs = st.runs := by
  unfold resolveName
  dsimp only
  repeat' split
  all_goals rfl

/-- Identity resolution never touches the entry id counter. -/
theorem resolveName_nextEntryId (cfg : MatchCfg) (tid : Nat) (raw : String) (st : Store) :
    (resolveName cfg tid raw st).2.1.nextEntryId = st.nextEntryId := by
  unfold resolveName
  dsimp only
  repeat' split
  all_goals rfl

/-- Identity resolution only appends players. -/
theorem resolveName_players (cfg : MatchCfg) (tid : Nat) (raw : String) (st : Store) :
    ∃ zs, (resolveName cfg tid raw st).2.1.players = st.players ++ zs := by
  unfold resolveName
  dsimp only
  repeat' split
  all_goals first
    | exact ⟨[], (List.append_nil _).symm⟩
    | exact ⟨_, rfl⟩

/-- Identity resolution only appends pending entries. -/
theorem resolveName_pendings (cfg : MatchCfg) (tid : Nat) (raw : String) (st : Store) :
    ∃ zs, (resolveName cfg tid raw st).2.1.pendings = st.pendings ++ zs := by
  unfold resolveName
  dsimp only
  repeat' split
  all_goals first
    | exact ⟨[], (List.append_nil _).symm⟩
    | exact ⟨_, rfl⟩

/-- Upserting an entry of one tournament leaves other tournaments'
entries untouched. -/
theorem entriesOf_upsertEntry {tid' : Nat} (time tid pid : Nat) (ps : PayStatus)
    (rs : RunState) (hne : tid' ≠ tid) :
    entriesOf tid' (upsertEntry time tid pid ps rs).store.entries =
      entriesOf tid' rs.store.entries := by
  unfold upsertEntry
  split
  · unfold entriesOf
    refine filter_map_fixed _ _ ?_ ?_ _
    · intro a
      split <;> rfl
    · intro a ha
      rw [if_neg]
      simp only [entryMatches, decide_eq_true_eq, not_and]
      intro hta
      rw [decide_eq_true_eq] at ha
      exact absurd (ha ▸ hta) hne
  · unfold entriesOf
    rw [List.filter_append]
    have : (tid' = tid) = False := by
      simp [hne]
    simp [this, Ne.symm hne]

/-- Deactivating one tournament's untouched entries leaves other
tournaments' entries untouched. -/
theorem entriesOf_deactivateMissing {tid' : Nat} (tid : Nat) (pids : List Nat)
    (rs : RunState) (hne : tid' ≠ tid) :
    entriesOf tid' (deactivateMissing tid pids rs).store.entries =
      entriesOf tid' rs.store.entries := by
  unfold deactivateMissing entriesOf
  refine filter_map_fixed _ _ ?_ ?_ _
  · intro a
    split <;> rfl
  · intro a ha
    rw [if_neg]
    simp only [decide_eq_true_eq, not_and]
    intro hta
    rw [decide_eq_true_eq] at ha
    exact absurd (ha ▸ hta) hne

/-- The roster pass of one tournament leaves other tournaments' entries
untouched. -/
theorem entriesOf_entriesPassFold {cfg : MatchCfg} {tid' time tid : Nat}
    (hne : tid' ≠ tid) :
    ∀ (es : List SnapEntry) (acc : RunState × List Nat),
      entriesOf tid' ((es.foldl (reconcileEntry cfg time tid) acc).1.store.entries) =
        entriesOf tid' acc.1.store.entries
  | [], _ => rfl
  | se :: es, acc => by
    rw [List.foldl_cons]
    rw [entriesOf_entriesPassFold hne es _]
    rcases hres : resolveName cfg tid se.rawName acc.1.store with ⟨res, st', created⟩
    cases res with
    | linked pid =>
      simp only [reconcileEntry, hres]
      rw [entriesOf_upsertEntry _ _ _ _ _ hne]
      show entriesOf tid' st'.entries = _
      have := resolveName_entries cfg tid se.rawName acc.1.store
      rw [hres] at this
      rw [this]
    | quarantined pendId =>
      simp only [reconcileEntry, hres]
      show entriesOf tid' st'.entries = _
      have := resolveName_entries cfg tid se.rawName acc.1.store
      rw [hres] at this
      rw [this]

/-- Entry upserts never touch the tournaments table. -/
theorem upsertEntry_tournaments (time tid pid : Nat) (ps : PayStatus) (rs : RunState) :
    (upsertEntry time tid pid ps rs).store.tournaments = rs.store.tournaments := by
  unfold upsertEntry
  split <;> rfl

/-- The roster pass never touches the tournaments table. -/
theorem tournaments_entriesPassFold {cfg : MatchCfg} {time tid : Nat} :
    ∀ (es : List SnapEntry) (acc : RunState × List Nat),
      (es.foldl (reconcileEntry cfg time tid) acc).1.store.tournaments =
        acc.1.store.tournaments
  | [], _ => rfl
  | se :: es, acc => by
    rw [List.foldl_cons, tournaments_entriesPassFold es _]
    rcases hres : resolveName cfg tid se.rawName acc.1.store with ⟨res, st', created⟩
    have hts := resolveName_tournaments cfg tid se.rawName acc.1.store
    rw [hres] at hts
    cases res with
    | linked pid =>
      simp only [reconcileEntry, hres]
      rw [upsertEntry_tournaments]
      exact hts
    | quarantined pendId =>
      simp only [reconcileEntry, hres]
      exact hts

/-- Reconciling one snapshot tournament leaves other tournaments'
entries untouched. -/
theorem entriesOf_reconcileTournament {cfg : MatchCfg} {tid' time : Nat}
    (rs : RunState) (t : SnapTournament) (hne : tid' ≠ t.tid) :
    entriesOf tid' (reconcileTournament cfg time rs t).store.entries =
      entriesOf tid' rs.store.entries := by
  unfold reconcileTournament
  split
  · split
    · rfl
    · unfold reconcileEntries
      rw [entriesOf_deactivateMissing _ _ _ hne]
      unfold entriesPass
      rw [entriesOf_entriesPassFold hne]
  · unfold reconcileEntries
    rw [entriesOf_deactivateMissing _ _ _ hne]
    unfold entriesPass
    rw [entriesOf_entriesPassFold hne]

/-- Reconciling one snapshot tournament leaves other tournament rows
untouched. -/
theorem tournamentsOf_reconcileTournament {cfg : MatchCfg} {tid' time : Nat}
    (rs : RunState) (t : SnapTournament) (hne : tid' ≠ t.tid) :
    tournamentsOf tid' (reconcileTournament cfg time rs t).store.tournaments =
      tournamentsOf tid' rs.store.tournaments := by
  unfold reconcileTournament
  split
  · split
    · rfl
    · unfold reconcileEntries
      show tournamentsOf tid'
        (deactivateMissing _ _ (entriesPass cfg time t.tid t.entries _).1).store.tournaments = _
      unfold deactivateMissing
      dsimp only
      unfold entriesPass
      rw [tournaments_entriesPassFold]
      unfold tournamentsOf
      refine filter_map_fixed _ _ ?_ ?_ _
      · intro a
        split <;> rfl
      · intro a ha
        rw [decide_eq_true_eq] at ha
        rw [if_neg]
        exact fun h => absurd (ha ▸ h) hne
  · unfold reconcileEntries
    show tournamentsOf tid'
      (deactivateMissing _ _ (entriesPass cfg time t.tid t.entries _).1).store.tournaments = _
    unfold deactivateMissing
    dsimp only
    unfold entriesPass
    rw [tournaments_entriesPassFold]
    unfold tournamentsOf
    rw [List.filter_append]
    have : (t.tid = tid') = False := by
      simp [Ne.symm hne]
    simp [this]

/-- The reconciliation pass leaves every absent tournament's rows and
entries untouched. -/
theorem reconcileAll_outside {cfg : MatchCfg} {tid' time : Nat} :
    ∀ (snap : Snapshot) (rs : RunState), tid' ∉ snapTids snap →
      entriesOf tid' (reconcileAll cfg time snap rs).store.entries =
        entriesOf tid' rs.store.entries ∧
      tournamentsOf tid' (reconcileAll cfg time snap rs).store.tournaments =
        tournamentsOf tid' rs.store.tournaments
  | [], _, _ => ⟨rfl, rfl⟩
  | t :: snap, rs, h => by
    have hne : tid' ≠ t.tid := by
      intro he
      exact h (by simp [snapTids, he])
    have hrest : tid' ∉ snapTids snap := by
      intro hm
      refine h ?_
      simp only [snapTids, List.map_cons, List.mem_cons]
      exact Or.inr hm
    unfold reconcileAll
    rw [List.foldl_cons]
    obtain ⟨h1, h2⟩ := reconcileAll_outside snap (reconcileTournament cfg time rs t) hrest
    unfold reconcileAll at h1 h2
    constructor
    · rw [h1, entriesOf_reconcileTournament rs t hne]
    · rw [h2, tournamentsOf_reconcileTournament rs t hne]

/-- Financial history reads identically through equal per-tournament
entry selections. -/
theorem hasPaid_eq_entriesOf (l : List Entry) (tid : Nat) :
    hasPaidEntry l tid =
      (entriesOf tid l).any (fun e => e.paymentStatus = PayStatus.paid) := by
  unfold hasPaidEntry entriesOf
  rw [List.any_filter]
  congr 1
  funext e
  simp [Bool.decide_and]

/-- Closing the run record changes no table except `sync_runs`. -/
theorem finishRun_tables (time : Nat) (err : Option String) (rs : RunState) :
    (finishRun time err rs).tournaments = rs.store.tournaments ∧
    (finishRun time err rs).entries = rs.store.entries ∧
    (finishRun time err rs).players = rs.store.players ∧
    (finishRun time err rs).pendings = rs.store.pendings ∧
    (finishRun time err rs).aliases = rs.store.aliases :=
  ⟨rfl, rfl, rfl, rfl, rfl⟩

/-! ## Claim C2 — the archiving policy -/

/-- C2: for every tournament absent from the snapshot — if it has at
least one paid entry, the run archives it (`archived_at = run_time`,
`active = false`) and leaves all of its entry rows unchanged; if it has
no paid entries, the run hard-deletes the tournament together with its
entries, so that no tournament row with its identity and no entry row of
it remain in storage. -/
theorem runSync_archiving (cfg : MatchCfg) (time : Nat) (snap : Snapshot)
    (st : Store) (tr : Tournament) (htr : tr ∈ st.tournaments)
    (habs : tr.id ∉ snapTids snap) :
    (hasPaidEntry st.entries tr.id = true →
      { tr with archivedAt := some time, active := false } ∈
        (runSync cfg time snap st).tournaments ∧
      (∀ e ∈ st.entries, e.tournamentId = tr.id →
        e ∈ (runSync cfg time snap st).entries)) ∧
    (hasPaidEntry st.entries tr.id = false →
      (∀ tr' ∈ (runSync cfg time snap st).tournaments, tr'.id ≠ tr.id) ∧
      (∀ e' ∈ (runSync cfg time snap st).entries, e'.tournamentId ≠ tr.id)) := by
  obtain ⟨hEq, hTq⟩ :=
    @reconcileAll_outside cfg tr.id time snap
      { store := st, run := openRun st.nextRunId time } habs
  set rs1 := reconcileAll cfg time snap { store := st, run := openRun st.nextRunId time }
    with hrs1
  have hPaidEq : hasPaidEntry rs1.store.entries tr.id = hasPaidEntry st.entries tr.id := by
    rw [hasPaid_eq_entriesOf, hasPaid_eq_entriesOf, hEq]
  have htr1 : tr ∈ rs1.store.tournaments := by
    have : tr ∈ tournamentsOf tr.id rs1.store.tournaments := by
      rw [hTq]
      exact List.mem_filter.mpr ⟨htr, by simp⟩
    exact (List.mem_filter.mp this).1
  have hrunEq : (runSync cfg time snap st).tournaments =
      (archivePhase time (snapTids snap) rs1).store.tournaments := rfl
  have hrunEqE : (runSync cfg time snap st).entries =
      (archivePhase time (snapTids snap) rs1).store.entries := rfl
  constructor
  · intro hpaid
    have hpaid1 : hasPaidEntry rs1.store.entries tr.id = true := by
      rw [hPaidEq]; exact hpaid
    have hdead : ∀ d ∈ (rs1.store.tournaments.filter
        (fun t => t.id ∉ snapTids snap ∧ ¬ hasPaidEntry rs1.store.entries t.id)).map
          (·.id), d ≠ tr.id := by
      intro d hd hdeq
      subst hdeq
      rw [List.mem_map] at hd
      obtain ⟨row, hrow, hrid⟩ := hd
      have := (List.mem_filter.mp hrow).2
      rw [decide_eq_true_eq] at this
      rw [hrid] at this
      rw [hpaid1] at this
      simp at this
    constructor
    · rw [hrunEq]
      unfold archivePhase
      dsimp only
      rw [List.mem_map]
      refine ⟨tr, List.mem_filter.mpr ⟨htr1, ?_⟩, ?_⟩
      · rw [decide_eq_true_eq]
        exact Or.inr hpaid1
      · rw [if_neg habs]
    · intro e he hetid
      have he1 : e ∈ rs1.store.entries := by
        have : e ∈ entriesOf tr.id rs1.store.entries := by
          rw [hEq]
          exact List.mem_filter.mpr ⟨he, by simp [hetid]⟩
        exact (List.mem_filter.mp this).1
      rw [hrunEqE]
      unfold archivePhase
      dsimp only
      refine List.mem_filter.mpr ⟨he1, ?_⟩
      rw [decide_eq_true_eq, hetid]
      intro hmem
      exact hdead tr.id hmem rfl
  · intro hnopaid
    have hnopaid1 : hasPaidEntry rs1.store.entries tr.id = false := by
      rw [hPaidEq]; exact hnopaid
    have hdead : tr.id ∈ (rs1.store.tournaments.filter
        (fun t => t.id ∉ snapTids snap ∧ ¬ hasPaidEntry rs1.store.entries t.id)).map
          (·.id) := by
      rw [List.mem_map]
      refine ⟨tr, List.mem_filter.mpr ⟨htr1, ?_⟩, rfl⟩
      rw [decide_eq_true_eq]
      exact ⟨habs, by rw [hnopaid1]; simp⟩
    constructor
    · intro tr' htr' htrid
      rw [hrunEq] at htr'
      unfold archivePhase at htr'
      dsimp only at htr'
      rw [List.mem_map] at htr'
      obtain ⟨row, hrow, hmapped⟩ := htr'
      have hrowid : row.id = tr.id := by
        rw [← htrid, ← hmapped]
        split <;> rfl
      have := (List.mem_filter.mp hrow).2
      rw [decide_eq_true_eq, hrowid] at this
      rcases this with h | h
      · exact habs h
      · rw [hnopaid1] at h
        simp at h
    · intro e' he' hetid
      rw [hrunEqE] at he'
      unfold archivePhase at he'
      dsimp only at he'
      have := (List.mem_filter.mp he').2
      rw [decide_eq_true_eq] at this
      rw [hetid] at this
      exact this hdead

/-- C2 witness: a concrete tournament with a paid entry, absent from an
empty snapshot, ends the run archived with its entry retained; the same
tournament with only an unpaid entry is gone from storage together with
its entry. -/
theorem runSync_archiving_witness :
    (({ id := 1, title := "T", format := .personal, active := false,
        archivedAt := some 7, firstSeenInSource := 0, lastSeenInSource := 0 } : Tournament) ∈
      (runSync ⟨fun _ _ => 0, 1⟩ 7 []
        { Store.empty with
            tournaments := [⟨1, "T", .personal, true, none, 0, 0⟩],
            entries := [⟨5, 1, 9, .paid, true, false, .self, none, none, 0, 0⟩] }).tournaments ∧
     (⟨5, 1, 9, .paid, true, false, .self, none, none, 0, 0⟩ : Entry) ∈
      (runSync ⟨fun _ _ => 0, 1⟩ 7 []
        { Store.empty with
            tournaments := [⟨1, "T", .personal, true, none, 0, 0⟩],
            entries := [⟨5, 1, 9, .paid, true, false, .self, none, none, 0, 0⟩] }).entries) ∧
    ((∀ tr' ∈ (runSync ⟨fun _ _ => 0, 1⟩ 7 []
        { Store.empty with
            tournaments := [⟨1, "T", .personal, true, none, 0, 0⟩],
            entries := [⟨5, 1, 9, .pending, true, false, .self, none, none, 0, 0⟩] }).tournaments,
        tr'.id ≠ 1) ∧
     (∀ e' ∈ (runSync ⟨fun _ _ => 0, 1⟩ 7 []
        { Store.empty with
            tournaments := [⟨1, "T", .personal, true, none, 0, 0⟩],
            entries := [⟨5, 1, 9, .pending, true, false, .self, none, none, 0, 0⟩] }).entries,
        e'.tournamentId ≠ 1)) := by
  constructor
  · have h := (runSync_archiving ⟨fun _ _ => 0, 1⟩ 7 []
      { Store.empty with
          tournaments := [⟨1, "T", .personal, true, none, 0, 0⟩],
          entries := [⟨5, 1, 9, .paid, true, false, .self, none, none, 0, 0⟩] }
      ⟨1, "T", .personal, true, none, 0, 0⟩ (by decide) (by decide)).1 (by decide)
    exact ⟨h.1, h.2 _ (by decide) (by decide)⟩
  · exact (runSync_archiving ⟨fun _ _ => 0, 1⟩ 7 []
      { Store.empty with
          tournaments := [⟨1, "T", .personal, true, none, 0, 0⟩],
          entries := [⟨5, 1, 9, .pending, true, false, .self, none, none, 0, 0⟩] }
      ⟨1, "T", .personal, true, none, 0, 0⟩ (by decide) (by decide)).2 (by decide)

/-- Filtering commutes with a map that preserves the selection
predicate. -/
theorem filter_map_pres {α : Type} (p : α → Bool) (f : α → α)
    (h : ∀ a, p (f a) = p a) :
    ∀ l : List α, (l.map f).filter p = (l.filter p).map f
  | [] => rfl
  | a :: l => by
    rw [List.map_cons, List.filter_cons, List.filter_cons, h a]
    cases hp : p a
    · simp only [Bool.false_eq_true, if_false]
      exact filter_map_pres p f h l
    · simp only [if_true, List.map_cons]
      rw [filter_map_pres p f h l]

/-! ## Archived tournaments are terminal (claim C9)

Modelled from the spec (§4.4 row 3): reconciliation skips previously
archived tournaments; the archiving policy never clears `archived_at`.
The lemmas track the unique row of one archived tournament through a
run. -/

/-- The reconcile pass leaves an archived tournament's unique row and
its entries untouched, even when the tournament appears in the
snapshot. -/
theorem reconcileAll_archived_skip {cfg : MatchCfg} {time : Nat} :
    ∀ (snap : Snapshot) (rs : RunState) (tid : Nat) (tr : Tournament),
      tournamentsOf tid rs.store.tournaments = [tr] → tr.archivedAt.isSome →
      tournamentsOf tid (reconcileAll cfg time snap rs).store.tournaments = [tr] ∧
      entriesOf tid (reconcileAll cfg time snap rs).store.entries =
        entriesOf tid rs.store.entries
  | [], _, _, _, h1, _ => ⟨h1, rfl⟩
  | t :: snap, rs, tid, tr, h1, h2 => by
    unfold reconcileAll
    rw [List.foldl_cons]
    by_cases hid : tid = t.tid
    · have hfind : rs.store.tournaments.find? (fun x => x.id = t.tid) = some tr := by
        rw [← List.filter_head? _ rs.store.tournaments]
        show (tournamentsOf t.tid rs.store.tournaments).head? = some tr
        rw [← hid, h1]
        rfl
      have hstep : reconcileTournament cfg time rs t = rs := by
        unfold reconcileTournament
        rw [hfind]
        dsimp only
        rw [if_pos h2]
      rw [hstep]
      exact reconcileAll_archived_skip snap rs tid tr h1 h2
    · obtain ⟨hT', hE'⟩ :=
        reconcileAll_archived_skip snap (reconcileTournament cfg time rs t) tid tr
          (by rw [tournamentsOf_reconcileTournament rs t hid, h1]) h2
      unfold reconcileAll at hT' hE'
      refine ⟨hT', ?_⟩
      rw [hE', entriesOf_reconcileTournament rs t hid]

/-- One run keeps an archived tournament's unique row archived and never
reactivates it, provided the tournament has financial history; its
entries are untouched. -/
theorem runSync_archived_terminal (cfg : MatchCfg) (time : Nat) (snap : Snapshot)
    (st : Store) (tid : Nat) (tr : Tournament)
    (h1 : tournamentsOf tid st.tournaments = [tr]) (h2 : tr.archivedAt.isSome)
    (h3 : hasPaidEntry st.entries tid = true) :
    ∃ tr', tournamentsOf tid (runSync cfg time snap st).tournaments = [tr'] ∧
      tr'.archivedAt.isSome ∧ (tr'.active = true → tr.active = true) ∧
      entriesOf tid (runSync cfg time snap st).entries = entriesOf tid st.entries := by
  obtain ⟨hT1, hE1⟩ :=
    reconcileAll_archived_skip snap { store := st, run := openRun st.nextRunId time }
      tid tr h1 h2
  set rs1 := reconcileAll cfg time snap { store := st, run := openRun st.nextRunId time }
    with hrs1
  have hE1' : entriesOf tid rs1.store.entries = entriesOf tid st.entries := hE1
  have hPaid1 : hasPaidEntry rs1.store.entries tid = true := by
    rw [hasPaid_eq_entriesOf, hE1', ← hasPaid_eq_entriesOf]
    exact h3
  have htrid : tr.id = tid := by
    have : tr ∈ tournamentsOf tid rs1.store.tournaments := by
      rw [hT1]; exact List.mem_singleton.mpr rfl
    have := (List.mem_filter.mp this).2
    rwa [decide_eq_true_eq] at this
  have hrunT : (runSync cfg time snap st).tournaments =
      (archivePhase time (snapTids snap) rs1).store.tournaments := rfl
  have hrunE : (runSync cfg time snap st).entries =
      (archivePhase time (snapTids snap) rs1).store.entries := rfl
  have hdead : ∀ d ∈ (rs1.store.tournaments.filter
      (fun t => t.id ∉ snapTids snap ∧ ¬ hasPaidEntry rs1.store.entries t.id)).map
        (·.id), d ≠ tid := by
    intro d hd hdeq
    subst hdeq
    rw [List.mem_map] at hd
    obtain ⟨row, hrow, hrid⟩ := hd
    have := (List.mem_filter.mp hrow).2
    rw [decide_eq_true_eq] at this
    rw [hrid, hPaid1] at this
    simp at this
  refine ⟨if tid ∈ snapTids snap then tr
    else { tr with archivedAt := some time, active := false }, ?_, ?_, ?_, ?_⟩
  · rw [hrunT]
    unfold archivePhase
    dsimp only
    unfold tournamentsOf
    rw [filter_map_pres _ _ (fun a => by split <;> rfl), List.filter_filter]
    have hsel : ∀ x : Tournament,
        (decide (x.id = tid) && decide (x.id ∈ snapTids snap ∨
          hasPaidEntry rs1.store.entries x.id = true)) =
        (decide (x.id ∈ snapTids snap ∨ hasPaidEntry rs1.store.entries x.id = true) &&
          decide (x.id = tid)) := fun x => Bool.and_comm _ _
    rw [show (fun x : Tournament => decide (x.id = tid) && decide (x.id ∈ snapTids snap ∨
        hasPaidEntry rs1.store.entries x.id = true)) = _ from funext hsel]
    rw [← List.filter_filter]
    show ((tournamentsOf tid rs1.store.tournaments).filter _).map _ = _
    rw [hT1]
    rw [List.filter_cons]
    rw [if_pos (by rw [decide_eq_true_eq, htrid]; exact Or.inr hPaid1)]
    rw [List.filter_nil, List.map_cons, List.map_nil]
    rw [htrid]
  · split
    · exact h2
    · simp
  · split
    · exact fun h => h
    · simp
  · rw [hrunE]
    show entriesOf tid (archivePhase time (snapTids snap) rs1).store.entries =
      entriesOf tid st.entries
    rw [← hE1']
    unfold archivePhase
    dsimp only
    unfold entriesOf
    rw [List.filter_filter]
    congr 1
    funext e
    by_cases he : e.tournamentId = tid
    · have hnd : decide (e.tournamentId ∉ (rs1.store.tournaments.filter
          (fun t => t.id ∉ snapTids snap ∧ ¬ hasPaidEntry rs1.store.entries t.id)).map
            (·.id)) = true := by
        rw [decide_eq_true_eq, he]
        intro hmem
        exact hdead tid hmem rfl
      rw [hnd]
      simp
    · have hf : decide (e.tournamentId = tid) = false := by
        simp [he]
      rw [hf]
      simp

/-- C9: along every sequence of reconciliation runs, the unique row of
an archived tournament with financial history stays archived and is
never reactivated — no run clears `archived_at` or turns `active` back
on, even when the tournament reappears in a later snapshot. (Clearing
`archived_at` is left to external administrative action, which is not a
reconciliation run.) -/
theorem runs_never_unarchive :
    ∀ (runsL : List (MatchCfg × Nat × Snapshot)) (st : Store) (tid : Nat)
      (tr : Tournament),
      tournamentsOf tid st.tournaments = [tr] → tr.archivedAt.isSome →
      hasPaidEntry st.entries tid = true →
      ∃ tr', tournamentsOf tid (applyRuns runsL st).tournaments = [tr'] ∧
        tr'.archivedAt.isSome ∧ (tr'.active = true → tr.active = true)
  | [], _, _, tr, h1, h2, _ => ⟨tr, h1, h2, fun h => h⟩
  | (cfg, time, snap) :: runsL, st, tid, tr, h1, h2, h3 => by
    obtain ⟨tr1, hT1, hA1, hAct1, hE1⟩ :=
      runSync_archived_terminal cfg time snap st tid tr h1 h2 h3
    have h3' : hasPaidEntry (runSync cfg time snap st).entries tid = true := by
      rw [hasPaid_eq_entriesOf, hE1, ← hasPaid_eq_entriesOf]
      exact h3
    obtain ⟨tr', hT', hA', hAct'⟩ :=
      runs_never_unarchive runsL (runSync cfg time snap st) tid tr1 hT1 hA1 h3'
    refine ⟨tr', ?_, hA', fun h => hAct1 (hAct' h)⟩
    unfold applyRuns
    rw [List.foldl_cons]
    exact hT'

/-- C9 witness: a concrete archived tournament with one paid entry keeps
`archived_at` set and stays inactive across two runs, the second of
which re-delivers the tournament in its snapshot. -/
theorem runs_never_unarchive_witness :
    ∃ tr', tournamentsOf 1
        (applyRuns
          [(⟨fun _ _ => 0, 1⟩, 8, []),
           (⟨fun _ _ => 0, 1⟩, 9, [⟨1, "T", .personal, [⟨"Ann", .pending⟩]⟩])]
          { Store.empty with
              tournaments := [⟨1, "T", .personal, false, some 3, 0, 0⟩],
              entries := [⟨5, 1, 9, .paid, false, false, .self, none, none, 0, 0⟩] }).tournaments =
        [tr'] ∧
      tr'.archivedAt.isSome ∧
      (tr'.active = true → (⟨1, "T", .personal, false, some 3, 0, 0⟩ : Tournament).active = true) :=
  runs_never_unarchive _ _ 1 ⟨1, "T", .personal, false, some 3, 0, 0⟩
    (by decide) (by decide) (by decide)

/-! ## Claim C7 — sync telemetry -/

/-- Entry upserts only bump counters: the run row's identity, start
time, finish time and error text, and the stored run log, are
untouched. -/
theorem upsertEntry_runMeta (time tid pid : Nat) (ps : PayStatus) (rs : RunState) :
    (upsertEntry time tid pid ps rs).run.id = rs.run.id ∧
    (upsertEntry time tid pid ps rs).run.startedAt = rs.run.startedAt ∧
    (upsertEntry time tid pid ps rs).run.finishedAt = rs.run.finishedAt ∧
    (upsertEntry time tid pid ps rs).run.error = rs.run.error ∧
    (upsertEntry time tid pid ps rs).store.runs = rs.store.runs := by
  unfold upsertEntry
  split <;> exact ⟨rfl, rfl, rfl, rfl, rfl⟩

/-- The roster pass only bumps counters: run row metadata and the run
log are untouched. -/
theorem entriesPassFold_runMeta {cfg : MatchCfg} {time tid : Nat} :
    ∀ (es : List SnapEntry) (acc : RunState × List Nat),
      ((es.foldl (reconcileEntry cfg time tid) acc).1.run.id = acc.1.run.id ∧
       (es.foldl (reconcileEntry cfg time tid) acc).1.run.startedAt = acc.1.run.startedAt ∧
       (es.foldl (reconcileEntry cfg time tid) acc).1.run.finishedAt = acc.1.run.finishedAt ∧
       (es.foldl (reconcileEntry cfg time tid) acc).1.run.error = acc.1.run.error) ∧
      (es.foldl (reconcileEntry cfg time tid) acc).1.store.runs = acc.1.store.runs
  | [], _ => ⟨⟨rfl, rfl, rfl, rfl⟩, rfl⟩
  | se :: es, acc => by
    rw [List.foldl_cons]
    obtain ⟨⟨m1, m2, m3, m4⟩, m5⟩ :=
      entriesPassFold_runMeta es (reconcileEntry cfg time tid acc se)
    rcases hres : resolveName cfg tid se.rawName acc.1.store with ⟨res, st', created⟩
    have hruns := resolveName_runs cfg tid se.rawName acc.1.store
    rw [hres] at hruns
    cases res with
    | linked pid =>
      simp only [reconcileEntry, hres] at m1 m2 m3 m4 m5 ⊢
      obtain ⟨u1, u2, u3, u4, u5⟩ := upsertEntry_runMeta time tid pid se.paymentStatus
        { store := st',
          run := if created then
              { acc.1.run with playersUpsert := acc.1.run.playersUpsert + 1 }
            else acc.1.run }
      rw [m1, m2, m3, m4, m5, u1, u2, u3, u4, u5]
      cases created <;> exact ⟨⟨rfl, rfl, rfl, rfl⟩, hruns⟩
    | quarantined pendId =>
      simp only [reconcileEntry, hres] at m1 m2 m3 m4 m5 ⊢
      rw [m1, m2, m3, m4, m5]
      exact ⟨⟨rfl, rfl, rfl, rfl⟩, hruns⟩

/-- The reconcile pass preserves run row metadata and the stored run
log. -/
theorem reconcileAll_runMeta {cfg : MatchCfg} {time : Nat} :
    ∀ (snap : Snapshot) (rs : RunState),
      ((reconcileAll cfg time snap rs).run.id = rs.run.id ∧
       (reconcileAll cfg time snap rs).run.startedAt = rs.run.startedAt ∧
       (reconcileAll cfg time snap rs).run.finishedAt = rs.run.finishedAt ∧
       (reconcileAll cfg time snap rs).run.error = rs.run.error) ∧
      (reconcileAll cfg time snap rs).store.runs = rs.store.runs
  | [], _ => ⟨⟨rfl, rfl, rfl, rfl⟩, rfl⟩
  | t :: snap, rs => by
    unfold reconcileAll
    rw [List.foldl_cons]
    obtain ⟨⟨m1, m2, m3, m4⟩, m5⟩ :=
      reconcileAll_runMeta snap (reconcileTournament cfg time rs t)
    unfold reconcileAll at m1 m2 m3 m4 m5
    rw [m1, m2, m3, m4, m5]
    clear m1 m2 m3 m4 m5
    unfold reconcileTournament
    split
    · split
      · exact ⟨⟨rfl, rfl, rfl, rfl⟩, rfl⟩
      · unfold reconcileEntries deactivateMissing entriesPass
        obtain ⟨⟨p1, p2, p3, p4⟩, p5⟩ :=
          @entriesPassFold_runMeta cfg time t.tid t.entries _
        exact ⟨⟨p1, p2, p3, p4⟩, p5⟩
    · unfold reconcileEntries deactivateMissing entriesPass
      obtain ⟨⟨p1, p2, p3, p4⟩, p5⟩ :=
        @entriesPassFold_runMeta cfg time t.tid t.entries _
      exact ⟨⟨p1, p2, p3, p4⟩, p5⟩

/-- C7: every run appends exactly one SyncRun row, opened with
`started_at` equal to the run time and every counter zero. A successful
run closes that row with `finished_at` set and no error; an aborted run
records the error text and still sets `finished_at`, and all six of its
counters are exactly the partial counters the reconcile pass had
accumulated over the tournaments committed before the failure. -/
theorem runSync_telemetry (cfg : MatchCfg) (time : Nat) (snap : Snapshot)
    (st : Store) (k : Nat) (msg : String) :
    ((openRun st.nextRunId time).startedAt = time ∧
     (openRun st.nextRunId time).finishedAt = none ∧
     (openRun st.nextRunId time).error = none ∧
     (openRun st.nextRunId time).tournamentsUpsert = 0 ∧
     (openRun st.nextRunId time).playersUpsert = 0 ∧
     (openRun st.nextRunId time).entriesNew = 0 ∧
     (openRun st.nextRunId time).entriesExisting = 0 ∧
     (openRun st.nextRunId time).entriesDeleted = 0 ∧
     (openRun st.nextRunId time).entriesInactivated = 0) ∧
    (∃ r, (runSync cfg time snap st).runs = st.runs ++ [r] ∧
      r.id = st.nextRunId ∧ r.startedAt = time ∧
      r.finishedAt = some time ∧ r.error = none) ∧
    (∃ r, (runSyncAborted cfg time snap k msg st).runs = st.runs ++ [r] ∧
      r.id = st.nextRunId ∧ r.startedAt = time ∧
      r.finishedAt = some time ∧ r.error = some msg ∧
      r.entriesNew = (reconcileAll cfg time (snap.take k)
        { store := st, run := openRun st.nextRunId time }).run.entriesNew ∧
      r.entriesExisting = (reconcileAll cfg time (snap.take k)
        { store := st, run := openRun st.nextRunId time }).run.entriesExisting ∧
      r.tournamentsUpsert = (reconcileAll cfg time (snap.take k)
        { store := st, run := openRun st.nextRunId time }).run.tournamentsUpsert ∧
      r.playersUpsert = (reconcileAll cfg time (snap.take k)
        { store := st, run := openRun st.nextRunId time }).run.playersUpsert ∧
      r.entriesInactivated = (reconcileAll cfg time (snap.take k)
        { store := st, run := openRun st.nextRunId time }).run.entriesInactivated ∧
      r.entriesDeleted = (reconcileAll cfg time (snap.take k)
        { store := st, run := openRun st.nextRunId time }).run.entriesDeleted) := by
  refine ⟨⟨rfl, rfl, rfl, rfl, rfl, rfl, rfl, rfl, rfl⟩, ?_, ?_⟩
  · obtain ⟨⟨m1, m2, m3, m4⟩, m5⟩ :=
      @reconcileAll_runMeta cfg time snap
        { store := st, run := openRun st.nextRunId time }
    refine ⟨{ (archivePhase time (snapTids snap) (reconcileAll cfg time snap
        { store := st, run := openRun st.nextRunId time })).run with
        finishedAt := some time, error := none }, ?_, ?_, ?_, rfl, rfl⟩
    · show (archivePhase time (snapTids snap) _).store.runs ++ _ = _
      have hruns : (archivePhase time (snapTids snap) (reconcileAll cfg time snap
          { store := st, run := openRun st.nextRunId time })).store.runs = st.runs := m5
      rw [hruns]
    · exact m1
    · exact m2
  · obtain ⟨⟨m1, m2, m3, m4⟩, m5⟩ :=
      @reconcileAll_runMeta cfg time (snap.take k)
        { store := st, run := openRun st.nextRunId time }
    refine ⟨{ (reconcileAll cfg time (snap.take k)
        { store := st, run := openRun st.nextRunId time }).run with
        finishedAt := some time, error := some msg }, ?_, ?_, ?_, rfl, rfl, rfl, rfl, rfl, rfl, rfl, rfl⟩
    · show (reconcileAll cfg time (snap.take k) _).store.runs ++ _ = _
      rw [show (reconcileAll cfg time (snap.take k)
          { store := st, run := openRun st.nextRunId time }).store.runs = st.runs from m5]
    · exact m1
    · exact m2

/-! ## Claim C6 — deactivation preserves entry rows -/

/-- The linked-pid accumulator of the roster pass only grows. -/
theorem entriesPassFold_pids_mono {cfg : MatchCfg} {time tid : Nat} :
    ∀ (es : List SnapEntry) (acc : RunState × List Nat),
      ∃ zs, (es.foldl (reconcileEntry cfg time tid) acc).2 = acc.2 ++ zs
  | [], acc => ⟨[], (List.append_nil _).symm⟩
  | se :: es, acc => by
    rw [List.foldl_cons]
    obtain ⟨zs, hzs⟩ := entriesPassFold_pids_mono es (reconcileEntry cfg time tid acc se)
    rcases hres : resolveName cfg tid se.rawName acc.1.store with ⟨res, st', created⟩
    cases res with
    | linked pid =>
      have hstep : (reconcileEntry cfg time tid acc se).2 = acc.2 ++ [pid] := by
        simp only [reconcileEntry, hres]
      exact ⟨[pid] ++ zs, by rw [hzs, hstep, List.append_assoc]⟩
    | quarantined pendId =>
      have hstep : (reconcileEntry cfg time tid acc se).2 = acc.2 := by
        simp only [reconcileEntry, hres]
      exact ⟨zs, by rw [hzs, hstep]⟩

/-- An entry that does not key-match the upsert survives it unchanged. -/
theorem upsertEntry_mem_of_ne (time tid pid : Nat) (ps : PayStatus) (rs : RunState)
    (e : Entry) (he : e ∈ rs.store.entries)
    (hne : entryMatches tid pid e = false) :
    e ∈ (upsertEntry time tid pid ps rs).store.entries := by
  unfold upsertEntry
  split
  · dsimp only
    have hfix : (fun x : Entry => if entryMatches tid pid x = true then
        { x with paymentStatus := ps, active := true, lastSeenInSource := time }
        else x) e = e := by
      dsimp only
      rw [hne]
      simp
    rw [← hfix]
    exact List.mem_map_of_mem _ he
  · exact List.mem_append_left _ he

/-- An entry of this tournament whose player is not linked by the pass
survives the roster pass unchanged. -/
theorem entriesPassFold_untouched {cfg : MatchCfg} {time tid : Nat} :
    ∀ (es : List SnapEntry) (acc : RunState × List Nat) (e : Entry),
      e ∈ acc.1.store.entries →
      e.playerId ∉ (es.foldl (reconcileEntry cfg time tid) acc).2 →
      e ∈ (es.foldl (reconcileEntry cfg time tid) acc).1.store.entries
  | [], _, _, he, _ => he
  | se :: es, acc, e, he, hp => by
    rw [List.foldl_cons] at hp ⊢
    rcases hres : resolveName cfg tid se.rawName acc.1.store with ⟨res, st', created⟩
    have hse := resolveName_entries cfg tid se.rawName acc.1.store
    rw [hres] at hse
    cases res with
    | linked pid =>
      refine entriesPassFold_untouched es _ e ?_ hp
      simp only [reconcileEntry, hres]
      have hpid : e.playerId ≠ pid := by
        intro heq
        obtain ⟨zs, hzs⟩ := entriesPassFold_pids_mono es (reconcileEntry cfg time tid acc se)
        refine hp ?_
        rw [hzs]
        simp only [reconcileEntry, hres]
        subst heq
        simp
      refine upsertEntry_mem_of_ne _ _ _ _ _ _ (hse ▸ he) ?_
      simp only [entryMatches, decide_eq_false_iff_not, not_and]
      intro _
      exact hpid
    | quarantined pendId =>
      refine entriesPassFold_untouched es _ e ?_ hp
      simp only [reconcileEntry, hres]
      exact hse ▸ he

/-- C6 (per-tournament pass): an entry of a reconciled tournament not
touched in the current pass has exactly its `active` flag set to false —
the row, with every other field unchanged, is still stored, never
deleted. -/
theorem reconcileEntries_untouched (cfg : MatchCfg) (time tid : Nat)
    (es : List SnapEntry) (rs : RunState) (e : Entry)
    (he : e ∈ rs.store.entries) (htid : e.tournamentId = tid)
    (hun : e.playerId ∉ (entriesPass cfg time tid es rs).2) :
    (if e.active then { e with active := false } else e) ∈
      (reconcileEntries cfg time tid es rs).store.entries := by
  have hsurv : e ∈ (entriesPass cfg time tid es rs).1.store.entries :=
    entriesPassFold_untouched es (rs, []) e he hun
  unfold reconcileEntries deactivateMissing
  dsimp only
  have hmap : (fun x : Entry =>
      if x.tournamentId = tid ∧ x.playerId ∉ (entriesPass cfg time tid es rs).2 ∧
          x.active = true then
        { x with active := false } else x) e =
      (if e.active then { e with active := false } else e) := by
    dsimp only
    by_cases ha : e.active = true
    · rw [if_pos ⟨htid, hun, ha⟩, if_pos ha]
    · rw [if_neg (fun hcon => ha hcon.2.2), if_neg ha]
  rw [← hmap]
  exact List.mem_map_of_mem _ hsurv

/-- Every entry row's identity, keys, manual-payment flag, pairing
links, scope and first-seen timestamp survive an entry upsert. -/
theorem upsertEntry_core (time tid pid : Nat) (ps : PayStatus) (rs : RunState)
    (e : Entry) (he : e ∈ rs.store.entries) :
    ∃ e' ∈ (upsertEntry time tid pid ps rs).store.entries,
      EntryCore e' = EntryCore e := by
  unfold upsertEntry
  split
  · refine ⟨_, List.mem_map_of_mem _ he, ?_⟩
    split <;> rfl
  · exact ⟨e, List.mem_append_left _ he, rfl⟩

/-- Core entry fields survive the roster pass. -/
theorem entriesPassFold_core {cfg : MatchCfg} {time tid : Nat} :
    ∀ (es : List SnapEntry) (acc : RunState × List Nat) (e : Entry),
      e ∈ acc.1.store.entries →
      ∃ e' ∈ (es.foldl (reconcileEntry cfg time tid) acc).1.store.entries,
        EntryCore e' = EntryCore e
  | [], _, e, he => ⟨e, he, rfl⟩
  | se :: es, acc, e, he => by
    rw [List.foldl_cons]
    rcases hres : resolveName cfg tid se.rawName acc.1.store with ⟨res, st', created⟩
    have hse := resolveName_entries cfg tid se.rawName acc.1.store
    rw [hres] at hse
    have hse' : st'.entries = acc.1.store.entries := hse
    cases res with
    | linked pid =>
      have hstep : ∃ e1 ∈ (reconcileEntry cfg time tid acc se).1.store.entries,
          EntryCore e1 = EntryCore e := by
        simp only [reconcileEntry, hres]
        exact upsertEntry_core time tid pid se.paymentStatus _ e (hse'.symm ▸ he)
      obtain ⟨e1, he1, hc1⟩ := hstep
      obtain ⟨e', he', hc'⟩ := entriesPassFold_core es _ e1 he1
      exact ⟨e', he', by rw [hc', hc1]⟩
    | quarantined pendId =>
      refine entriesPassFold_core es _ e ?_
      simp only [reconcileEntry, hres]
      exact hse'.symm ▸ he

/-- Core entry fields survive a tournament's roster pass. -/
theorem reconcileEntries_core (cfg : MatchCfg) (time tid : Nat) (es : List SnapEntry)
    (rs : RunState) (e : Entry) (he : e ∈ rs.store.entries) :
    ∃ e' ∈ (reconcileEntries cfg time tid es rs).store.entries,
      EntryCore e' = EntryCore e := by
  obtain ⟨e1, he1, hc1⟩ := entriesPassFold_core es (rs, []) e he
  unfold reconcileEntries deactivateMissing
  dsimp only
  refine ⟨_, List.mem_map_of_mem _ he1, ?_⟩
  dsimp only
  split <;> exact hc1

/-- Core entry fields survive the whole reconcile pass. -/
theorem reconcileAll_core {cfg : MatchCfg} {time : Nat} :
    ∀ (snap : Snapshot) (rs : RunState) (e : Entry),
      e ∈ rs.store.entries →
      ∃ e' ∈ (reconcileAll cfg time snap rs).store.entries,
        EntryCore e' = EntryCore e
  | [], _, e, he => ⟨e, he, rfl⟩
  | t :: snap, rs, e, he => by
    unfold reconcileAll
    rw [List.foldl_cons]
    have hstep : ∃ e1 ∈ (reconcileTournament cfg time rs t).store.entries,
        EntryCore e1 = EntryCore e := by
      unfold reconcileTournament
      split
      · split
        · exact ⟨e, he, rfl⟩
        · exact reconcileEntries_core cfg time t.tid t.entries _ e he
      · exact reconcileEntries_core cfg time t.tid t.entries _ e he
    obtain ⟨e1, he1, hc1⟩ := hstep
    obtain ⟨e', he', hc'⟩ := reconcileAll_core snap _ e1 he1
    unfold reconcileAll at he'
    exact ⟨e', he', by rw [hc', hc1]⟩

/-- C6 (run level): a reconciliation run never deletes an individual
entry row — every stored entry either survives the run with identity,
keys, manual-payment flag, pairing links, scope and first-seen
timestamp intact, or its whole tournament was hard-deleted, leaving no
tournament row with that identity and no entry of that tournament in
storage. -/
theorem runSync_entries_preserved (cfg : MatchCfg) (time : Nat) (snap : Snapshot)
    (st : Store) (e : Entry) (he : e ∈ st.entries) :
    (∃ e' ∈ (runSync cfg time snap st).entries, EntryCore e' = EntryCore e) ∨
    ((∀ tr' ∈ (runSync cfg time snap st).tournaments, tr'.id ≠ e.tournamentId) ∧
     (∀ e'' ∈ (runSync cfg time snap st).entries, e''.tournamentId ≠ e.tournamentId)) := by
  obtain ⟨e1, he1, hc1⟩ :=
    @reconcileAll_core cfg time snap
      { store := st, run := openRun st.nextRunId time } e he
  set rs1 := reconcileAll cfg time snap { store := st, run := openRun st.nextRunId time }
    with hrs1
  have htid1 : e1.tournamentId = e.tournamentId := by
    have := congrArg (fun c => c.2.1) hc1
    exact this
  have hrunT : (runSync cfg time snap st).tournaments =
      (archivePhase time (snapTids snap) rs1).store.tournaments := rfl
  have hrunE : (runSync cfg time snap st).entries =
      (archivePhase time (snapTids snap) rs1).store.entries := rfl
  by_cases hdead : e.tournamentId ∈ (rs1.store.tournaments.filter
      (fun t => t.id ∉ snapTids snap ∧ ¬ hasPaidEntry rs1.store.entries t.id)).map
        (·.id)
  · right
    constructor
    · intro tr' htr' htrid
      rw [hrunT] at htr'
      unfold archivePhase at htr'
      dsimp only at htr'
      rw [List.mem_map] at htr'
      obtain ⟨row, hrow, hmapped⟩ := htr'
      have hrowid : row.id = e.tournamentId := by
        rw [← htrid, ← hmapped]
        split <;> rfl
      rw [List.mem_map] at hdead
      obtain ⟨drow, hdrow, hdid⟩ := hdead
      have hkeep := (List.mem_filter.mp hrow).2
      have hdrop := (List.mem_filter.mp hdrow).2
      rw [decide_eq_true_eq] at hkeep hdrop
      rw [hrowid] at hkeep
      rw [hdid] at hdrop
      rcases hkeep with h | h
      · exact hdrop.1 h
      · rw [h] at hdrop
        exact absurd hdrop.2 (by simp)
    · intro e'' he'' hetid
      rw [hrunE] at he''
      unfold archivePhase at he''
      dsimp only at he''
      have := (List.mem_filter.mp he'').2
      rw [decide_eq_true_eq] at this
      rw [hetid] at this
      exact this hdead
  · left
    refine ⟨e1, ?_, hc1⟩
    rw [hrunE]
    unfold archivePhase
    dsimp only
    refine List.mem_filter.mpr ⟨he1, ?_⟩
    rw [decide_eq_true_eq, htid1]
    exact hdead

/-- C6: an entry of a reconciled tournament that is not touched in the
current pass has exactly its `active` flag set to false and every other
field unchanged — the row is never deleted; and at run level every
stored entry either survives with identity, keys, `manual_paid`,
pairing links, scope and `first_seen_in_source` intact, or was removed
only because its whole tournament was hard-deleted (no tournament row
with that identity and no entry of it remain). -/
theorem entry_deactivation_spec :
    (∀ (cfg : MatchCfg) (time tid : Nat) (es : List SnapEntry) (rs : RunState)
       (e : Entry), e ∈ rs.store.entries → e.tournamentId = tid →
       e.playerId ∉ (entriesPass cfg time tid es rs).2 →
       (if e.active then { e with active := false } else e) ∈
         (reconcileEntries cfg time tid es rs).store.entries) ∧
    (∀ (cfg : MatchCfg) (time : Nat) (snap : Snapshot) (st : Store) (e : Entry),
       e ∈ st.entries →
       (∃ e' ∈ (runSync cfg time snap st).entries, EntryCore e' = EntryCore e) ∨
       ((∀ tr' ∈ (runSync cfg time snap st).tournaments, tr'.id ≠ e.tournamentId) ∧
        (∀ e'' ∈ (runSync cfg time snap st).entries, e''.tournamentId ≠ e.tournamentId))) :=
  ⟨fun cfg time tid es rs e he htid hun =>
      reconcileEntries_untouched cfg time tid es rs e he htid hun,
   fun cfg time snap st e he =>
      runSync_entries_preserved cfg time snap st e he⟩

/-- C6 witness: a concrete paid entry absent from its tournament's
snapshot roster is deactivated in place — the stored row keeps every
field except `active` — and the run-level preservation holds on the same
store. -/
theorem entry_deactivation_spec_witness :
    (⟨5, 1, 9, .paid, false, false, .self, none, none, 0, 0⟩ : Entry) ∈
      (reconcileEntries ⟨fun _ _ => 0, 1⟩ 4 1 []
        { store := { Store.empty with
            tournaments := [⟨1, "T", .personal, true, none, 0, 0⟩],
            entries := [⟨5, 1, 9, .paid, true, false, .self, none, none, 0, 0⟩] },
          run := openRun 0 4 }).store.entries ∧
    ((∃ e' ∈ (runSync ⟨fun _ _ => 0, 1⟩ 4 [⟨1, "T", .personal, []⟩]
        { Store.empty with
            tournaments := [⟨1, "T", .personal, true, none, 0, 0⟩],
            entries := [⟨5, 1, 9, .paid, true, false, .self, none, none, 0, 0⟩] }).entries,
        EntryCore e' =
          EntryCore ⟨5, 1, 9, .paid, true, false, .self, none, none, 0, 0⟩) ∨
     ((∀ tr' ∈ (runSync ⟨fun _ _ => 0, 1⟩ 4 [⟨1, "T", .personal, []⟩]
        { Store.empty with
            tournaments := [⟨1, "T", .personal, true, none, 0, 0⟩],
            entries := [⟨5, 1, 9, .paid, true, false, .self, none, none, 0, 0⟩] }).tournaments,
        tr'.id ≠ 1) ∧
      (∀ e'' ∈ (runSync ⟨fun _ _ => 0, 1⟩ 4 [⟨1, "T", .personal, []⟩]
        { Store.empty with
            tournaments := [⟨1, "T", .personal, true, none, 0, 0⟩],
            entries := [⟨5, 1, 9, .paid, true, false, .self, none, none, 0, 0⟩] }).entries,
        e''.tournamentId ≠ 1))) := by
  constructor
  · have h := entry_deactivation_spec.1 ⟨fun _ _ => 0, 1⟩ 4 1 []
      { store := { Store.empty with
          tournaments := [⟨1, "T", .personal, true, none, 0, 0⟩],
          entries := [⟨5, 1, 9, .paid, true, false, .self, none, none, 0, 0⟩] },
        run := openRun 0 4 }
      ⟨5, 1, 9, .paid, true, false, .self, none, none, 0, 0⟩
      (by decide) (by decide) (by decide)
    simpa using h
  · exact entry_deactivation_spec.2 ⟨fun _ _ => 0, 1⟩ 4 [⟨1, "T", .personal, []⟩]
      { Store.empty with
          tournaments := [⟨1, "T", .personal, true, none, 0, 0⟩],
          entries := [⟨5, 1, 9, .paid, true, false, .self, none, none, 0, 0⟩] }
      ⟨5, 1, 9, .paid, true, false, .self, none, none, 0, 0⟩ (by decide)

/-! ## Claim C3 — quarantine uniqueness -/

/-- A map that never turns the selection predicate on cannot increase a
filter's length. -/
theorem filter_map_le {α : Type} (p : α → Bool) (f : α → α)
    (hf : ∀ a, p (f a) = true → p a = true) :
    ∀ l : List α, ((l.map f).filter p).length ≤ (l.filter p).length
  | [] => Nat.le_refl _
  | a :: l => by
    rw [List.map_cons, List.filter_cons, List.filter_cons]
    cases hfa : p (f a)
    · cases hpa : p a
      · simp only [Bool.false_eq_true, if_false]
        exact filter_map_le p f hf l
      · simp only [Bool.false_eq_true, if_false, if_true, List.length_cons]
        exact Nat.le_succ_of_le (filter_map_le p f hf l)
    · rw [hf a hfa]
      simp only [if_true, List.length_cons]
      exact Nat.succ_le_succ (filter_map_le p f hf l)

/-- Restricting the table cannot break quarantine uniqueness. -/
theorem pendingUnique_filter (q : PendingEntry → Bool) {l : List PendingEntry}
    (h : PendingUniqueL l) : PendingUniqueL (l.filter q) := by
  intro tid n
  refine Nat.le_trans ?_ (h tid n)
  exact List.Sublist.length_le (List.Sublist.filter _ (List.filter_sublist l))

/-- Entry upserts never touch the quarantine table. -/
theorem upsertEntry_pendings (time tid pid : Nat) (ps : PayStatus) (rs : RunState) :
    (upsertEntry time tid pid ps rs).store.pendings = rs.store.pendings := by
  unfold upsertEntry
  split <;> rfl

/-- Identity resolution preserves quarantine uniqueness: a new pending
row is created only when no open row for its (tournament, normalized
name) exists. -/
theorem pu_append_one (l : List PendingEntry) (pe : PendingEntry)
    (h : PendingUniqueL l)
    (hnone : l.find? (fun q => q.tournamentId = pe.tournamentId ∧
      q.normalizedName = pe.normalizedName ∧ q.status = PendStatus.pending) = none) :
    PendingUniqueL (l ++ [pe]) := by
  intro tid n
  rw [List.filter_append, List.length_append]
  by_cases hmatch : pe.tournamentId = tid ∧ pe.normalizedName = n ∧
      pe.status = PendStatus.pending
  · have hnil : l.filter (fun q => q.tournamentId = tid ∧ q.normalizedName = n ∧
        q.status = PendStatus.pending) = [] := by
      rw [List.filter_eq_nil_iff]
      intro q hq
      have hq2 := List.find?_eq_none.mp hnone q hq
      simp only [decide_eq_true_eq] at hq2 ⊢
      intro hcon
      exact hq2 ⟨hcon.1.trans hmatch.1.symm, hcon.2.1.trans hmatch.2.1.symm, hcon.2.2⟩
    rw [hnil]
    simp only [List.length_nil, Nat.zero_add]
    exact List.length_filter_le _ _
  · have hz : List.filter (fun q => decide (q.tournamentId = tid ∧ q.normalizedName = n ∧
        q.status = PendStatus.pending)) [pe] = [] := by
      rw [List.filter_eq_nil_iff]
      intro q hq
      rw [List.mem_singleton] at hq
      subst hq
      simp only [decide_eq_true_eq]
      exact hmatch
    rw [hz]
    simp only [List.length_nil, Nat.add_zero]
    exact h tid n

/-- Identity resolution preserves quarantine uniqueness: a new pending
row is created only when no open row for its (tournament, normalized
name) exists. -/
theorem pendingUnique_resolveName (cfg : MatchCfg) (tid : Nat) (raw : String)
    (st : Store) (h : PendingUniqueL st.pendings) :
    PendingUniqueL (resolveName cfg tid raw st).2.1.pendings := by
  unfold resolveName
  dsimp only
  repeat' split
  any_goals exact h
  rename_i hfind
  exact pu_append_one st.pendings _ h hfind

/-- The roster pass preserves quarantine uniqueness. -/
theorem pendingUnique_entriesPassFold {cfg : MatchCfg} {time tid : Nat} :
    ∀ (es : List SnapEntry) (acc : RunState × List Nat),
      PendingUniqueL acc.1.store.pendings →
      PendingUniqueL (es.foldl (reconcileEntry cfg time tid) acc).1.store.pendings
  | [], _, h => h
  | se :: es, acc, h => by
    rw [List.foldl_cons]
    refine pendingUnique_entriesPassFold es _ ?_
    rcases hres : resolveName cfg tid se.rawName acc.1.store with ⟨res, st', created⟩
    have hstep := pendingUnique_resolveName cfg tid se.rawName acc.1.store h
    rw [hres] at hstep
    cases res with
    | linked pid =>
      simp only [reconcileEntry, hres]
      rw [upsertEntry_pendings]
      exact hstep
    | quarantined pendId =>
      simp only [reconcileEntry, hres]
      exact hstep

/-- The reconcile pass preserves quarantine uniqueness. -/
theorem pendingUnique_reconcileAll {cfg : MatchCfg} {time : Nat} :
    ∀ (snap : Snapshot) (rs : RunState),
      PendingUniqueL rs.store.pendings →
      PendingUniqueL (reconcileAll cfg time snap rs).store.pendings
  | [], _, h => h
  | t :: snap, rs, h => by
    unfold reconcileAll
    rw [List.foldl_cons]
    have hstep : PendingUniqueL (reconcileTournament cfg time rs t).store.pendings := by
      unfold reconcileTournament
      split
      · split
        · exact h
        · unfold reconcileEntries deactivateMissing entriesPass
          exact pendingUnique_entriesPassFold t.entries _ h
      · unfold reconcileEntries deactivateMissing entriesPass
        exact pendingUnique_entriesPassFold t.entries _ h
    have hrec := @pendingUnique_reconcileAll cfg time snap
      (reconcileTournament cfg time rs t) hstep
    unfold reconcileAll at hrec
    exact hrec

/-- A complete run preserves quarantine uniqueness. -/
theorem pendingUnique_runSync (cfg : MatchCfg) (time : Nat) (snap : Snapshot)
    (st : Store) (h : PendingUniqueL st.pendings) :
    PendingUniqueL (runSync cfg time snap st).pendings := by
  show PendingUniqueL ((archivePhase time (snapTids snap)
    (reconcileAll cfg time snap { store := st, run := openRun st.nextRunId time })).store.pendings)
  unfold archivePhase
  dsimp only
  exact pendingUnique_filter _ (pendingUnique_reconcileAll snap _ h)

/-- An aborted run preserves quarantine uniqueness. -/
theorem pendingUnique_runSyncAborted (cfg : MatchCfg) (time : Nat) (snap : Snapshot)
    (k : Nat) (msg : String) (st : Store) (h : PendingUniqueL st.pendings) :
    PendingUniqueL (runSyncAborted cfg time snap k msg st).pendings := by
  show PendingUniqueL ((reconcileAll cfg time (snap.take k)
    { store := st, run := openRun st.nextRunId time }).store.pendings)
  exact pendingUnique_reconcileAll _ _ h

/-- Administrative resolution preserves quarantine uniqueness: every
action moves the addressed row's status away from `pending`. -/
theorem pendingUnique_resolvePending (time pendingId : Nat) (act : PendAction)
    (st : Store) (h : PendingUniqueL st.pendings) :
    PendingUniqueL (resolvePending time pendingId act st).pendings := by
  have hstatus : ∀ (f : PendingEntry → PendingEntry),
      (∀ q, (f q).tournamentId = q.tournamentId ∧ (f q).normalizedName = q.normalizedName ∧
        ((f q).status = PendStatus.pending → q.status = PendStatus.pending)) →
      PendingUniqueL (st.pendings.map f) := by
    intro f hf tid n
    refine Nat.le_trans (filter_map_le _ f ?_ st.pendings) (h tid n)
    intro a ha
    rw [decide_eq_true_eq] at ha ⊢
    obtain ⟨h1, h2, h3⟩ := hf a
    exact ⟨h1 ▸ ha.1, h2 ▸ ha.2.1, h3 ha.2.2⟩
  unfold resolvePending
  split
  · exact h
  · split
    · rename_i pe hfind x pid mkAlias
      have hmapped : PendingUniqueL (st.pendings.map (fun q =>
          if q.id = pendingId then
            { q with status := PendStatus.resolved, resolvedPlayerId := some pid }
          else q)) := by
        refine hstatus _ fun q => ?_
        dsimp only
        split
        · exact ⟨rfl, rfl, fun hcon => absurd hcon (by simp)⟩
        · exact ⟨rfl, rfl, fun hq => hq⟩
      dsimp only
      split <;> split <;> exact hmapped
    · refine hstatus _ fun q => ?_
      dsimp only
      split
      · exact ⟨rfl, rfl, fun hcon => absurd hcon (by simp)⟩
      · exact ⟨rfl, rfl, fun hq => hq⟩
    · refine hstatus _ fun q => ?_
      dsimp only
      split
      · exact ⟨rfl, rfl, fun hcon => absurd hcon (by simp)⟩
      · exact ⟨rfl, rfl, fun hq => hq⟩
    · refine hstatus _ fun q => ?_
      dsimp only
      split
      · exact ⟨rfl, rfl, fun hcon => absurd hcon (by simp)⟩
      · exact ⟨rfl, rfl, fun hq => hq⟩

/-- A successful pair payment never touches the quarantine table. -/
theorem pairPayment_pendings {payerId partnerId : Nat} {st st' : Store}
    (h : pairPayment payerId partnerId st = .ok st') :
    st'.pendings = st.pendings := by
  unfold pairPayment at h
  repeat' split at h
  all_goals first
    | (injection h with h2; rw [← h2])
    | simp at h

/-! ## Properties of name normalization -/

/-- Characters built by `Char.ofNat` below the surrogate range keep
their code point. -/
theorem char_toNat_ofNat {n : Nat} (h : n < 55296) : (Char.ofNat n).toNat = n := by
  have hv : n.isValidChar := Or.inl h
  rw [Char.ofNat, dif_pos hv]
  rfl

/-- Character order compares code points. -/
theorem char_le_iff_toNat {a b : Char} : a ≤ b ↔ a.toNat ≤ b.toNat :=
  ⟨fun h => h, fun h => h⟩

/-- `lowerChar` never produces an ASCII capital letter. -/
theorem lowerChar_not_ascii_upper (c : Char) :
    ¬ ('A' ≤ lowerChar c ∧ lowerChar c ≤ 'Z') := by
  unfold lowerChar
  split
  · rename_i h
    have hb : c.toNat ≤ 90 := char_le_iff_toNat.mp h.2
    rintro ⟨-, hc2⟩
    have h2 : (Char.ofNat (c.toNat + 32)).toNat ≤ 90 := char_le_iff_toNat.mp hc2
    rw [char_toNat_ofNat (by omega)] at h2
    have ha : 65 ≤ c.toNat := char_le_iff_toNat.mp h.1
    omega
  · split
    · rename_i _ h
      have ha : 1040 ≤ c.toNat := char_le_iff_toNat.mp h.1
      have hb : c.toNat ≤ 1071 := char_le_iff_toNat.mp h.2
      rintro ⟨-, hc2⟩
      have h2 : (Char.ofNat (c.toNat + 32)).toNat ≤ 90 := char_le_iff_toNat.mp hc2
      rw [char_toNat_ofNat (by omega)] at h2
      omega
    · split
      · rintro ⟨h1, h2⟩
        have h1' : (65 : Nat) ≤ 1105 := char_le_iff_toNat.mp h1
        have h2' : (1105 : Nat) ≤ 90 := char_le_iff_toNat.mp h2
        omega
      · rename_i hA _ _
        exact hA

/-- `lowerChar` never produces a Cyrillic capital letter (А–Я). -/
theorem lowerChar_not_cyr_upper (c : Char) :
    ¬ ('А' ≤ lowerChar c ∧ lowerChar c ≤ 'Я') := by
  unfold lowerChar
  split
  · rename_i h
    have ha : 65 ≤ c.toNat := char_le_iff_toNat.mp h.1
    have hb : c.toNat ≤ 90 := char_le_iff_toNat.mp h.2
    rintro ⟨hc1, -⟩
    have h1 : 1040 ≤ (Char.ofNat (c.toNat + 32)).toNat := char_le_iff_toNat.mp hc1
    rw [char_toNat_ofNat (by omega)] at h1
    omega
  · split
    · rename_i _ h
      have ha : 1040 ≤ c.toNat := char_le_iff_toNat.mp h.1
      have hb : c.toNat ≤ 1071 := char_le_iff_toNat.mp h.2
      rintro ⟨-, hc2⟩
      have h2 : (Char.ofNat (c.toNat + 32)).toNat ≤ 1071 := char_le_iff_toNat.mp hc2
      rw [char_toNat_ofNat (by omega)] at h2
      omega
    · split
      · rintro ⟨h1, h2⟩
        have h1' : (1040 : Nat) ≤ 1105 := char_le_iff_toNat.mp h1
        have h2' : (1105 : Nat) ≤ 1071 := char_le_iff_toNat.mp h2
        omega
      · rename_i _ hB _
        exact hB

/-- A character with code point at least 33 is not whitespace. -/
theorem isWs_eq_false {x : Char} (h : 33 ≤ x.toNat) : isWs x = false := by
  unfold isWs
  simp only [Bool.or_eq_false_iff, decide_eq_false_iff_not]
  refine ⟨⟨⟨?_, ?_⟩, ?_⟩, ?_⟩ <;> intro he <;> subst he <;> exact absurd h (by decide)

/-- `lowerChar` preserves whitespace-ness: letters stay letters,
whitespace stays itself. -/
theorem isWs_lowerChar (c : Char) : isWs (lowerChar c) = isWs c := by
  unfold lowerChar
  split
  · rename_i h
    have ha : 65 ≤ c.toNat := char_le_iff_toNat.mp h.1
    have hb : c.toNat ≤ 90 := char_le_iff_toNat.mp h.2
    have ht : (Char.ofNat (c.toNat + 32)).toNat = c.toNat + 32 :=
      char_toNat_ofNat (by omega)
    rw [isWs_eq_false (x := c) (by omega), isWs_eq_false (by omega : 33 ≤ _)]
  · split
    · rename_i _ h
      have ha : 1040 ≤ c.toNat := char_le_iff_toNat.mp h.1
      have hb : c.toNat ≤ 1071 := char_le_iff_toNat.mp h.2
      have ht : (Char.ofNat (c.toNat + 32)).toNat = c.toNat + 32 :=
        char_toNat_ofNat (by omega)
      rw [isWs_eq_false (x := c) (by omega), isWs_eq_false (by omega : 33 ≤ _)]
    · split
      · rename_i _ _ h
        subst h
        decide
      · rfl

/-- The ё-fold preserves whitespace-ness charwise. -/
theorem isWs_yoChar (c : Char) :
    isWs (if c = 'ё' then 'е' else c) = isWs c := by
  split
  · subst_vars; decide
  · rfl

/-- The ё-fold never outputs the letter ё. -/
theorem yoChar_ne_yo (c : Char) : (if c = 'ё' then 'е' else c) ≠ 'ё' := by
  split
  · decide
  · assumption

/-- Every character of the collapsed list is a character of the input or
the single space substituted for a whitespace run. -/
theorem mem_collapseWs : ∀ (l : List Char), ∀ c ∈ collapseWs l, c ∈ l ∨ c = ' '
  | [] => by intro c hc; simp [collapseWs] at hc
  | [d] => by
    intro c hc
    simp only [collapseWs, List.mem_singleton] at hc
    subst hc
    split
    · exact Or.inr rfl
    · exact Or.inl (List.mem_singleton.mpr rfl)
  | a :: b :: rest => by
    intro c hc
    simp only [collapseWs] at hc
    split at hc
    · rcases mem_collapseWs (b :: rest) c hc with h | h
      · exact Or.inl (List.mem_cons_of_mem a h)
      · exact Or.inr h
    · rcases List.mem_cons.mp hc with h | h
      · subst h
        split
        · exact Or.inr rfl
        · exact Or.inl (List.mem_cons_self a (b :: rest))
      · rcases mem_collapseWs (b :: rest) c h with h' | h'
        · exact Or.inl (List.mem_cons_of_mem a h')
        · exact Or.inr h'

/-- Collapsing whitespace never empties a non-empty list. -/
theorem collapseWs_ne_nil : ∀ {l : List Char}, l ≠ [] → collapseWs l ≠ []
  | [], h => absurd rfl h
  | [_], _ => by simp [collapseWs]
  | a :: b :: rest, _ => by
    simp only [collapseWs]
    split
    · exact collapseWs_ne_nil (List.cons_ne_nil b rest)
    · exact List.cons_ne_nil _ _

/-- Collapsing keeps a non-whitespace head in place. -/
theorem head?_collapseWs {c : Char} (h : isWs c = false) :
    ∀ (l : List Char), (collapseWs (c :: l)).head? = some c
  | [] => by simp [collapseWs, h]
  | b :: rest => by
    simp only [collapseWs]
    split
    · rename_i hw
      rw [h] at hw
      exact absurd hw.1 (by simp)
    · simp [h]

/-- Collapsing keeps a non-whitespace last character in place. -/
theorem getLast?_collapseWs {c : Char} (h : isWs c = false) :
    ∀ (l : List Char), l.getLast? = some c → (collapseWs l).getLast? = some c
  | [], hl => by simp at hl
  | [d], hl => by
    simp only [List.getLast?_singleton] at hl
    obtain rfl := Option.some.inj hl
    simp [collapseWs, h]
  | a :: b :: rest, hl => by
    rw [List.getLast?_cons_cons] at hl
    simp only [collapseWs]
    split
    · exact getLast?_collapseWs h (b :: rest) hl
    · rw [List.getLast?_cons, getLast?_collapseWs h (b :: rest) hl]
      rfl

/-- After collapsing, no two adjacent characters are both whitespace. -/
theorem chain'_collapseWs :
    ∀ (l : List Char),
      List.Chain' (fun a b => ¬ (isWs a = true ∧ isWs b = true)) (collapseWs l)
  | [] => by simp [collapseWs]
  | [_] => by simp [collapseWs]
  | a :: b :: rest => by
    simp only [collapseWs]
    split
    · exact chain'_collapseWs (b :: rest)
    · rename_i hw
      refine (chain'_collapseWs (b :: rest)).cons' ?_
      intro y hy
      by_cases hb : isWs b = true
      · have ha : isWs a = false := by
          cases hA : isWs a
          · rfl
          · exact absurd ⟨hA, hb⟩ hw
        rw [if_neg (by simp [ha])]
        rw [ha]
        simp
      · rw [head?_collapseWs (by simpa using hb) rest] at hy
        cases hy
        intro hcon
        exact hb hcon.2

/-- The head of a `dropWhile` result fails the predicate. -/
theorem head?_dropWhile_false {α : Type} (p : α → Bool) :
    ∀ (l : List α) {c : α}, (l.dropWhile p).head? = some c → p c = false
  | [], c, h => by simp [List.dropWhile] at h
  | a :: l, c, h => by
    rw [List.dropWhile_cons] at h
    split at h
    · exact head?_dropWhile_false p l h
    · rename_i hp
      simp only [List.head?_cons, Option.some.injEq] at h
      subst h
      simpa using hp

/-- A non-empty `dropWhile` result ends where the list ends. -/
theorem getLast?_dropWhile {α : Type} (p : α → Bool) :
    ∀ (l : List α), l.dropWhile p ≠ [] → (l.dropWhile p).getLast? = l.getLast?
  | [], h => absurd rfl h
  | a :: l, h => by
    by_cases hp : p a = true
    · rw [List.dropWhile_cons, if_pos hp] at h ⊢
      cases l with
      | nil => simp [List.dropWhile] at h
      | cons x xs =>
        rw [List.getLast?_cons_cons]
        exact getLast?_dropWhile p (x :: xs) h
    · rw [List.dropWhile_cons, if_neg hp]

/-- Trimming returns a selection of the input's characters. -/
theorem trimSpaces_subset (l : List Char) : trimSpaces l ⊆ l := by
  intro c hc
  unfold trimSpaces at hc
  rw [List.mem_reverse] at hc
  have h1 := (List.dropWhile_sublist _).subset hc
  rw [List.mem_reverse] at h1
  exact (List.dropWhile_sublist _).subset h1

/-- A trimmed list never ends in a space character. -/
theorem trimSpaces_getLast?_ne_space {l : List Char} {c : Char}
    (h : (trimSpaces l).getLast? = some c) : ¬ c = ' ' := by
  unfold trimSpaces at h
  rw [List.getLast?_reverse] at h
  have := head?_dropWhile_false _ _ h
  simpa using this

/-- A trimmed list never starts with a space character. -/
theorem trimSpaces_head?_ne_space {l : List Char} {c : Char}
    (h : (trimSpaces l).head? = some c) : ¬ c = ' ' := by
  unfold trimSpaces at h
  rw [List.head?_reverse] at h
  have hne : (List.dropWhile (· = ' ') (List.dropWhile (· = ' ') l).reverse) ≠ [] := by
    intro he
    rw [he] at h
    simp at h
  rw [getLast?_dropWhile _ _ hne, List.getLast?_reverse] at h
  have := head?_dropWhile_false _ _ h
  simpa using this

/-- Every character of a normalized name is case-folded — never an ASCII
or Cyrillic capital — and never the letter ё. -/
theorem normalizeName_chars (s : String) :
    ∀ c ∈ (normalizeName s).data,
      ¬ ('A' ≤ c ∧ c ≤ 'Z') ∧ ¬ ('А' ≤ c ∧ c ≤ 'Я') ∧ c ≠ 'ё' := by
  intro c hc
  rcases mem_collapseWs _ c hc with hm | rfl
  · unfold yoFold at hm
    rw [List.mem_map] at hm
    obtain ⟨d, hd, rfl⟩ := hm
    rw [List.mem_map] at hd
    obtain ⟨e, _, rfl⟩ := hd
    refine ⟨?_, ?_, yoChar_ne_yo (lowerChar e)⟩
    · split
      · decide
      · exact lowerChar_not_ascii_upper e
    · split
      · decide
      · exact lowerChar_not_cyr_upper e
  · exact ⟨by decide, by decide, by decide⟩

/-- A normalized name contains no two adjacent whitespace characters:
internal whitespace runs are collapsed. -/
theorem normalizeName_no_double_ws (s : String) :
    List.Chain' (fun a b => ¬ (isWs a = true ∧ isWs b = true)) (normalizeName s).data :=
  chain'_collapseWs _

/-- When the raw name's whitespace consists of spaces only, the
normalized name has no leading or trailing space. (An edge tab or
newline survives trimming and is collapsed to a single edge space
instead.) -/
theorem normalizeName_trims_spaces {s : String}
    (hs : ∀ c ∈ s.data, isWs c = true → c = ' ') :
    (normalizeName s).data.head? ≠ some ' ' ∧
    (normalizeName s).data.getLast? ≠ some ' ' := by
  show (collapseWs (yoFold ((trimSpaces s.data).map lowerChar))).head? ≠ some ' ' ∧
    (collapseWs (yoFold ((trimSpaces s.data).map lowerChar))).getLast? ≠ some ' '
  cases hh : trimSpaces s.data with
  | nil => simp [hh, yoFold, collapseWs]
  | cons a tl =>
    have haMem : a ∈ s.data := trimSpaces_subset s.data (hh ▸ List.mem_cons_self a tl)
    have haSp : ¬ a = ' ' := trimSpaces_head?_ne_space (by rw [hh]; rfl)
    have haWs : isWs a = false := by
      cases hA : isWs a
      · rfl
      · exact absurd (hs a haMem hA) haSp
    obtain ⟨b, hb⟩ : ∃ b, (a :: tl).getLast? = some b := by
      cases hB : (a :: tl).getLast? with
      | none => simp at hB
      | some b => exact ⟨b, rfl⟩
    have hbMem : b ∈ s.data := by
      refine trimSpaces_subset s.data ?_
      rw [hh]
      exact List.mem_of_mem_getLast? (Option.mem_def.mpr hb)
    have hbSp : ¬ b = ' ' := trimSpaces_getLast?_ne_space (by rw [hh]; exact hb)
    have hbWs : isWs b = false := by
      cases hB : isWs b
      · rfl
      · exact absurd (hs b hbMem hB) hbSp
    have hga : isWs (if lowerChar a = 'ё' then 'е' else lowerChar a) = false := by
      rw [isWs_yoChar, isWs_lowerChar, haWs]
    have hgb : isWs (if lowerChar b = 'ё' then 'е' else lowerChar b) = false := by
      rw [isWs_yoChar, isWs_lowerChar, hbWs]
    constructor
    · show (collapseWs (yoFold ((a :: tl).map lowerChar))).head? ≠ some ' '
      unfold yoFold
      rw [List.map_cons, List.map_cons,
        head?_collapseWs hga (tl.map lowerChar |>.map _)]
      intro hcon
      rw [Option.some.injEq] at hcon
      rw [hcon] at hga
      exact absurd hga (by decide)
    · show (collapseWs (yoFold ((a :: tl).map lowerChar))).getLast? ≠ some ' '
      have hmlast : (yoFold ((a :: tl).map lowerChar)).getLast? =
          some (if lowerChar b = 'ё' then 'е' else lowerChar b) := by
        unfold yoFold
        rw [List.getLast?_map, List.getLast?_map, hb]
        rfl
      rw [getLast?_collapseWs hgb _ hmlast]
      intro hcon
      rw [Option.some.injEq] at hcon
      rw [hcon] at hgb
      exact absurd hgb (by decide)

/-! ## Claim C5 — name normalization -/

/-- C5 counterexample: `normalize_name` does not trim all leading and
trailing whitespace, and does not transliterate Latin diacritics. A raw
name ending in a tab normalizes to a name ending in a space (the tab
survives Postgres `trim`, which strips spaces only, and the whitespace
run collapses to one space), and the accented name "José" keeps its
accent. -/
theorem normalizeName_counterexample :
    normalizeName "ivan\t" = "ivan " ∧
    (normalizeName "ivan\t").data.getLast? = some ' ' ∧
    normalizeName "José" = "josé" := by
  exact ⟨by decide, by decide, by decide⟩

/-- C5 (amended): `normalize_name` lower-cases ASCII and Cyrillic
letters, trims leading and trailing spaces (a whitespace run touching an
edge that contains a tab, newline or carriage return leaves a single
edge space instead), collapses every whitespace run to a single space,
and folds the single Cyrillic letter ё to е (no other diacritic
handling); in particular "ivan  petrov" (double space) normalizes equal
to "Ivan Petrov", so a raw name "ivan  petrov" whose store has a player
normalized as "Ivan Petrov" is linked directly, with the store — and in
particular its pending_entries — unchanged. -/
theorem normalizeName_spec :
    normalizeName "ivan  petrov" = normalizeName "Ivan Petrov" ∧
    (∀ (cfg : MatchCfg) (tid : Nat) (st : Store) (p : Player),
      findPlayerByNorm st.players (normalizeName "Ivan Petrov") = some p →
      resolveName cfg tid "ivan  petrov" st = (.linked p.id, st, false)) ∧
    (∀ s : String, ∀ c ∈ (normalizeName s).data,
      ¬ ('A' ≤ c ∧ c ≤ 'Z') ∧ ¬ ('А' ≤ c ∧ c ≤ 'Я') ∧ c ≠ 'ё') ∧
    (∀ s : String,
      List.Chain' (fun a b => ¬ (isWs a = true ∧ isWs b = true)) (normalizeName s).data) ∧
    (∀ s : String, (∀ c ∈ s.data, isWs c = true → c = ' ') →
      (normalizeName s).data.head? ≠ some ' ' ∧
      (normalizeName s).data.getLast? ≠ some ' ') := by
  refine ⟨by decide, ?_, normalizeName_chars, normalizeName_no_double_ws,
    fun s hs => normalizeName_trims_spaces hs⟩
  intro cfg tid st p hp
  have hn : normalizeName "ivan  petrov" = normalizeName "Ivan Petrov" := by decide
  simp only [resolveName, hn, hp]

/-- C5 witness: the amended theorem evaluated at the concrete scenario —
a store holding the single player "Ivan Petrov", raw name
"ivan  petrov" — links directly to that player and leaves the store
unchanged, and a concrete space-padded name is trimmed at both edges. -/
theorem normalizeName_spec_witness :
    resolveName ⟨fun _ _ => 0, 1⟩ 5 "ivan  petrov"
        { Store.empty with players := [⟨7, "Ivan Petrov", normalizeName "Ivan Petrov"⟩] } =
      (.linked 7,
        { Store.empty with players := [⟨7, "Ivan Petrov", normalizeName "Ivan Petrov"⟩] },
        false) ∧
    (normalizeName " a  b ").data.head? ≠ some ' ' ∧
    (normalizeName " a  b ").data.getLast? ≠ some ' ' := by
  refine ⟨normalizeName_spec.2.1 ⟨fun _ _ => 0, 1⟩ 5 _
    ⟨7, "Ivan Petrov", normalizeName "Ivan Petrov"⟩ (by decide), ?_, ?_⟩
  · exact (normalizeName_spec.2.2.2.2 " a  b " (by decide)).1
  · exact (normalizeName_spec.2.2.2.2 " a  b " (by decide)).2

/-! ## Claim C8 — the last-sync view -/

/-- The max-by-`started_at` fold starting from a candidate stays
populated and returns a row from the list or the candidate, no earlier
than either. -/
theorem lastSyncFold_spec :
    ∀ (l : List SyncRun) (m : SyncRun),
      ∃ r, l.foldl (fun acc r =>
          match acc with
          | none => some r
          | some m => if m.startedAt < r.startedAt then some r else some m) (some m) = some r ∧
        (r ∈ l ∨ r = m) ∧ m.startedAt ≤ r.startedAt ∧
        ∀ x ∈ l, x.startedAt ≤ r.startedAt
  | [], m => ⟨m, rfl, Or.inr rfl, Nat.le_refl _, by simp⟩
  | x :: xs, m => by
    simp only [List.foldl_cons]
    by_cases hlt : m.startedAt < x.startedAt
    · rw [if_pos hlt]
      obtain ⟨r, hr, hmem, hle, hall⟩ := lastSyncFold_spec xs x
      refine ⟨r, hr, ?_, ?_, ?_⟩
      · rcases hmem with h | h
        · exact Or.inl (List.mem_cons_of_mem x h)
        · exact Or.inl (h ▸ List.mem_cons_self x xs)
      · exact Nat.le_trans (Nat.le_of_lt hlt) hle
      · intro y hy
        rcases List.mem_cons.mp hy with h | h
        · exact h ▸ hle
        · exact hall y h
    · rw [if_neg hlt]
      obtain ⟨r, hr, hmem, hle, hall⟩ := lastSyncFold_spec xs m
      refine ⟨r, hr, ?_, hle, ?_⟩
      · rcases hmem with h | h
        · exact Or.inl (List.mem_cons_of_mem x h)
        · exact Or.inr h
      · intro y hy
        rcases List.mem_cons.mp hy with h | h
        · subst h
          exact Nat.le_trans (Nat.le_of_not_lt hlt) hle
        · exact hall y h

/-- C8: on a non-empty `sync_runs` table, `admin_last_sync_view` returns
exactly one row, and that row is a stored SyncRun whose `started_at` is
maximal among all stored runs. The view is a pure function of the run
list: it modifies no state. -/
theorem adminLastSyncView_spec (runs : List SyncRun) (h : runs ≠ []) :
    ∃ r, adminLastSyncView runs = some r ∧ r ∈ runs ∧
      ∀ x ∈ runs, x.startedAt ≤ r.startedAt := by
  cases runs with
  | nil => exact absurd rfl h
  | cons y ys =>
    obtain ⟨r, hr, hmem, hle, hall⟩ := lastSyncFold_spec ys y
    refine ⟨r, ?_, ?_, ?_⟩
    · unfold adminLastSyncView
      rw [List.foldl_cons]
      exact hr
    · rcases hmem with hm | hm
      · exact List.mem_cons_of_mem y hm
      · exact hm ▸ List.mem_cons_self y ys
    · intro x hx
      rcases List.mem_cons.mp hx with hm | hm
      · exact hm ▸ hle
      · exact hall x hm

/-- C8 witness: the view applied to a concrete two-run table returns the
run with the larger `started_at`. -/
theorem adminLastSyncView_spec_witness :
    ∃ r, adminLastSyncView [openRun 0 5, openRun 1 9] = some r ∧
      r ∈ [openRun 0 5, openRun 1 9] ∧
      ∀ x ∈ [openRun 0 5, openRun 1 9], x.startedAt ≤ r.startedAt :=
  adminLastSyncView_spec _ (by simp)

/-! ## Claim C10 — the admin entries view -/

/-- C10: `admin_entries_view` returns exactly the rows built from an
entry joined with its player and its tournament where the tournament's
`archived_at` is null; consequently, the entries of an archived
tournament are absent from the view even though their rows are retained
in `entries` (with distinct entry ids, no view row carries such an
entry's id). The view is a pure function of the store: it modifies no
state. -/
theorem adminEntriesView_spec (st : Store) :
    (∀ r, r ∈ adminEntriesView st ↔
      ∃ e ∈ st.entries, ∃ p ∈ st.players, ∃ t ∈ st.tournaments,
        e.playerId = p.id ∧ e.tournamentId = t.id ∧ t.archivedAt = none ∧
        r = mkAdminEntryRow e p t) ∧
    (∀ e ∈ st.entries, (st.entries.map Entry.id).Nodup →
      (∀ t ∈ st.tournaments, t.id = e.tournamentId → t.archivedAt ≠ none) →
      ∀ r ∈ adminEntriesView st, r.entryId ≠ e.id) := by
  have hchar : ∀ r, r ∈ adminEntriesView st ↔
      ∃ e ∈ st.entries, ∃ p ∈ st.players, ∃ t ∈ st.tournaments,
        e.playerId = p.id ∧ e.tournamentId = t.id ∧ t.archivedAt = none ∧
        r = mkAdminEntryRow e p t := by
    intro r
    unfold adminEntriesView
    simp only [List.mem_flatMap, List.mem_filterMap]
    constructor
    · rintro ⟨e, he, p, hp, t, ht, hr⟩
      split at hr
      · rename_i hcond
        exact ⟨e, he, p, hp, t, ht, hcond.1, hcond.2.1, hcond.2.2,
          (Option.some.inj hr).symm⟩
      · exact absurd hr (by simp)
    · rintro ⟨e, he, p, hp, t, ht, h1, h2, h3, rfl⟩
      exact ⟨e, he, p, hp, t, ht, by rw [if_pos ⟨h1, h2, h3⟩]⟩
  refine ⟨hchar, ?_⟩
  intro e he hnd harch r hr hid
  obtain ⟨e', he', p, _, t, ht, _, h2, h3, rfl⟩ := (hchar r).mp hr
  have : e' = e := by
    exact List.inj_on_of_nodup_map hnd he' he hid
  subst this
  exact harch t ht h2.symm h3

/-- C10 witness: in a concrete store holding one archived and one live
tournament with one entry each, the view shows exactly the live
tournament's entry row. -/
theorem adminEntriesView_spec_witness :
    ∀ r ∈ adminEntriesView
        { Store.empty with
            tournaments := [⟨1, "gone", .personal, false, some 3, 0, 0⟩,
                            ⟨2, "live", .personal, true, none, 0, 0⟩],
            players := [⟨4, "P", "p"⟩],
            entries := [⟨10, 1, 4, .paid, false, false, .self, none, none, 0, 0⟩,
                        ⟨11, 2, 4, .pending, true, false, .self, none, none, 0, 0⟩] },
      r.entryId ≠ 10 := by
  intro r hr
  refine (adminEntriesView_spec _).2
    ⟨10, 1, 4, .paid, false, false, .self, none, none, 0, 0⟩
    (by simp) (by decide) ?_ r hr
  intro t ht htid
  fin_cases ht
  · simp
  · simp at htid

/-! ## Claim C4 — pair-payment well-formedness machinery -/

/-- A map that rewrites no identity, tournament key or pairing link
preserves entries well-formedness. -/
theorem entriesWf_map {l : List Entry} {next : Nat} (f : Entry → Entry)
    (hf : ∀ e, EntryLinks (f e) = EntryLinks e) (h : EntriesWf l next) :
    EntriesWf (l.map f) next := by
  have hid : ∀ e, (f e).id = e.id := fun e => congrArg (fun p => p.1) (hf e)
  have htid : ∀ e, (f e).tournamentId = e.tournamentId :=
    fun e => congrArg (fun p => p.2.1) (hf e)
  have hfor : ∀ e, (f e).paidForEntryId = e.paidForEntryId :=
    fun e => congrArg (fun p => p.2.2.1) (hf e)
  have hby : ∀ e, (f e).paidByEntryId = e.paidByEntryId :=
    fun e => congrArg (fun p => p.2.2.2) (hf e)
  obtain ⟨h1, h2, h3, h4, h5⟩ := h
  refine ⟨?_, ?_, ?_, ?_, ?_⟩
  · intro e' he'
    rw [List.mem_map] at he'
    obtain ⟨a, ha, rfl⟩ := he'
    rw [hid a]
    exact h1 a ha
  · rw [List.map_map]
    have : (Entry.id ∘ f) = Entry.id := funext fun e => hid e
    rw [this]
    exact h2
  · intro a' ha'
    rw [List.mem_map] at ha'
    obtain ⟨a, ha, rfl⟩ := ha'
    rw [hfor a, hby a]
    exact h3 a ha
  · intro a' ha' bid hbid
    rw [List.mem_map] at ha'
    obtain ⟨a, ha, rfl⟩ := ha'
    rw [hfor a] at hbid
    obtain ⟨b, hb, hbid', hbtid, hbby⟩ := h4 a ha bid hbid
    refine ⟨f b, List.mem_map_of_mem f hb, ?_, ?_, ?_⟩
    · rw [hid b]; exact hbid'
    · rw [htid b, htid a]; exact hbtid
    · rw [hby b, hid a]; exact hbby
  · intro a' ha' bid hbid
    rw [List.mem_map] at ha'
    obtain ⟨a, ha, rfl⟩ := ha'
    rw [hby a] at hbid
    obtain ⟨b, hb, hbid', hbtid, hbfor⟩ := h5 a ha bid hbid
    refine ⟨f b, List.mem_map_of_mem f hb, ?_, ?_, ?_⟩
    · rw [hid b]; exact hbid'
    · rw [htid b, htid a]; exact hbtid
    · rw [hfor b, hid a]; exact hbfor

/-- Appending a fresh unlinked row preserves entries well-formedness and
advances the id counter. -/
theorem entriesWf_append_fresh {l : List Entry} {next : Nat} (e : Entry)
    (hid : e.id = next) (hfor : e.paidForEntryId = none)
    (hby : e.paidByEntryId = none) (h : EntriesWf l next) :
    EntriesWf (l ++ [e]) (next + 1) := by
  obtain ⟨h1, h2, h3, h4, h5⟩ := h
  refine ⟨?_, ?_, ?_, ?_, ?_⟩
  · intro a ha
    rcases List.mem_append.mp ha with hm | hm
    · exact Nat.lt_succ_of_lt (h1 a hm)
    · rw [List.mem_singleton] at hm
      subst hm
      rw [hid]
      exact Nat.lt_succ_self _
  · rw [List.map_append]
    refine List.Nodup.append h2 (by simp) ?_
    intro x hx hy
    rw [List.map_singleton, List.mem_singleton] at hy
    subst hy
    rw [List.mem_map] at hx
    obtain ⟨a, ha, hax⟩ := hx
    refine absurd hax ?_
    rw [hid]
    exact Nat.ne_of_lt (h1 a ha)
  · intro a ha
    rcases List.mem_append.mp ha with hm | hm
    · exact h3 a hm
    · rw [List.mem_singleton] at hm
      subst hm
      rw [hfor]
      simp
  · intro a ha bid hbid
    rcases List.mem_append.mp ha with hm | hm
    · obtain ⟨b, hb, hb1, hb2, hb3⟩ := h4 a hm bid hbid
      exact ⟨b, List.mem_append_left _ hb, hb1, hb2, hb3⟩
    · rw [List.mem_singleton] at hm
      subst hm
      rw [hfor] at hbid
      cases hbid
  · intro a ha bid hbid
    rcases List.mem_append.mp ha with hm | hm
    · obtain ⟨b, hb, hb1, hb2, hb3⟩ := h5 a hm bid hbid
      exact ⟨b, List.mem_append_left _ hb, hb1, hb2, hb3⟩
    · rw [List.mem_singleton] at hm
      subst hm
      rw [hby] at hbid
      cases hbid

/-- Removing rows by a tournament-level criterion preserves entries
well-formedness: pairing links never cross tournaments, so a survivor's
partner survives. -/
theorem entriesWf_filter_tidlike {l : List Entry} {next : Nat} (q : Entry → Bool)
    (hq : ∀ a b : Entry, a.tournamentId = b.tournamentId → q a = true → q b = true)
    (h : EntriesWf l next) :
    EntriesWf (l.filter q) next := by
  obtain ⟨h1, h2, h3, h4, h5⟩ := h
  refine ⟨?_, ?_, ?_, ?_, ?_⟩
  · intro a ha
    exact h1 a (List.mem_of_mem_filter ha)
  · exact List.Nodup.sublist (List.Sublist.map _ (List.filter_sublist l)) h2
  · intro a ha
    exact h3 a (List.mem_of_mem_filter ha)
  · intro a ha bid hbid
    have hpa := List.of_mem_filter ha
    obtain ⟨b, hb, hb1, hb2, hb3⟩ := h4 a (List.mem_of_mem_filter ha) bid hbid
    exact ⟨b, List.mem_filter.mpr ⟨hb, hq a b hb2.symm hpa⟩, hb1, hb2, hb3⟩
  · intro a ha bid hbid
    have hpa := List.of_mem_filter ha
    obtain ⟨b, hb, hb1, hb2, hb3⟩ := h5 a (List.mem_of_mem_filter ha) bid hbid
    exact ⟨b, List.mem_filter.mpr ⟨hb, hq a b hb2.symm hpa⟩, hb1, hb2, hb3⟩

/-- Entry upserts preserve entries well-formedness: updates rewrite no
identity or link, inserts are fresh and unlinked. -/
theorem entriesWf_upsertEntry (time tid pid : Nat) (ps : PayStatus) (rs : RunState)
    (h : EntriesWf rs.store.entries rs.store.nextEntryId) :
    EntriesWf (upsertEntry time tid pid ps rs).store.entries
      (upsertEntry time tid pid ps rs).store.nextEntryId := by
  unfold upsertEntry
  split
  · dsimp only
    refine entriesWf_map _ (fun e => ?_) h
    dsimp only
    split <;> rfl
  · dsimp only
    exact entriesWf_append_fresh _ rfl rfl rfl h

/-- Identity resolution preserves entries well-formedness. -/
theorem entriesWf_resolveName (cfg : MatchCfg) (tid : Nat) (raw : String) (st : Store)
    (h : EntriesWf st.entries st.nextEntryId) :
    EntriesWf (resolveName cfg tid raw st).2.1.entries
      (resolveName cfg tid raw st).2.1.nextEntryId := by
  rw [resolveName_entries cfg tid raw st, resolveName_nextEntryId cfg tid raw st]
  exact h

/-- The roster pass preserves entries well-formedness. -/
theorem entriesWf_entriesPassFold {cfg : MatchCfg} {time tid : Nat} :
    ∀ (es : List SnapEntry) (acc : RunState × List Nat),
      EntriesWf acc.1.store.entries acc.1.store.nextEntryId →
      EntriesWf (es.foldl (reconcileEntry cfg time tid) acc).1.store.entries
        (es.foldl (reconcileEntry cfg time tid) acc).1.store.nextEntryId
  | [], _, h => h
  | se :: es, acc, h => by
    rw [List.foldl_cons]
    refine entriesWf_entriesPassFold es _ ?_
    rcases hres : resolveName cfg tid se.rawName acc.1.store with ⟨res, st', created⟩
    have hstep := entriesWf_resolveName cfg tid se.rawName acc.1.store h
    rw [hres] at hstep
    cases res with
    | linked pid =>
      simp only [reconcileEntry, hres]
      exact entriesWf_upsertEntry time tid pid se.paymentStatus _ hstep
    | quarantined pendId =>
      simp only [reconcileEntry, hres]
      exact hstep

/-- A tournament's roster pass preserves entries well-formedness. -/
theorem entriesWf_reconcileEntries (cfg : MatchCfg) (time tid : Nat)
    (es : List SnapEntry) (rs : RunState)
    (h : EntriesWf rs.store.entries rs.store.nextEntryId) :
    EntriesWf (reconcileEntries cfg time tid es rs).store.entries
      (reconcileEntries cfg time tid es rs).store.nextEntryId := by
  unfold reconcileEntries deactivateMissing
  dsimp only
  refine entriesWf_map _ (fun e => ?_) ?_
  · dsimp only
    split <;> rfl
  · exact entriesWf_entriesPassFold es (rs, []) h

/-- The reconcile pass preserves entries well-formedness. -/
theorem entriesWf_reconcileAll {cfg : MatchCfg} {time : Nat} :
    ∀ (snap : Snapshot) (rs : RunState),
      EntriesWf rs.store.entries rs.store.nextEntryId →
      EntriesWf (reconcileAll cfg time snap rs).store.entries
        (reconcileAll cfg time snap rs).store.nextEntryId
  | [], _, h => h
  | t :: snap, rs, h => by
    unfold reconcileAll
    rw [List.foldl_cons]
    have hstep : EntriesWf (reconcileTournament cfg time rs t).store.entries
        (reconcileTournament cfg time rs t).store.nextEntryId := by
      unfold reconcileTournament
      split
      · split
        · exact h
        · exact entriesWf_reconcileEntries cfg time t.tid t.entries _ h
      · exact entriesWf_reconcileEntries cfg time t.tid t.entries _ h
    have hrec := @entriesWf_reconcileAll cfg time snap
      (reconcileTournament cfg time rs t) hstep
    unfold reconcileAll at hrec
    exact hrec

/-- The archiving policy preserves entries well-formedness: it deletes
whole tournaments, and pairing links never cross tournaments. -/
theorem entriesWf_archivePhase (time : Nat) (tids : List Nat) (rs : RunState)
    (h : EntriesWf rs.store.entries rs.store.nextEntryId) :
    EntriesWf (archivePhase time tids rs).store.entries
      (archivePhase time tids rs).store.nextEntryId := by
  unfold archivePhase
  dsimp only
  refine entriesWf_filter_tidlike _ (fun a b hab ha => ?_) h
  rw [decide_eq_true_eq] at ha ⊢
  rw [← hab]
  exact ha

/-- A complete run preserves entries well-formedness. -/
theorem entriesWf_runSync (cfg : MatchCfg) (time : Nat) (snap : Snapshot) (st : Store)
    (h : EntriesWf st.entries st.nextEntryId) :
    EntriesWf (runSync cfg time snap st).entries (runSync cfg time snap st).nextEntryId := by
  show EntriesWf (archivePhase time (snapTids snap)
      (reconcileAll cfg time snap { store := st, run := openRun st.nextRunId time })).store.entries
    (archivePhase time (snapTids snap)
      (reconcileAll cfg time snap { store := st, run := openRun st.nextRunId time })).store.nextEntryId
  exact entriesWf_archivePhase _ _ _ (entriesWf_reconcileAll snap _ h)

/-- An aborted run preserves entries well-formedness. -/
theorem entriesWf_runSyncAborted (cfg : MatchCfg) (time : Nat) (snap : Snapshot)
    (k : Nat) (msg : String) (st : Store)
    (h : EntriesWf st.entries st.nextEntryId) :
    EntriesWf (runSyncAborted cfg time snap k msg st).entries
      (runSyncAborted cfg time snap k msg st).nextEntryId := by
  show EntriesWf (reconcileAll cfg time (snap.take k)
      { store := st, run := openRun st.nextRunId time }).store.entries
    (reconcileAll cfg time (snap.take k)
      { store := st, run := openRun st.nextRunId time }).store.nextEntryId
  exact entriesWf_reconcileAll _ _ h

/-- Administrative resolution preserves entries well-formedness: an
approved quarantine case links a fresh, unpaired entry. -/
theorem entriesWf_resolvePending (time pendingId : Nat) (act : PendAction) (st : Store)
    (h : EntriesWf st.entries st.nextEntryId) :
    EntriesWf (resolvePending time pendingId act st).entries
      (resolvePending time pendingId act st).nextEntryId := by
  unfold resolvePending
  split
  · exact h
  · split
    · dsimp only
      split <;> split <;>
        first
          | exact h
          | exact entriesWf_append_fresh _ rfl rfl rfl h
    · exact h
    · exact h
    · exact h

/-- Manual payment marking preserves entries well-formedness. -/
theorem entriesWf_markEntryPaid (entryId : Nat) (st : Store)
    (h : EntriesWf st.entries st.nextEntryId) :
    EntriesWf (markEntryPaid entryId st).entries
      (markEntryPaid entryId st).nextEntryId := by
  unfold markEntryPaid
  dsimp only
  refine entriesWf_map _ (fun e => ?_) h
  dsimp only
  split <;> rfl

/-- Administrative entry deletion preserves entries well-formedness: the
`ON DELETE SET NULL` semantics nulls exactly the links that dangle. -/
theorem entriesWf_deleteEntry (entryId : Nat) (st : Store)
    (h : EntriesWf st.entries st.nextEntryId) :
    EntriesWf (deleteEntry entryId st).entries (deleteEntry entryId st).nextEntryId := by
  obtain ⟨h1, h2, h3, h4, h5⟩ := h
  unfold deleteEntry
  dsimp only
  have hgid : ∀ e : Entry,
      ((fun e : Entry => { e with
          paidForEntryId := if e.paidForEntryId = some entryId then none
            else e.paidForEntryId,
          paidByEntryId := if e.paidByEntryId = some entryId then none
            else e.paidByEntryId }) e).id = e.id := fun _ => rfl
  refine ⟨?_, ?_, ?_, ?_, ?_⟩
  · intro a ha
    rw [List.mem_map] at ha
    obtain ⟨a0, ha0, rfl⟩ := ha
    exact h1 a0 (List.mem_of_mem_filter ha0)
  · rw [List.map_map]
    have heq : (Entry.id ∘ (fun e : Entry => { e with
        paidForEntryId := if e.paidForEntryId = some entryId then none
          else e.paidForEntryId,
        paidByEntryId := if e.paidByEntryId = some entryId then none
          else e.paidByEntryId })) = Entry.id := funext fun _ => rfl
    rw [heq]
    exact List.Nodup.sublist (List.Sublist.map _ (List.filter_sublist _)) h2
  · intro a ha
    rw [List.mem_map] at ha
    obtain ⟨a0, ha0, rfl⟩ := ha
    intro hcon
    refine h3 a0 (List.mem_of_mem_filter ha0) ⟨?_, ?_⟩
    · have := hcon.1
      dsimp only at this
      split at this
      · simp at this
      · exact this
    · have := hcon.2
      dsimp only at this
      split at this
      · simp at this
      · exact this
  · intro a ha bid hbid
    rw [List.mem_map] at ha
    obtain ⟨a0, ha0, rfl⟩ := ha
    dsimp only at hbid
    have ha0mem := List.mem_of_mem_filter ha0
    have ha0id : a0.id ≠ entryId := by
      have := List.of_mem_filter ha0
      rwa [decide_eq_true_eq] at this
    split at hbid
    · exact absurd hbid (by simp)
    · rename_i hnotdel
      obtain ⟨b, hb, hb1, hb2, hb3⟩ := h4 a0 ha0mem bid hbid
      have hbne : b.id ≠ entryId := by
        rw [hb1]
        intro hcon
        exact hnotdel (hcon ▸ hbid)
      refine ⟨_, List.mem_map_of_mem _
        (List.mem_filter.mpr ⟨hb, by rw [decide_eq_true_eq]; exact hbne⟩), ?_, ?_, ?_⟩
      · exact hb1
      · exact hb2
      · show (if b.paidByEntryId = some entryId then none else b.paidByEntryId) = _
        rw [hb3, if_neg (by simp [ha0id])]
  · intro a ha bid hbid
    rw [List.mem_map] at ha
    obtain ⟨a0, ha0, rfl⟩ := ha
    dsimp only at hbid
    have ha0mem := List.mem_of_mem_filter ha0
    have ha0id : a0.id ≠ entryId := by
      have := List.of_mem_filter ha0
      rwa [decide_eq_true_eq] at this
    split at hbid
    · exact absurd hbid (by simp)
    · rename_i hnotdel
      obtain ⟨b, hb, hb1, hb2, hb3⟩ := h5 a0 ha0mem bid hbid
      have hbne : b.id ≠ entryId := by
        rw [hb1]
        intro hcon
        exact hnotdel (hcon ▸ hbid)
      refine ⟨_, List.mem_map_of_mem _
        (List.mem_filter.mpr ⟨hb, by rw [decide_eq_true_eq]; exact hbne⟩), ?_, ?_, ?_⟩
      · exact hb1
      · exact hb2
      · show (if b.paidForEntryId = some entryId then none else b.paidForEntryId) = _
        rw [hb3, if_neg (by simp [ha0id])]

/-- The pairing map never touches an entry's id. -/
theorem pairMap_id (payerId partnerId : Nat) (e : Entry) :
    (pairMap payerId partnerId e).id = e.id := by
  unfold pairMap
  split
  · rfl
  · split <;> rfl

/-- The pairing map never touches an entry's tournament. -/
theorem pairMap_tid (payerId partnerId : Nat) (e : Entry) :
    (pairMap payerId partnerId e).tournamentId = e.tournamentId := by
  unfold pairMap
  split
  · rfl
  · split <;> rfl

/-- On the payer row the pairing map sets the paid-for link. -/
theorem pairMap_payer (payerId partnerId : Nat) (e : Entry) (h : e.id = payerId) :
    pairMap payerId partnerId e =
      { e with paymentStatus := .paid, paymentScope := .pair,
               paidForEntryId := some partnerId } := by
  unfold pairMap
  rw [if_pos h]

/-- On the partner row the pairing map sets the paid-by link. -/
theorem pairMap_partner (payerId partnerId : Nat) (e : Entry)
    (h1 : e.id ≠ payerId) (h2 : e.id = partnerId) :
    pairMap payerId partnerId e =
      { e with paymentStatus := .paid, paymentScope := .pair,
               paidByEntryId := some payerId } := by
  unfold pairMap
  rw [if_neg h1, if_pos h2]

/-- Rows other than payer and partner pass through the pairing map
unchanged. -/
theorem pairMap_other (payerId partnerId : Nat) (e : Entry)
    (h1 : e.id ≠ payerId) (h2 : e.id ≠ partnerId) :
    pairMap payerId partnerId e = e := by
  unfold pairMap
  rw [if_neg h1, if_neg h2]

/-- A successful pair payment preserves well-formedness of the entries
table: its guards admit only two distinct unlinked rows of one
tournament, and the map installs exactly the reciprocal pair of links
on them. -/
theorem entriesWf_pairPayment (payerId partnerId : Nat) (st st' : Store)
    (hwf : EntriesWf st.entries st.nextEntryId)
    (hok : pairPayment payerId partnerId st = .ok st') :
    EntriesWf st'.entries st'.nextEntryId := by
  unfold pairPayment at hok
  split at hok
  case _ a b ha hb =>
    split at hok
    · exact absurd hok (by simp)
    split at hok
    · exact absurd hok (by simp)
    split at hok
    · exact absurd hok (by simp)
    split at hok
    · exact absurd hok (by simp)
    split at hok
    · exact absurd hok (by simp)
    rename_i hne htid _ haguard hbguard
    injection hok with hok
    subst hok
    have haid : a.id = payerId := by
      have := List.find?_some ha
      exact of_decide_eq_true this
    have hbid : b.id = partnerId := by
      have := List.find?_some hb
      exact of_decide_eq_true this
    have hamem : a ∈ st.entries := List.mem_of_find?_eq_some ha
    have hbmem : b ∈ st.entries := List.mem_of_find?_eq_some hb
    have htid' : a.tournamentId = b.tournamentId := not_not.mp htid
    have haF : a.paidForEntryId = none :=
      Option.not_isSome_iff_eq_none.mp (fun h => haguard (Or.inl h))
    have haB : a.paidByEntryId = none :=
      Option.not_isSome_iff_eq_none.mp (fun h => haguard (Or.inr h))
    have hbF : b.paidForEntryId = none :=
      Option.not_isSome_iff_eq_none.mp (fun h => hbguard (Or.inl h))
    have hbB : b.paidByEntryId = none :=
      Option.not_isSome_iff_eq_none.mp (fun h => hbguard (Or.inr h))
    obtain ⟨h1, h2, h3, h4, h5⟩ := hwf
    have hinj := List.inj_on_of_nodup_map h2
    have huniq_p : ∀ e ∈ st.entries, e.id = payerId → e = a := by
      intro e he hid
      exact hinj he hamem (by rw [hid, haid])
    have huniq_q : ∀ e ∈ st.entries, e.id = partnerId → e = b := by
      intro e he hid
      exact hinj he hbmem (by rw [hid, hbid])
    have hbnp : b.id ≠ payerId := by
      rw [hbid]
      exact fun hcon => hne hcon.symm
    refine ⟨?_, ?_, ?_, ?_, ?_⟩
    · intro e he
      rw [List.mem_map] at he
      obtain ⟨e0, he0, rfl⟩ := he
      rw [pairMap_id]
      exact h1 e0 he0
    · show ((st.entries.map (pairMap payerId partnerId)).map Entry.id).Nodup
      have hmm : (st.entries.map (pairMap payerId partnerId)).map Entry.id
          = st.entries.map Entry.id := by
        rw [List.map_map]
        exact List.map_congr_left (fun e _ => pairMap_id payerId partnerId e)
      rw [hmm]
      exact h2
    · intro e he
      rw [List.mem_map] at he
      obtain ⟨e0, he0, rfl⟩ := he
      by_cases hp : e0.id = payerId
      · have he0a := huniq_p e0 he0 hp
        rw [pairMap_payer _ _ _ hp, he0a]
        simp [haB]
      · by_cases hq : e0.id = partnerId
        · have he0b := huniq_q e0 he0 hq
          rw [pairMap_partner _ _ _ hp hq, he0b]
          simp [hbF]
        · rw [pairMap_other _ _ _ hp hq]
          exact h3 e0 he0
    · intro e he bid hbid'
      rw [List.mem_map] at he
      obtain ⟨e0, he0, rfl⟩ := he
      by_cases hp : e0.id = payerId
      · rw [pairMap_payer _ _ _ hp] at hbid' ⊢
        dsimp only at hbid'
        injection hbid' with hbid'
        subst hbid'
        refine ⟨pairMap payerId partnerId b, List.mem_map_of_mem _ hbmem,
          ?_, ?_, ?_⟩
        · rw [pairMap_id]
          exact hbid
        · have he0a := huniq_p e0 he0 hp
          show (pairMap payerId partnerId b).tournamentId = e0.tournamentId
          rw [pairMap_tid, he0a]
          exact htid'.symm
        · rw [pairMap_partner _ _ _ hbnp hbid]
          show some payerId = some e0.id
          rw [hp]
      · by_cases hq : e0.id = partnerId
        · have he0b := huniq_q e0 he0 hq
          rw [pairMap_partner _ _ _ hp hq] at hbid'
          dsimp only at hbid'
          rw [he0b, hbF] at hbid'
          exact absurd hbid' (by simp)
        · rw [pairMap_other _ _ _ hp hq] at hbid' ⊢
          obtain ⟨c, hc, hc1, hc2, hc3⟩ := h4 e0 he0 bid hbid'
          have hcp : c.id ≠ payerId := by
            intro hcon
            have hca := huniq_p c hc hcon
            rw [hca, haB] at hc3
            exact absurd hc3 (by simp)
          have hcq : c.id ≠ partnerId := by
            intro hcon
            have hcb := huniq_q c hc hcon
            rw [hcb, hbB] at hc3
            exact absurd hc3 (by simp)
          refine ⟨pairMap payerId partnerId c, List.mem_map_of_mem _ hc,
            ?_, ?_, ?_⟩ <;> rw [pairMap_other _ _ _ hcp hcq]
          · exact hc1
          · exact hc2
          · exact hc3
    · intro e he bid hbid'
      rw [List.mem_map] at he
      obtain ⟨e0, he0, rfl⟩ := he
      by_cases hp : e0.id = payerId
      · have he0a := huniq_p e0 he0 hp
        rw [pairMap_payer _ _ _ hp] at hbid'
        dsimp only at hbid'
        rw [he0a, haB] at hbid'
        exact absurd hbid' (by simp)
      · by_cases hq : e0.id = partnerId
        · rw [pairMap_partner _ _ _ hp hq] at hbid' ⊢
          dsimp only at hbid'
          injection hbid' with hbid'
          subst hbid'
          refine ⟨pairMap payerId partnerId a, List.mem_map_of_mem _ hamem,
            ?_, ?_, ?_⟩
          · rw [pairMap_id]
            exact haid
          · have he0b := huniq_q e0 he0 hq
            show (pairMap payerId partnerId a).tournamentId = e0.tournamentId
            rw [pairMap_tid, he0b]
            exact htid'
          · rw [pairMap_payer _ _ _ haid]
            show some partnerId = some e0.id
            rw [hq]
        · rw [pairMap_other _ _ _ hp hq] at hbid' ⊢
          obtain ⟨c, hc, hc1, hc2, hc3⟩ := h5 e0 he0 bid hbid'
          have hcp : c.id ≠ payerId := by
            intro hcon
            have hca := huniq_p c hc hcon
            rw [hca, haF] at hc3
            exact absurd hc3 (by simp)
          have hcq : c.id ≠ partnerId := by
            intro hcon
            have hcb := huniq_q c hc hcon
            rw [hcb, hbF] at hc3
            exact absurd hc3 (by simp)
          refine ⟨pairMap payerId partnerId c, List.mem_map_of_mem _ hc,
            ?_, ?_, ?_⟩ <;> rw [pairMap_other _ _ _ hcp hcq]
          · exact hc1
          · exact hc2
          · exact hc3
  case _ =>
    exact absurd hok (by simp)

/-! ## The invariants along reachable states -/

/-- Administrative paid-marking never touches the quarantine table. -/
theorem markEntryPaid_pendings (entryId : Nat) (st : Store) :
    (markEntryPaid entryId st).pendings = st.pendings := rfl

/-- Administrative entry deletion never touches the quarantine table. -/
theorem deleteEntry_pendings (entryId : Nat) (st : Store) :
    (deleteEntry entryId st).pendings = st.pendings := rfl

/-- The quarantine-uniqueness invariant holds in every reachable state. -/
theorem pendingUnique_reachable (st : Store) (h : Reachable st) :
    PendingUniqueL st.pendings := by
  induction h with
  | empty =>
    intro tid n
    simp [Store.empty]
  | sync cfg time snap _ ih =>
    exact pendingUnique_runSync cfg time snap _ ih
  | syncAborted cfg time snap k msg _ ih =>
    exact pendingUnique_runSyncAborted cfg time snap k msg _ ih
  | pairPay payerId partnerId _ hok ih =>
    rw [pairPayment_pendings hok]
    exact ih
  | resolve time pendingId act _ ih =>
    exact pendingUnique_resolvePending time pendingId act _ ih
  | markPaid entryId _ ih =>
    exact ih
  | adminDelete entryId _ ih =>
    exact ih

/-- Entries well-formedness holds in every reachable state. -/
theorem entriesWf_reachable (st : Store) (h : Reachable st) :
    EntriesWf st.entries st.nextEntryId := by
  induction h with
  | empty =>
    unfold EntriesWf
    refine ⟨?_, ?_, ?_, ?_, ?_⟩ <;> simp [Store.empty]
  | sync cfg time snap _ ih =>
    exact entriesWf_runSync cfg time snap _ ih
  | syncAborted cfg time snap k msg _ ih =>
    exact entriesWf_runSyncAborted cfg time snap k msg _ ih
  | pairPay payerId partnerId _ hok ih =>
    exact entriesWf_pairPayment _ _ _ _ ih hok
  | resolve time pendingId act _ ih =>
    exact entriesWf_resolvePending time pendingId act _ ih
  | markPaid entryId _ ih =>
    exact entriesWf_markEntryPaid entryId _ ih
  | adminDelete entryId _ ih =>
    exact entriesWf_deleteEntry entryId _ ih

/-- C3: in every reachable store state there is at most one PendingEntry
row with status `pending` per (tournament, normalized name) pair; in
particular, resolving the same unresolved raw name twice for the same
tournament — as happens when one run submits the name twice — leaves at
most one `pending` row for its (tournament, normalized name). -/
theorem pending_uniqueness (st : Store) (h : Reachable st) :
    PendingUniqueL st.pendings ∧
    ∀ (cfg : MatchCfg) (tid : Nat) (raw : String),
      PendingUniqueL
        (resolveName cfg tid raw (resolveName cfg tid raw st).2.1).2.1.pendings := by
  have hinv := pendingUnique_reachable st h
  exact ⟨hinv, fun cfg tid raw =>
    pendingUnique_resolveName cfg tid raw _
      (pendingUnique_resolveName cfg tid raw _ hinv)⟩

/-- C3 witness: the uniqueness invariant evaluated at a concrete
reachable state — an empty store after one reconciliation run over a
one-tournament snapshot — including double resolution of one raw name. -/
theorem pending_uniqueness_witness :
    PendingUniqueL (runSync ⟨fun _ _ => 0, 1⟩ 3
      [⟨1, "T", .personal, [⟨"Anna", .pending⟩]⟩] Store.empty).pendings ∧
    ∀ (cfg : MatchCfg) (tid : Nat) (raw : String),
      PendingUniqueL
        (resolveName cfg tid raw (resolveName cfg tid raw
          (runSync ⟨fun _ _ => 0, 1⟩ 3
            [⟨1, "T", .personal, [⟨"Anna", .pending⟩]⟩] Store.empty)).2.1).2.1.pendings :=
  pending_uniqueness _ (Reachable.sync _ _ _ Reachable.empty)

/-- C4: in every reachable store state the pair-payment relation is
reciprocal — for stored entries A and B, `A.paid_for_entry_id = B.id`
holds iff `B.paid_by_entry_id = A.id` — no entry is simultaneously
payer and payee of pair links (each participates in at most one pairing
at a time), and a pair payment naming an already-paired entry as payer
or partner returns an error, never ok. -/
theorem pair_reciprocity (st : Store) (h : Reachable st) :
    (∀ a ∈ st.entries, ∀ b ∈ st.entries,
      (a.paidForEntryId = some b.id ↔ b.paidByEntryId = some a.id)) ∧
    (∀ a ∈ st.entries, ¬ (a.paidForEntryId.isSome ∧ a.paidByEntryId.isSome)) ∧
    (∀ (payerId partnerId : Nat) (st' : Store),
      (∃ a ∈ st.entries, (a.id = payerId ∨ a.id = partnerId) ∧
        (a.paidForEntryId.isSome ∨ a.paidByEntryId.isSome)) →
      pairPayment payerId partnerId st ≠ Except.ok st') := by
  obtain ⟨h1, h2, h3, h4, h5⟩ := entriesWf_reachable st h
  have hinj := List.inj_on_of_nodup_map h2
  refine ⟨?_, h3, ?_⟩
  · intro a ha b hb
    constructor
    · intro hf
      obtain ⟨c, hc, hc1, hc2, hc3⟩ := h4 a ha b.id hf
      have hcb : c = b := hinj hc hb hc1
      rw [← hcb]
      exact hc3
    · intro hbk
      obtain ⟨c, hc, hc1, hc2, hc3⟩ := h5 b hb a.id hbk
      have hca : c = a := hinj hc ha hc1
      rw [← hca]
      exact hc3
  · rintro payerId partnerId st' ⟨a, ha, hid, hpaired⟩ hok
    unfold pairPayment at hok
    split at hok
    case _ a0 b0 ha0 hb0 =>
      split at hok
      · exact absurd hok (by simp)
      split at hok
      · exact absurd hok (by simp)
      split at hok
      · exact absurd hok (by simp)
      split at hok
      · exact absurd hok (by simp)
      split at hok
      · exact absurd hok (by simp)
      rename_i hne htid _ haguard hbguard
      have ha0id : a0.id = payerId := by
        have := List.find?_some ha0
        exact of_decide_eq_true this
      have hb0id : b0.id = partnerId := by
        have := List.find?_some hb0
        exact of_decide_eq_true this
      have ha0mem : a0 ∈ st.entries := List.mem_of_find?_eq_some ha0
      have hb0mem : b0 ∈ st.entries := List.mem_of_find?_eq_some hb0
      rcases hid with hida | hidb
      · have haa0 : a = a0 := hinj ha ha0mem (by rw [hida, ha0id])
        exact haguard (haa0 ▸ hpaired)
      · have hab0 : a = b0 := hinj ha hb0mem (by rw [hidb, hb0id])
        exact hbguard (hab0 ▸ hpaired)
    case _ =>
      exact absurd hok (by simp)

/-- C4 witness: the reciprocity statement evaluated at a concrete
reachable state — an empty store after one reconciliation run over a
team tournament with two roster entries. -/
theorem pair_reciprocity_witness :
    (∀ a ∈ (runSync ⟨fun _ _ => 0, 1⟩ 3
        [⟨1, "T", .team, [⟨"Anna", .pending⟩, ⟨"Bea", .paid⟩]⟩] Store.empty).entries,
      ∀ b ∈ (runSync ⟨fun _ _ => 0, 1⟩ 3
        [⟨1, "T", .team, [⟨"Anna", .pending⟩, ⟨"Bea", .paid⟩]⟩] Store.empty).entries,
      (a.paidForEntryId = some b.id ↔ b.paidByEntryId = some a.id)) ∧
    (∀ a ∈ (runSync ⟨fun _ _ => 0, 1⟩ 3
        [⟨1, "T", .team, [⟨"Anna", .pending⟩, ⟨"Bea", .paid⟩]⟩] Store.empty).entries,
      ¬ (a.paidForEntryId.isSome ∧ a.paidByEntryId.isSome)) ∧
    (∀ (payerId partnerId : Nat) (st' : Store),
      (∃ a ∈ (runSync ⟨fun _ _ => 0, 1⟩ 3
          [⟨1, "T", .team, [⟨"Anna", .pending⟩, ⟨"Bea", .paid⟩]⟩] Store.empty).entries,
        (a.id = payerId ∨ a.id = partnerId) ∧
        (a.paidForEntryId.isSome ∨ a.paidByEntryId.isSome)) →
      pairPayment payerId partnerId
        (runSync ⟨fun _ _ => 0, 1⟩ 3
          [⟨1, "T", .team, [⟨"Anna", .pending⟩, ⟨"Bea", .paid⟩]⟩] Store.empty) ≠
        Except.ok st') :=
  pair_reciprocity _ (Reachable.sync _ _ _ Reachable.empty)

/-! ## Claim C1 — idempotence of the reconciliation run

List-level facts about `find?` first: the resolver and the reconcile
branch both select rows with it. -/

/-- Searching an append whose prefix has no match searches the suffix. -/
theorem find?_append_none {α : Type} (p : α → Bool) :
    ∀ (l₁ l₂ : List α), l₁.find? p = none →
      (l₁ ++ l₂).find? p = l₂.find? p
  | [], _, _ => rfl
  | a :: l₁, l₂, h => by
    rw [List.find?_cons] at h
    show (a :: (l₁ ++ l₂)).find? p = l₂.find? p
    rw [List.find?_cons]
    cases hpa : p a
    · rw [hpa] at h
      exact find?_append_none p l₁ l₂ h
    · rw [hpa] at h
      exact absurd h (by simp)

/-- Searching an append whose prefix matches returns the prefix match. -/
theorem find?_append_some {α : Type} (p : α → Bool) :
    ∀ (l₁ l₂ : List α) (a : α), l₁.find? p = some a →
      (l₁ ++ l₂).find? p = some a
  | [], _, _, h => by simp at h
  | b :: l₁, l₂, a, h => by
    rw [List.find?_cons] at h
    show (b :: (l₁ ++ l₂)).find? p = some a
    rw [List.find?_cons]
    cases hpb : p b
    · rw [hpb] at h
      exact find?_append_some p l₁ l₂ a h
    · rw [hpb] at h
      exact h

/-- `find?` commutes with a map that preserves the predicate. -/
theorem find?_map_comm {α : Type} (p : α → Bool) (f : α → α)
    (hf : ∀ a, p (f a) = p a) :
    ∀ l : List α, (l.map f).find? p = Option.map f (l.find? p)
  | [] => rfl
  | a :: l => by
    rw [List.map_cons, List.find?_cons, List.find?_cons, hf a]
    cases hpa : p a
    · exact find?_map_comm p f hf l
    · rfl

/-- `find?` is stable under filtering away non-matching rows and mapping
a function that fixes matching rows and preserves the predicate. -/
theorem find?_filter_map_stable {α : Type} (p keep : α → Bool) (f : α → α)
    (hk : ∀ a, p a = true → keep a = true)
    (hf1 : ∀ a, p a = true → f a = a)
    (hf2 : ∀ a, p (f a) = p a) :
    ∀ l : List α, ((l.filter keep).map f).find? p = l.find? p
  | [] => rfl
  | a :: l => by
    rw [List.filter_cons]
    conv_rhs => rw [List.find?_cons]
    cases hpa : p a
    · cases hka : keep a
      · rw [if_neg (by simp)]
        exact find?_filter_map_stable p keep f hk hf1 hf2 l
      · rw [if_pos rfl]
        rw [List.map_cons, List.find?_cons, hf2 a, hpa]
        exact find?_filter_map_stable p keep f hk hf1 hf2 l
    · rw [if_pos (by rw [hk a hpa])]
      rw [List.map_cons, List.find?_cons, hf2 a, hpa, hf1 a hpa]

/-- Tournament lookups by identity agree between tables with equal
(identity, archive marker) projections, up to that projection. -/
theorem tourFind_eq :
    ∀ (l₁ l₂ : List Tournament), l₁.map tourKey = l₂.map tourKey →
      ∀ tid : Nat,
        Option.map tourKey (l₁.find? (fun tr => tr.id = tid)) =
          Option.map tourKey (l₂.find? (fun tr => tr.id = tid))
  | [], [], _, _ => rfl
  | [], b :: l₂, h, _ => by simp at h
  | a :: l₁, [], h, _ => by simp at h
  | a :: l₁, b :: l₂, h, tid => by
    rw [List.map_cons, List.map_cons] at h
    injection h with h1 h2
    have hid : a.id = b.id := congrArg Prod.fst h1
    rw [List.find?_cons, List.find?_cons, hid]
    cases hb : decide (b.id = tid)
    · exact tourFind_eq l₁ l₂ h2 tid
    · show some (tourKey a) = some (tourKey b)
      rw [h1]

/-- Entry key-matching depends only on the tournament and player keys. -/
theorem entryMatches_ext (tid pid : Nat) (e e' : Entry)
    (h1 : e'.tournamentId = e.tournamentId) (h2 : e'.playerId = e.playerId) :
    entryMatches tid pid e' = entryMatches tid pid e := by
  unfold entryMatches
  rw [h1, h2]

/-- A key-preserving map preserves which entry keys are stored. -/
theorem any_matches_map (l : List Entry) (g : Entry → Entry)
    (hg : ∀ e, (g e).tournamentId = e.tournamentId ∧ (g e).playerId = e.playerId)
    (tid pid : Nat) :
    (l.map g).any (entryMatches tid pid) = l.any (entryMatches tid pid) := by
  induction l with
  | nil => rfl
  | cons e l ih =>
    rw [List.map_cons, List.any_cons, List.any_cons, ih,
      entryMatches_ext tid pid e (g e) (hg e).1 (hg e).2]

/-- The resolver branch on an exact player match. -/
theorem rOut_player {cfg : MatchCfg} {ps : List Player} {al : List PlayerAlias}
    {n : String} {p : Player} (h : findPlayerByNorm ps n = some p) :
    rOut cfg ps al n = ROut.link p.id := by
  unfold rOut
  rw [h]

/-- The resolver branch on an exact alias match. -/
theorem rOut_alias {cfg : MatchCfg} {ps : List Player} {al : List PlayerAlias}
    {n : String} {a : PlayerAlias} (hp : findPlayerByNorm ps n = none)
    (ha : findAliasByNorm al n = some a) :
    rOut cfg ps al n = ROut.link a.playerId := by
  unfold rOut
  rw [hp, ha]

/-- The resolver branch past both exact matches is decided by the
candidate list. -/
theorem rOut_cands {cfg : MatchCfg} {ps : List Player} {al : List PlayerAlias}
    {n : String} (hp : findPlayerByNorm ps n = none)
    (ha : findAliasByNorm al n = none) :
    rOut cfg ps al n =
      (match candidatesFor cfg ps n with
        | [] => ROut.create
        | [p] => ROut.link p.id
        | _ => ROut.quar) := by
  unfold rOut
  rw [hp, ha]

/-- When the resolver's branch links, `resolveName` returns exactly that
link and leaves the store untouched. -/
theorem resolveName_link (cfg : MatchCfg) (tid : Nat) (raw : String) (st : Store)
    {pid : Nat}
    (h : rOut cfg st.players st.aliases (normalizeName raw) = ROut.link pid) :
    resolveName cfg tid raw st = (Resolution.linked pid, st, false) := by
  unfold rOut at h
  unfold resolveName
  dsimp only
  split
  · rename_i p heqp
    rw [heqp] at h
    dsimp only at h
    injection h with h
    rw [h]
  · rename_i heqp
    rw [heqp] at h
    dsimp only at h
    split
    · rename_i a heqa
      rw [heqa] at h
      dsimp only at h
      injection h with h
      rw [h]
    · rename_i heqa
      rw [heqa] at h
      dsimp only at h
      split
      · rename_i heqc
        rw [heqc] at h
        dsimp only at h
        exact absurd h (by simp)
      · rename_i p heqc
        rw [heqc] at h
        dsimp only at h
        injection h with h
        rw [h]
      · rename_i hnil hone
        cases hcs : candidatesFor cfg st.players (normalizeName raw) with
        | nil => exact absurd hcs hnil
        | cons q qs =>
          cases qs with
          | nil => exact absurd hcs (hone q)
          | cons q2 qs2 =>
            rw [hcs] at h
            dsimp only at h
            exact absurd h (by simp)

/-- When the resolver's branch creates, `resolveName` appends exactly
the fresh player, and all three lookups had come up empty. -/
theorem resolveName_create (cfg : MatchCfg) (tid : Nat) (raw : String) (st : Store)
    (h : rOut cfg st.players st.aliases (normalizeName raw) = ROut.create) :
    resolveName cfg tid raw st =
      (Resolution.linked st.nextPlayerId,
       { st with
          players := st.players ++ [⟨st.nextPlayerId, raw, normalizeName raw⟩],
          nextPlayerId := st.nextPlayerId + 1 }, true) ∧
    findPlayerByNorm st.players (normalizeName raw) = none ∧
    findAliasByNorm st.aliases (normalizeName raw) = none ∧
    candidatesFor cfg st.players (normalizeName raw) = [] := by
  unfold rOut at h
  unfold resolveName
  dsimp only
  split
  · rename_i p heqp
    rw [heqp] at h
    dsimp only at h
    exact absurd h (by simp)
  · rename_i heqp
    rw [heqp] at h
    dsimp only at h
    split
    · rename_i a heqa
      rw [heqa] at h
      dsimp only at h
      exact absurd h (by simp)
    · rename_i heqa
      rw [heqa] at h
      dsimp only at h
      split
      · rename_i heqc
        exact ⟨rfl, heqp, heqa, heqc⟩
      · rename_i p heqc
        rw [heqc] at h
        dsimp only at h
        exact absurd h (by simp)
      · rename_i hnil hone
        cases hcs : candidatesFor cfg st.players (normalizeName raw) with
        | nil => exact absurd hcs hnil
        | cons q qs =>
          cases qs with
          | nil => exact absurd hcs (hone q)
          | cons q2 qs2 =>
            rw [hcs] at h
            dsimp only at h
            exact absurd h (by simp)

/-- When the resolver's branch quarantines, `resolveName` returns a
quarantined outcome without touching players, aliases, entries,
tournaments or the run log. -/
theorem resolveName_quar (cfg : MatchCfg) (tid : Nat) (raw : String) (st : Store)
    (h : rOut cfg st.players st.aliases (normalizeName raw) = ROut.quar) :
    ∃ pendId st',
      resolveName cfg tid raw st = (Resolution.quarantined pendId, st', false) ∧
      st'.players = st.players ∧ st'.aliases = st.aliases ∧
      st'.entries = st.entries ∧ st'.tournaments = st.tournaments ∧
      st'.runs = st.runs := by
  unfold rOut at h
  unfold resolveName
  dsimp only
  split
  · rename_i p heqp
    rw [heqp] at h
    dsimp only at h
    exact absurd h (by simp)
  · rename_i heqp
    rw [heqp] at h
    dsimp only at h
    split
    · rename_i a heqa
      rw [heqa] at h
      dsimp only at h
      exact absurd h (by simp)
    · rename_i heqa
      rw [heqa] at h
      dsimp only at h
      split
      · rename_i heqc
        rw [heqc] at h
        dsimp only at h
        exact absurd h (by simp)
      · rename_i p heqc
        rw [heqc] at h
        dsimp only at h
        exact absurd h (by simp)
      · rename_i hnil hone
        split
        · rename_i pe heqpe
          exact ⟨pe.id, st, rfl, rfl, rfl, rfl, rfl, rfl⟩
        · rename_i heqpe
          exact ⟨st.nextPendingId, _, rfl, rfl, rfl, rfl, rfl, rfl⟩

/-- Appending a player of a different normalized name either leaves the
resolver's branch for a name unchanged or tips it into quarantine —
never into creation, provided it was not creating before. -/
theorem rOut_append_player (cfg : MatchCfg) (ps : List Player) (al : List PlayerAlias)
    (n : String) (p : Player) (hne : p.normalizedName ≠ n)
    (hnc : rOut cfg ps al n ≠ ROut.create) :
    rOut cfg (ps ++ [p]) al n = rOut cfg ps al n ∨
      rOut cfg (ps ++ [p]) al n = ROut.quar := by
  have hone : ([p] : List Player).find? (fun q => q.normalizedName = n) = none := by
    rw [List.find?_cons, decide_eq_false hne]
    rfl
  cases hp : findPlayerByNorm ps n with
  | some q =>
    have hp2 : findPlayerByNorm (ps ++ [p]) n = some q :=
      find?_append_some _ ps [p] q hp
    rw [rOut_player hp, rOut_player hp2]
    exact Or.inl rfl
  | none =>
    have hp2 : findPlayerByNorm (ps ++ [p]) n = none := by
      show (ps ++ [p]).find? _ = none
      rw [find?_append_none _ ps [p] hp]
      exact hone
    cases ha : findAliasByNorm al n with
    | some a =>
      rw [rOut_alias hp ha, rOut_alias hp2 ha]
      exact Or.inl rfl
    | none =>
      rw [rOut_cands hp ha, rOut_cands hp2 ha]
      have hcand : candidatesFor cfg (ps ++ [p]) n =
          candidatesFor cfg ps n ++
            (if cfg.threshold ≤ cfg.score n p.normalizedName then [p] else []) := by
        unfold candidatesFor
        rw [List.filter_append]
        congr 1
        rw [List.filter_cons]
        by_cases hth : cfg.threshold ≤ cfg.score n p.normalizedName
        · rw [if_pos (by rw [decide_eq_true hth]), if_pos hth]
          rfl
        · rw [if_neg (by rw [decide_eq_false hth]; simp), if_neg hth]
          rfl
      rw [hcand]
      cases hsc : (if cfg.threshold ≤ cfg.score n p.normalizedName then [p] else ([] : List Player)) with
      | nil =>
        rw [List.append_nil]
        exact Or.inl rfl
      | cons c cs0 =>
        have hc : c = p ∧ cs0 = [] := by
          split at hsc
          · exact ⟨(List.cons.injEq _ _ _ _ ▸ hsc).1.symm, ((List.cons.injEq _ _ _ _) ▸ hsc).2.symm⟩
          · exact absurd hsc (by simp)
        obtain ⟨rfl, rfl⟩ := hc
        cases hcs : candidatesFor cfg ps n with
        | nil =>
          exfalso
          exact hnc (by rw [rOut_cands hp ha, hcs])
        | cons q qs =>
          cases qs with
          | nil =>
            exact Or.inr rfl
          | cons q2 qs2 =>
            exact Or.inl rfl

/-- A key-preserving map keeps every stored entry key stored. -/
theorem any_matches_map_true (l : List Entry) (g : Entry → Entry)
    (hg : ∀ e, (g e).tournamentId = e.tournamentId ∧ (g e).playerId = e.playerId)
    (tid pid : Nat) (h : l.any (entryMatches tid pid) = true) :
    (l.map g).any (entryMatches tid pid) = true := by
  rw [any_matches_map l g hg tid pid]
  exact h

/-- An entry upsert never touches players. -/
theorem upsertEntry_players (time tid pid : Nat) (ps : PayStatus) (rs : RunState) :
    (upsertEntry time tid pid ps rs).store.players = rs.store.players := by
  unfold upsertEntry
  split <;> rfl

/-- An entry upsert never touches aliases. -/
theorem upsertEntry_aliases (time tid pid : Nat) (ps : PayStatus) (rs : RunState) :
    (upsertEntry time tid pid ps rs).store.aliases = rs.store.aliases := by
  unfold upsertEntry
  split <;> rfl

/-- An entry upsert keeps every stored (tournament, player) entry key. -/
theorem upsertEntry_any_pres (time tid' pid' : Nat) (ps : PayStatus) (rs : RunState)
    (tid pid : Nat)
    (h : rs.store.entries.any (entryMatches tid pid) = true) :
    (upsertEntry time tid' pid' ps rs).store.entries.any (entryMatches tid pid) = true := by
  unfold upsertEntry
  split
  · dsimp only
    exact any_matches_map_true _ _
      (fun e => ⟨by split <;> rfl, by split <;> rfl⟩) tid pid h
  · dsimp only
    rw [List.any_append, h]
    rfl

/-- After an entry upsert its own (tournament, player) key is stored. -/
theorem upsertEntry_any_self (time tid pid : Nat) (ps : PayStatus) (rs : RunState) :
    (upsertEntry time tid pid ps rs).store.entries.any (entryMatches tid pid) = true := by
  unfold upsertEntry
  split
  · rename_i hany
    dsimp only
    rw [List.any_eq_true] at hany ⊢
    obtain ⟨e, he, hpe⟩ := hany
    refine ⟨_, List.mem_map_of_mem _ he, ?_⟩
    dsimp only
    rw [if_pos hpe, entryMatches_ext tid pid e
      ({ e with paymentStatus := ps, active := true, lastSeenInSource := time }) rfl rfl]
    exact hpe
  · dsimp only
    rw [List.any_append]
    have hrow : ([(⟨rs.store.nextEntryId, tid, pid, ps, true, false, .self,
        none, none, time, time⟩ : Entry)]).any (entryMatches tid pid) = true := by
      rw [List.any_cons]
      have : entryMatches tid pid ⟨rs.store.nextEntryId, tid, pid, ps, true, false,
          .self, none, none, time, time⟩ = true := by
        unfold entryMatches
        simp
      rw [this]
      rfl
    rw [hrow]
    simp

/-- Deactivation keeps every stored (tournament, player) entry key. -/
theorem deactivateMissing_any_pres (tid' : Nat) (pids : List Nat) (rs : RunState)
    (tid pid : Nat)
    (h : rs.store.entries.any (entryMatches tid pid) = true) :
    (deactivateMissing tid' pids rs).store.entries.any (entryMatches tid pid) = true := by
  unfold deactivateMissing
  dsimp only
  exact any_matches_map_true _ _
    (fun e => ⟨by split <;> rfl, by split <;> rfl⟩) tid pid h

/-- Readiness of a name transfers to a store with the same players and
aliases that retains every stored entry key. -/
theorem nameReady_of_eq (cfg : MatchCfg) (tid : Nat) (raw : String) (st st' : Store)
    (hp : st'.players = st.players) (ha : st'.aliases = st.aliases)
    (he : ∀ tid0 pid0, st.entries.any (entryMatches tid0 pid0) = true →
      st'.entries.any (entryMatches tid0 pid0) = true)
    (h : NameReady cfg tid raw st) : NameReady cfg tid raw st' := by
  obtain ⟨h1, h2⟩ := h
  unfold NameReady
  rw [hp, ha]
  exact ⟨h1, fun pid hlink => he tid pid (h2 pid hlink)⟩

/-- Resolving any other name preserves a name's readiness. -/
theorem nameReady_resolveName (cfg : MatchCfg) (tid : Nat) (raw : String)
    (tid' : Nat) (raw' : String) (st : Store)
    (h : NameReady cfg tid raw st) :
    NameReady cfg tid raw (resolveName cfg tid' raw' st).2.1 := by
  cases hro : rOut cfg st.players st.aliases (normalizeName raw') with
  | link pid' =>
    rw [resolveName_link cfg tid' raw' st hro]
    exact h
  | quar =>
    obtain ⟨pendId, st', heq, hpl, hal, hen, _, _⟩ :=
      resolveName_quar cfg tid' raw' st hro
    rw [heq]
    exact nameReady_of_eq cfg tid raw st st' hpl hal
      (fun t0 p0 hh => by rw [hen]; exact hh) h
  | create =>
    obtain ⟨heq, hfp, hfa, hfc⟩ := resolveName_create cfg tid' raw' st hro
    rw [heq]
    obtain ⟨h1, h2⟩ := h
    have hmn : (⟨st.nextPlayerId, raw', normalizeName raw'⟩ : Player).normalizedName ≠
        normalizeName raw := by
      intro hcon
      refine h1 ?_
      have hcon' : normalizeName raw' = normalizeName raw := hcon
      rw [← hcon', rOut_cands hfp hfa, hfc]
    have happ := rOut_append_player cfg st.players st.aliases (normalizeName raw)
      ⟨st.nextPlayerId, raw', normalizeName raw'⟩ hmn h1
    unfold NameReady
    constructor
    · show rOut cfg (st.players ++ [⟨st.nextPlayerId, raw', normalizeName raw'⟩])
        st.aliases (normalizeName raw) ≠ ROut.create
      rcases happ with heq2 | heq2 <;> rw [heq2]
      · exact h1
      · simp
    · intro pid hlink
      have hlink' : rOut cfg (st.players ++ [⟨st.nextPlayerId, raw', normalizeName raw'⟩])
          st.aliases (normalizeName raw) = ROut.link pid := hlink
      show st.entries.any (entryMatches tid pid) = true
      rcases happ with heq2 | heq2
      · rw [heq2] at hlink'
        exact h2 pid hlink'
      · rw [heq2] at hlink'
        exact absurd hlink' (by simp)

/-- An entry upsert preserves a name's readiness. -/
theorem nameReady_upsertEntry (cfg : MatchCfg) (tid : Nat) (raw : String)
    (time tid' pid' : Nat) (ps : PayStatus) (rs : RunState)
    (h : NameReady cfg tid raw rs.store) :
    NameReady cfg tid raw (upsertEntry time tid' pid' ps rs).store :=
  nameReady_of_eq cfg tid raw rs.store _
    (upsertEntry_players time tid' pid' ps rs)
    (upsertEntry_aliases time tid' pid' ps rs)
    (fun t0 p0 hh => upsertEntry_any_pres time tid' pid' ps rs t0 p0 hh) h

/-- Deactivation preserves a name's readiness. -/
theorem nameReady_deactivateMissing (cfg : MatchCfg) (tid : Nat) (raw : String)
    (tid' : Nat) (pids : List Nat) (rs : RunState)
    (h : NameReady cfg tid raw rs.store) :
    NameReady cfg tid raw (deactivateMissing tid' pids rs).store :=
  nameReady_of_eq cfg tid raw rs.store _ rfl rfl
    (fun t0 p0 hh => deactivateMissing_any_pres tid' pids rs t0 p0 hh) h

/-- One roster step preserves a name's readiness. -/
theorem nameReady_reconcileEntry (cfg : MatchCfg) (tid : Nat) (raw : String)
    (time tid' : Nat) (acc : RunState × List Nat) (se : SnapEntry)
    (h : NameReady cfg tid raw acc.1.store) :
    NameReady cfg tid raw (reconcileEntry cfg time tid' acc se).1.store := by
  rcases hres : resolveName cfg tid' se.rawName acc.1.store with ⟨res, st', created⟩
  have hnr : NameReady cfg tid raw st' := by
    have := nameReady_resolveName cfg tid raw tid' se.rawName acc.1.store h
    rw [hres] at this
    exact this
  cases res with
  | linked pid =>
    simp only [reconcileEntry, hres]
    exact nameReady_upsertEntry cfg tid raw time tid' pid se.paymentStatus _ hnr
  | quarantined pendId =>
    simp only [reconcileEntry, hres]
    exact hnr

/-- The roster pass preserves a name's readiness. -/
theorem nameReady_entriesPassFold (cfg : MatchCfg) (tid : Nat) (raw : String)
    {time tid' : Nat} :
    ∀ (es : List SnapEntry) (acc : RunState × List Nat),
      NameReady cfg tid raw acc.1.store →
      NameReady cfg tid raw ((es.foldl (reconcileEntry cfg time tid') acc).1.store)
  | [], _, h => h
  | se :: es, acc, h => by
    rw [List.foldl_cons]
    exact nameReady_entriesPassFold cfg tid raw es _
      (nameReady_reconcileEntry cfg tid raw time tid' acc se h)

/-- A tournament's roster pass leaves the tournaments table untouched. -/
theorem reconcileEntries_tournaments (cfg : MatchCfg) (time tid : Nat)
    (es : List SnapEntry) (rs : RunState) :
    (reconcileEntries cfg time tid es rs).store.tournaments = rs.store.tournaments := by
  unfold reconcileEntries deactivateMissing
  dsimp only
  unfold entriesPass
  exact tournaments_entriesPassFold es (rs, [])

/-- After its own roster step a snapshot name is ready: the resolver
either keeps linking to a player whose entry the step upserted, or the
step created exactly that player and its entry, or the name is
quarantined — never a fresh creation on a re-resolution. -/
theorem nameReady_reconcileEntry_self (cfg : MatchCfg) (time tid : Nat)
    (acc : RunState × List Nat) (se : SnapEntry) :
    NameReady cfg tid se.rawName (reconcileEntry cfg time tid acc se).1.store := by
  cases hro : rOut cfg acc.1.store.players acc.1.store.aliases (normalizeName se.rawName) with
  | link pid =>
    simp only [reconcileEntry, resolveName_link cfg tid se.rawName acc.1.store hro]
    unfold NameReady
    constructor
    · rw [upsertEntry_players, upsertEntry_aliases]
      dsimp only
      rw [hro]
      simp
    · intro pid0 hlink
      rw [upsertEntry_players, upsertEntry_aliases] at hlink
      dsimp only at hlink
      rw [hro] at hlink
      injection hlink with hpid
      rw [← hpid]
      exact upsertEntry_any_self time tid pid se.paymentStatus _
  | create =>
    obtain ⟨heq, hfp, hfa, hfc⟩ := resolveName_create cfg tid se.rawName acc.1.store hro
    simp only [reconcileEntry, heq]
    have hfind : findPlayerByNorm (acc.1.store.players ++
        [⟨acc.1.store.nextPlayerId, se.rawName, normalizeName se.rawName⟩])
        (normalizeName se.rawName) =
        some ⟨acc.1.store.nextPlayerId, se.rawName, normalizeName se.rawName⟩ := by
      unfold findPlayerByNorm at hfp ⊢
      rw [find?_append_none _ _ _ hfp, List.find?_cons]
      simp
    unfold NameReady
    constructor
    · rw [upsertEntry_players, upsertEntry_aliases]
      dsimp only
      rw [rOut_player hfind]
      simp
    · intro pid0 hlink
      rw [upsertEntry_players, upsertEntry_aliases] at hlink
      dsimp only at hlink
      rw [rOut_player hfind] at hlink
      injection hlink with hpid
      rw [← hpid]
      exact upsertEntry_any_self time tid acc.1.store.nextPlayerId se.paymentStatus _
  | quar =>
    obtain ⟨pendId, st', heq, hpl, hal, hen, _, _⟩ :=
      resolveName_quar cfg tid se.rawName acc.1.store hro
    simp only [reconcileEntry, heq]
    unfold NameReady
    constructor
    · show rOut cfg st'.players st'.aliases (normalizeName se.rawName) ≠ ROut.create
      rw [hpl, hal, hro]
      simp
    · intro pid0 hlink
      have hlink' : rOut cfg st'.players st'.aliases (normalizeName se.rawName) =
          ROut.link pid0 := hlink
      rw [hpl, hal, hro] at hlink'
      exact absurd hlink' (by simp)

/-- Every roster name is ready after its tournament's pass. -/
theorem nameReady_entriesPassFold_est (cfg : MatchCfg) (time tid : Nat) :
    ∀ (es : List SnapEntry) (acc : RunState × List Nat), ∀ se ∈ es,
      NameReady cfg tid se.rawName
        ((es.foldl (reconcileEntry cfg time tid) acc).1.store)
  | [], _, _, hse => absurd hse (by simp)
  | se0 :: es, acc, se, hse => by
    rw [List.foldl_cons]
    rcases List.mem_cons.mp hse with rfl | hse2
    · exact nameReady_entriesPassFold cfg tid se.rawName es _
        (nameReady_reconcileEntry_self cfg time tid acc se)
    · exact nameReady_entriesPassFold_est cfg time tid es _ se hse2

/-- Every roster name is ready after `reconcileEntries`. -/
theorem nameReady_reconcileEntries_est (cfg : MatchCfg) (time tid : Nat)
    (es : List SnapEntry) (rs : RunState) (se : SnapEntry) (hse : se ∈ es) :
    NameReady cfg tid se.rawName (reconcileEntries cfg time tid es rs).store := by
  unfold reconcileEntries entriesPass
  exact nameReady_deactivateMissing cfg tid se.rawName tid _ _
    (nameReady_entriesPassFold_est cfg time tid es (rs, []) se hse)

/-- Reconciling any snapshot tournament preserves a name's readiness. -/
theorem nameReady_reconcileTournament (cfg : MatchCfg) (tid : Nat) (raw : String)
    (time : Nat) (rs : RunState) (t : SnapTournament)
    (h : NameReady cfg tid raw rs.store) :
    NameReady cfg tid raw (reconcileTournament cfg time rs t).store := by
  unfold reconcileTournament
  split
  · split
    · exact h
    · unfold reconcileEntries entriesPass
      refine nameReady_deactivateMissing cfg tid raw _ _ _ ?_
      refine nameReady_entriesPassFold cfg tid raw _ _ ?_
      exact nameReady_of_eq cfg tid raw rs.store _ rfl rfl (fun t0 p0 hh => hh) h
  · unfold reconcileEntries entriesPass
    refine nameReady_deactivateMissing cfg tid raw _ _ _ ?_
    refine nameReady_entriesPassFold cfg tid raw _ _ ?_
    exact nameReady_of_eq cfg tid raw rs.store _ rfl rfl (fun t0 p0 hh => hh) h

/-- Processing a snapshot tournament either leaves all of its roster
names ready or finds it blocked behind an archived deciding row. -/
theorem nameReady_reconcileTournament_self (cfg : MatchCfg) (time : Nat)
    (rs : RunState) (t : SnapTournament) :
    (∀ se ∈ t.entries, NameReady cfg t.tid se.rawName
      (reconcileTournament cfg time rs t).store) ∨
    (∃ tr, (reconcileTournament cfg time rs t).store.tournaments.find?
        (fun x => x.id = t.tid) = some tr ∧ tr.archivedAt.isSome = true) := by
  unfold reconcileTournament
  split
  · rename_i existing hfind
    split
    · rename_i harch
      exact Or.inr ⟨existing, hfind, harch⟩
    · exact Or.inl (fun se hse =>
        nameReady_reconcileEntries_est cfg time t.tid t.entries _ se hse)
  · exact Or.inl (fun se hse =>
      nameReady_reconcileEntries_est cfg time t.tid t.entries _ se hse)

/-- An archived deciding row stays the archived deciding row through
any later tournament's processing. -/
theorem archivedDeciding_pres (cfg : MatchCfg) (time tid0 : Nat)
    (rs : RunState) (t : SnapTournament)
    (h : ∃ tr, rs.store.tournaments.find? (fun x => x.id = tid0) = some tr ∧
      tr.archivedAt.isSome = true) :
    ∃ tr, (reconcileTournament cfg time rs t).store.tournaments.find?
        (fun x => x.id = tid0) = some tr ∧ tr.archivedAt.isSome = true := by
  obtain ⟨tr0, hfind0, harch0⟩ := h
  unfold reconcileTournament
  split
  · split
    · exact ⟨tr0, hfind0, harch0⟩
    · rw [reconcileEntries_tournaments]
      dsimp only
      have hmap := find?_map_comm (fun x : Tournament => x.id = tid0)
        (fun tr => if tr.id = t.tid then
          { tr with title := t.title, format := t.format, active := true,
                    lastSeenInSource := time } else tr)
        (fun a => by dsimp only; split <;> rfl) rs.store.tournaments
      rw [hmap, hfind0]
      refine ⟨_, rfl, ?_⟩
      show (if tr0.id = t.tid then _ else tr0).archivedAt.isSome = true
      split <;> exact harch0
  · rw [reconcileEntries_tournaments]
    dsimp only
    exact ⟨tr0, find?_append_some _ _ _ tr0 hfind0, harch0⟩

/-- The whole reconcile pass preserves a name's readiness. -/
theorem nameReady_reconcileAll_pres (cfg : MatchCfg) (tid : Nat) (raw : String)
    (time : Nat) :
    ∀ (snap : Snapshot) (rs : RunState),
      NameReady cfg tid raw rs.store →
      NameReady cfg tid raw (reconcileAll cfg time snap rs).store
  | [], _, h => h
  | t :: snap, rs, h => by
    unfold reconcileAll
    rw [List.foldl_cons]
    exact nameReady_reconcileAll_pres cfg tid raw time snap _
      (nameReady_reconcileTournament cfg tid raw time rs t h)

/-- An archived deciding row survives the whole reconcile pass. -/
theorem archivedDeciding_reconcileAll (cfg : MatchCfg) (tid0 time : Nat) :
    ∀ (snap : Snapshot) (rs : RunState),
      (∃ tr, rs.store.tournaments.find? (fun x => x.id = tid0) = some tr ∧
        tr.archivedAt.isSome = true) →
      ∃ tr, (reconcileAll cfg time snap rs).store.tournaments.find?
          (fun x => x.id = tid0) = some tr ∧ tr.archivedAt.isSome = true
  | [], _, h => h
  | t :: snap, rs, h => by
    unfold reconcileAll
    rw [List.foldl_cons]
    exact archivedDeciding_reconcileAll cfg tid0 time snap _
      (archivedDeciding_pres cfg time tid0 rs t h)

/-- After the reconcile pass every snapshot tournament has ready roster
names or an archived deciding row. -/
theorem run1_names (cfg : MatchCfg) (time : Nat) :
    ∀ (snap : Snapshot) (rs : RunState), ∀ t ∈ snap,
      (∀ se ∈ t.entries, NameReady cfg t.tid se.rawName
        (reconcileAll cfg time snap rs).store) ∨
      (∃ tr, (reconcileAll cfg time snap rs).store.tournaments.find?
          (fun x => x.id = t.tid) = some tr ∧ tr.archivedAt.isSome = true)
  | [], _, _, ht => absurd ht (by simp)
  | t0 :: snap, rs, t, ht => by
    unfold reconcileAll
    rw [List.foldl_cons]
    rcases List.mem_cons.mp ht with rfl | ht2
    · rcases nameReady_reconcileTournament_self cfg time rs t with hl | hr
      · exact Or.inl (fun se hse => nameReady_reconcileAll_pres cfg t.tid se.rawName
          time snap _ (hl se hse))
      · exact Or.inr (archivedDeciding_reconcileAll cfg t.tid time snap _ hr)
    · exact run1_names cfg time snap _ t ht2

/-- Processing any tournament keeps every stored tournament identity. -/
theorem tidPresent_reconcileTournament (cfg : MatchCfg) (time tid0 : Nat)
    (rs : RunState) (t : SnapTournament)
    (h : ∃ tr ∈ rs.store.tournaments, tr.id = tid0) :
    ∃ tr ∈ (reconcileTournament cfg time rs t).store.tournaments, tr.id = tid0 := by
  obtain ⟨tr0, htr0, hid0⟩ := h
  unfold reconcileTournament
  split
  · split
    · exact ⟨tr0, htr0, hid0⟩
    · rw [reconcileEntries_tournaments]
      dsimp only
      refine ⟨_, List.mem_map_of_mem _ htr0, ?_⟩
      show (if tr0.id = t.tid then _ else tr0).id = tid0
      split <;> exact hid0
  · rw [reconcileEntries_tournaments]
    dsimp only
    exact ⟨tr0, List.mem_append_left _ htr0, hid0⟩

/-- Processing a snapshot tournament makes its identity stored. -/
theorem tidPresent_self (cfg : MatchCfg) (time : Nat) (rs : RunState)
    (t : SnapTournament) :
    ∃ tr ∈ (reconcileTournament cfg time rs t).store.tournaments, tr.id = t.tid := by
  unfold reconcileTournament
  split
  · rename_i existing hfind
    have hmem := List.mem_of_find?_eq_some hfind
    have hid : existing.id = t.tid := by
      have := List.find?_some hfind
      exact of_decide_eq_true this
    split
    · exact ⟨existing, hmem, hid⟩
    · rw [reconcileEntries_tournaments]
      dsimp only
      refine ⟨_, List.mem_map_of_mem _ hmem, ?_⟩
      show (if existing.id = t.tid then _ else existing).id = t.tid
      split <;> exact hid
  · rw [reconcileEntries_tournaments]
    dsimp only
    exact ⟨⟨t.tid, t.title, t.format, true, none, time, time⟩,
      List.mem_append_right _ (by simp), rfl⟩

/-- The reconcile pass keeps every stored tournament identity. -/
theorem tidPresent_foldPres (cfg : MatchCfg) (tid0 time : Nat) :
    ∀ (snap : Snapshot) (rs : RunState),
      (∃ tr ∈ rs.store.tournaments, tr.id = tid0) →
      ∃ tr ∈ (reconcileAll cfg time snap rs).store.tournaments, tr.id = tid0
  | [], _, h => h
  | t :: snap, rs, h => by
    unfold reconcileAll
    rw [List.foldl_cons]
    exact tidPresent_foldPres cfg tid0 time snap _
      (tidPresent_reconcileTournament cfg time tid0 rs t h)

/-- After the reconcile pass every snapshot tournament identity is
stored. -/
theorem tidPresent_reconcileAll (cfg : MatchCfg) (time : Nat) :
    ∀ (snap : Snapshot) (rs : RunState) (t : SnapTournament), t ∈ snap →
      ∃ tr ∈ (reconcileAll cfg time snap rs).store.tournaments, tr.id = t.tid
  | [], _, _, ht => absurd ht (by simp)
  | t0 :: snap, rs, t, ht => by
    unfold reconcileAll
    rw [List.foldl_cons]
    rcases List.mem_cons.mp ht with rfl | ht2
    · exact tidPresent_foldPres cfg t.tid time snap _ (tidPresent_self cfg time rs t)
    · exact tidPresent_reconcileAll cfg time snap _ t ht2

/-- The archive phase keeps every snapshot tournament identity. -/
theorem tidPresent_archivePhase (time : Nat) (tids : List Nat) (rs : RunState)
    (tid0 : Nat) (htid : tid0 ∈ tids)
    (h : ∃ tr ∈ rs.store.tournaments, tr.id = tid0) :
    ∃ tr ∈ (archivePhase time tids rs).store.tournaments, tr.id = tid0 := by
  obtain ⟨tr0, htr0, hid0⟩ := h
  unfold archivePhase
  dsimp only
  refine ⟨_, List.mem_map_of_mem _ (List.mem_filter.mpr ⟨htr0, ?_⟩), ?_⟩
  · rw [decide_eq_true_eq]
    exact Or.inl (by rw [hid0]; exact htid)
  · show (if tr0.id ∈ tids then tr0 else _).id = tid0
    split <;> exact hid0

/-- A dead identity is never a snapshot identity. -/
theorem mem_deadIds_not_tids {tids : List Nat} {st : Store} {d : Nat}
    (hd : d ∈ (st.tournaments.filter
      (fun t => t.id ∉ tids ∧ ¬ hasPaidEntry st.entries t.id)).map (·.id)) :
    d ∉ tids := by
  rw [List.mem_map] at hd
  obtain ⟨x, hx, rfl⟩ := hd
  have := (List.mem_filter.mp hx).2
  rw [decide_eq_true_eq] at this
  exact this.1

/-- After the archive phase every surviving tournament absent from the
snapshot identities has financial history in the surviving entries. -/
theorem archivePhase_absent_paid (time : Nat) (tids : List Nat) (rs : RunState) :
    ∀ tr ∈ (archivePhase time tids rs).store.tournaments, tr.id ∉ tids →
      hasPaidEntry (archivePhase time tids rs).store.entries tr.id = true := by
  intro tr htr habs
  unfold archivePhase at htr ⊢
  dsimp only at htr ⊢
  rw [List.mem_map] at htr
  obtain ⟨t0, ht0, rfl⟩ := htr
  have hid : (if t0.id ∈ tids then t0
      else { t0 with archivedAt := some time, active := false }).id = t0.id := by
    split <;> rfl
  rw [hid] at habs ⊢
  have hkeep := (List.mem_filter.mp ht0).2
  rw [decide_eq_true_eq] at hkeep
  rcases hkeep with hin | hpaid
  · exact absurd hin habs
  · have hpaid' := hpaid
    unfold hasPaidEntry at hpaid'
    rw [List.any_eq_true] at hpaid'
    obtain ⟨e, he, hep⟩ := hpaid'
    unfold hasPaidEntry
    rw [List.any_eq_true]
    refine ⟨e, List.mem_filter.mpr ⟨he, ?_⟩, hep⟩
    rw [decide_eq_true_eq]
    intro hdead
    rw [List.mem_map] at hdead
    obtain ⟨x, hx, hxid⟩ := hdead
    have hxf := (List.mem_filter.mp hx).2
    rw [decide_eq_true_eq] at hxf
    have hetid : e.tournamentId = t0.id := (of_decide_eq_true hep).1
    rw [hetid] at hxid
    rw [hxid] at hxf
    exact hxf.2 hpaid

/-- The archive phase preserves readiness of a name of a snapshot
tournament: it touches neither players nor aliases, and keeps every
entry of a tournament whose identity is in the snapshot. -/
theorem nameReady_archivePhase (cfg : MatchCfg) (tid : Nat) (raw : String)
    (time : Nat) (tids : List Nat) (rs : RunState) (htid : tid ∈ tids)
    (h : NameReady cfg tid raw rs.store) :
    NameReady cfg tid raw (archivePhase time tids rs).store := by
  obtain ⟨h1, h2⟩ := h
  unfold NameReady
  constructor
  · show rOut cfg rs.store.players rs.store.aliases (normalizeName raw) ≠ ROut.create
    exact h1
  · intro pid hlink
    have hlink' : rOut cfg rs.store.players rs.store.aliases (normalizeName raw) =
        ROut.link pid := hlink
    have h3 := h2 pid hlink'
    rw [List.any_eq_true] at h3
    obtain ⟨e, he, hpe⟩ := h3
    show ((archivePhase time tids rs).store.entries.any (entryMatches tid pid)) = true
    unfold archivePhase
    dsimp only
    rw [List.any_eq_true]
    refine ⟨e, List.mem_filter.mpr ⟨he, ?_⟩, hpe⟩
    rw [decide_eq_true_eq]
    intro hdead
    have hnt := mem_deadIds_not_tids hdead
    have hetid : e.tournamentId = tid := (of_decide_eq_true hpe).1
    rw [hetid] at hnt
    exact hnt htid

/-- The first run over a snapshot leaves the store ready for an
idempotent second run over the same snapshot. -/
theorem runSync_snapReady (cfg : MatchCfg) (time : Nat) (snap : Snapshot)
    (st0 : Store) :
    SnapReady cfg snap (runSync cfg time snap st0) := by
  unfold SnapReady
  refine ⟨?_, ?_, ?_⟩
  · intro t ht
    have htids : t.tid ∈ snapTids snap := List.mem_map_of_mem _ ht
    have h1 := tidPresent_reconcileAll cfg time snap
      { store := st0, run := openRun st0.nextRunId time } t ht
    exact tidPresent_archivePhase time (snapTids snap) _ t.tid htids h1
  · intro tr htr habs
    exact archivePhase_absent_paid time (snapTids snap)
      (reconcileAll cfg time snap { store := st0, run := openRun st0.nextRunId time })
      tr htr habs
  · intro t ht
    have htids : t.tid ∈ snapTids snap := List.mem_map_of_mem _ ht
    rcases run1_names cfg time snap
        { store := st0, run := openRun st0.nextRunId time } t ht with hl | hr
    · left
      intro se hse
      exact nameReady_archivePhase cfg t.tid se.rawName time (snapTids snap) _
        htids (hl se hse)
    · right
      intro tr htr
      obtain ⟨tr0, hfind0, harch0⟩ := hr
      have hstable : (runSync cfg time snap st0).tournaments.find?
          (fun x => x.id = t.tid) = some tr0 := by
        show ((archivePhase time (snapTids snap) _).store.tournaments).find? _ = _
        unfold archivePhase
        dsimp only
        rw [find?_filter_map_stable _ _ _ ?hk ?hf1 ?hf2]
        · exact hfind0
        case hk =>
          intro a hpa
          rw [decide_eq_true_eq] at hpa
          rw [decide_eq_true_eq]
          exact Or.inl (by rw [hpa]; exact htids)
        case hf1 =>
          intro a hpa
          rw [decide_eq_true_eq] at hpa
          rw [if_pos (by rw [hpa]; exact htids)]
        case hf2 =>
          intro a
          dsimp only
          split <;> rfl
      rw [hstable] at htr
      injection htr with htr
      rw [← htr]
      exact harch0

/-- An entry upsert never touches the stored run log. -/
theorem upsertEntry_runs (time tid pid : Nat) (ps : PayStatus) (rs : RunState) :
    (upsertEntry time tid pid ps rs).store.runs = rs.store.runs := by
  unfold upsertEntry
  split <;> rfl

/-- An upsert of an already-stored (tournament, player) key rewrites the
matching rows in place: entry identities are untouched. -/
theorem upsertEntry_entries_ids (time tid pid : Nat) (ps : PayStatus) (rs : RunState)
    (h : rs.store.entries.any (entryMatches tid pid) = true) :
    (upsertEntry time tid pid ps rs).store.entries.map Entry.id =
      rs.store.entries.map Entry.id := by
  unfold upsertEntry
  rw [if_pos h]
  dsimp only
  rw [List.map_map]
  refine List.map_congr_left ?_
  intro e _
  dsimp only [Function.comp]
  split <;> rfl

/-- An upsert of an already-stored (tournament, player) key counts an
existing entry, not a new one. -/
theorem upsertEntry_entriesNew_existing (time tid pid : Nat) (ps : PayStatus)
    (rs : RunState) (h : rs.store.entries.any (entryMatches tid pid) = true) :
    (upsertEntry time tid pid ps rs).run.entriesNew = rs.run.entriesNew := by
  unfold upsertEntry
  rw [if_pos h]

/-- Deactivation rewrites rows in place: entry identities untouched. -/
theorem deactivateMissing_entries_ids (tid : Nat) (pids : List Nat) (rs : RunState) :
    (deactivateMissing tid pids rs).store.entries.map Entry.id =
      rs.store.entries.map Entry.id := by
  unfold deactivateMissing
  dsimp only
  rw [List.map_map]
  refine List.map_congr_left ?_
  intro e _
  dsimp only [Function.comp]
  split <;> rfl

/-- One roster step of a ready name preserves the idempotence frame. -/
theorem idemInv_reconcileEntry (cfg : MatchCfg) (snap : Snapshot) (st1 : Store)
    (time tid : Nat) (acc : RunState × List Nat) (se : SnapEntry)
    (htid : tid ∈ snapTids snap)
    (hnr : NameReady cfg tid se.rawName st1)
    (hJ : IdemInv snap st1 acc.1) :
    IdemInv snap st1 (reconcileEntry cfg time tid acc se).1 := by
  obtain ⟨j1, j2, j3, j4, j5, j6, j7, j8⟩ := hJ
  cases hro : rOut cfg st1.players st1.aliases (normalizeName se.rawName) with
  | create => exact absurd hro hnr.1
  | link pid =>
    have hro' : rOut cfg acc.1.store.players acc.1.store.aliases
        (normalizeName se.rawName) = ROut.link pid := by
      rw [j1, j2]
      exact hro
    have hany1 : st1.entries.any (entryMatches tid pid) = true := hnr.2 pid hro
    have hany : acc.1.store.entries.any (entryMatches tid pid) = true :=
      j5 tid pid hany1
    have hstep : (reconcileEntry cfg time tid acc se).1 =
        upsertEntry time tid pid se.paymentStatus ⟨acc.1.store, acc.1.run⟩ := by
      simp only [reconcileEntry, resolveName_link cfg tid se.rawName acc.1.store hro']
      rfl
    rw [hstep]
    have hany' : (⟨acc.1.store, acc.1.run⟩ : RunState).store.entries.any
        (entryMatches tid pid) = true := hany
    unfold IdemInv
    refine ⟨?_, ?_, ?_, ?_, ?_, ?_, ?_, ?_⟩
    · rw [upsertEntry_players]
      exact j1
    · rw [upsertEntry_aliases]
      exact j2
    · rw [upsertEntry_tournaments]
      exact j3
    · rw [upsertEntry_entries_ids _ _ _ _ _ hany']
      exact j4
    · intro tid0 pid0 hh
      exact upsertEntry_any_pres _ _ _ _ _ tid0 pid0 (j5 tid0 pid0 hh)
    · intro tid0 htid0
      have hne : tid0 ≠ tid := fun hcon => htid0 (by rw [hcon]; exact htid)
      rw [entriesOf_upsertEntry _ _ _ _ _ hne]
      exact j6 tid0 htid0
    · rw [upsertEntry_runs]
      exact j7
    · rw [upsertEntry_entriesNew_existing _ _ _ _ _ hany']
      exact j8
  | quar =>
    have hro' : rOut cfg acc.1.store.players acc.1.store.aliases
        (normalizeName se.rawName) = ROut.quar := by
      rw [j1, j2]
      exact hro
    obtain ⟨pendId, st', heq, hpl, hal, hen, htour, hruns⟩ :=
      resolveName_quar cfg tid se.rawName acc.1.store hro'
    have hstep : (reconcileEntry cfg time tid acc se).1 = ⟨st', acc.1.run⟩ := by
      simp only [reconcileEntry, heq]
    rw [hstep]
    unfold IdemInv
    refine ⟨?_, ?_, ?_, ?_, ?_, ?_, ?_, ?_⟩
    · show st'.players = _
      rw [hpl]
      exact j1
    · show st'.aliases = _
      rw [hal]
      exact j2
    · show st'.tournaments.map tourKey = _
      rw [htour]
      exact j3
    · show st'.entries.map Entry.id = _
      rw [hen]
      exact j4
    · intro tid0 pid0 hh
      show st'.entries.any (entryMatches tid0 pid0) = true
      rw [hen]
      exact j5 tid0 pid0 hh
    · intro tid0 htid0
      show entriesOf tid0 st'.entries = _
      rw [hen]
      exact j6 tid0 htid0
    · show st'.runs = _
      rw [hruns]
      exact j7
    · exact j8

/-- Deactivating a snapshot tournament's untouched entries preserves the
idempotence frame. -/
theorem idemInv_deactivateMissing (snap : Snapshot) (st1 : Store) (tid : Nat)
    (pids : List Nat) (rs : RunState) (htid : tid ∈ snapTids snap)
    (hJ : IdemInv snap st1 rs) :
    IdemInv snap st1 (deactivateMissing tid pids rs) := by
  obtain ⟨j1, j2, j3, j4, j5, j6, j7, j8⟩ := hJ
  unfold IdemInv
  refine ⟨j1, j2, j3, ?_, ?_, ?_, j7, j8⟩
  · rw [deactivateMissing_entries_ids]
    exact j4
  · intro tid0 pid0 hh
    exact deactivateMissing_any_pres tid pids rs tid0 pid0 (j5 tid0 pid0 hh)
  · intro tid0 htid0
    have hne : tid0 ≠ tid := fun hcon => htid0 (by rw [hcon]; exact htid)
    rw [entriesOf_deactivateMissing _ _ _ hne]
    exact j6 tid0 htid0

/-- The roster pass of a snapshot tournament with ready names preserves
the idempotence frame. -/
theorem idemInv_entriesPassFold (cfg : MatchCfg) (snap : Snapshot) (st1 : Store)
    (time tid : Nat) (htid : tid ∈ snapTids snap) :
    ∀ (es : List SnapEntry) (acc : RunState × List Nat),
      (∀ se ∈ es, NameReady cfg tid se.rawName st1) →
      IdemInv snap st1 acc.1 →
      IdemInv snap st1 ((es.foldl (reconcileEntry cfg time tid) acc).1)
  | [], _, _, hJ => hJ
  | se :: es, acc, hnr, hJ => by
    rw [List.foldl_cons]
    exact idemInv_entriesPassFold cfg snap st1 time tid htid es _
      (fun se2 hse2 => hnr se2 (List.mem_cons_of_mem se hse2))
      (idemInv_reconcileEntry cfg snap st1 time tid acc se htid
        (hnr se (List.mem_cons_self se es)) hJ)

/-- Reconciling a snapshot tournament in a ready store preserves the
idempotence frame: the tournament row exists, so no row is inserted;
its names are ready or it is skipped as archived, so no player or entry
row is inserted either. -/
theorem idemInv_reconcileTournament (cfg : MatchCfg) (snap : Snapshot) (st1 : Store)
    (time : Nat) (rs : RunState) (t : SnapTournament) (ht : t ∈ snap)
    (hready : SnapReady cfg snap st1)
    (hJ : IdemInv snap st1 rs) :
    IdemInv snap st1 (reconcileTournament cfg time rs t) := by
  obtain ⟨j1, j2, j3, j4, j5, j6, j7, j8⟩ := hJ
  obtain ⟨hpres, habs, hnames⟩ := hready
  have htids : t.tid ∈ snapTids snap := List.mem_map_of_mem _ ht
  have hcorr := tourFind_eq rs.store.tournaments st1.tournaments j3 t.tid
  unfold reconcileTournament
  split
  · rename_i existing hfind
    split
    · exact ⟨j1, j2, j3, j4, j5, j6, j7, j8⟩
    · rename_i hnarch
      have hleft : ∀ se ∈ t.entries, NameReady cfg t.tid se.rawName st1 := by
        rcases hnames t ht with hl | hr
        · exact hl
        · exfalso
          rw [hfind] at hcorr
          cases hst1find : st1.tournaments.find? (fun x => x.id = t.tid) with
          | none =>
            rw [hst1find] at hcorr
            exact absurd hcorr (by simp)
          | some tr1 =>
            rw [hst1find] at hcorr
            dsimp only [Option.map] at hcorr
            injection hcorr with hk
            have harch1 := hr tr1 hst1find
            have harr : existing.archivedAt = tr1.archivedAt := congrArg Prod.snd hk
            rw [harr] at hnarch
            exact hnarch harch1
      have hJ2 : IdemInv snap st1
          ⟨{ rs.store with tournaments := rs.store.tournaments.map (fun tr =>
              if tr.id = t.tid then
                { tr with title := t.title, format := t.format, active := true,
                          lastSeenInSource := time }
              else tr) },
            { rs.run with tournamentsUpsert := rs.run.tournamentsUpsert + 1 }⟩ := by
        refine ⟨j1, j2, ?_, j4, j5, j6, j7, j8⟩
        show (rs.store.tournaments.map _).map tourKey = _
        rw [List.map_map]
        refine Eq.trans (List.map_congr_left ?_) j3
        intro tr _
        dsimp only [Function.comp]
        unfold tourKey
        split <;> rfl
      unfold reconcileEntries entriesPass
      exact idemInv_deactivateMissing snap st1 t.tid _ _ htids
        (idemInv_entriesPassFold cfg snap st1 time t.tid htids t.entries _ hleft hJ2)
  · rename_i hnone
    exfalso
    obtain ⟨tr1, htr1, hid1⟩ := hpres t ht
    rw [hnone] at hcorr
    cases hst1find : st1.tournaments.find? (fun x => x.id = t.tid) with
    | some tr2 =>
      rw [hst1find] at hcorr
      exact absurd hcorr (by simp)
    | none =>
      have := List.find?_eq_none.mp hst1find tr1 htr1
      rw [decide_eq_true_eq] at this
      exact this hid1

/-- The whole reconcile pass of a second run over the unchanged snapshot
preserves the idempotence frame. -/
theorem idemInv_reconcileAll (cfg : MatchCfg) (st1 : Store) (time : Nat)
    {snap : Snapshot} (hready : SnapReady cfg snap st1) :
    ∀ (snapPart : Snapshot) (rs : RunState), (∀ t ∈ snapPart, t ∈ snap) →
      IdemInv snap st1 rs →
      IdemInv snap st1 (reconcileAll cfg time snapPart rs)
  | [], _, _, hJ => hJ
  | t :: snapPart, rs, hsub, hJ => by
    unfold reconcileAll
    rw [List.foldl_cons]
    exact idemInv_reconcileAll cfg st1 time hready snapPart _
      (fun t2 ht2 => hsub t2 (List.mem_cons_of_mem t ht2))
      (idemInv_reconcileTournament cfg snap st1 time rs t
        (hsub t (List.mem_cons_self t snapPart)) hready hJ)

/-- An upsert of an already-stored (tournament, player) key counts one
more existing entry. -/
theorem upsertEntry_entriesExisting_existing (time tid pid : Nat) (ps : PayStatus)
    (rs : RunState) (h : rs.store.entries.any (entryMatches tid pid) = true) :
    (upsertEntry time tid pid ps rs).run.entriesExisting =
      rs.run.entriesExisting + 1 := by
  unfold upsertEntry
  rw [if_pos h]

/-- Over the roster pass of a ready snapshot tournament the second run
counts exactly the linked roster names into `entries_existing`. -/
theorem existingDelta_entriesPassFold (cfg : MatchCfg) (snap : Snapshot)
    (st1 : Store) (time tid : Nat) (htid : tid ∈ snapTids snap) :
    ∀ (es : List SnapEntry) (acc : RunState × List Nat),
      (∀ se ∈ es, NameReady cfg tid se.rawName st1) →
      IdemInv snap st1 acc.1 →
      (es.foldl (reconcileEntry cfg time tid) acc).1.run.entriesExisting =
        acc.1.run.entriesExisting +
          (es.filter (fun se =>
            linksName cfg st1.players st1.aliases se.rawName)).length
  | [], _, _, _ => rfl
  | se :: es, acc, hnr, hJ => by
    rw [List.foldl_cons, List.filter_cons]
    have hJ2 := idemInv_reconcileEntry cfg snap st1 time tid acc se htid
      (hnr se (List.mem_cons_self se es)) hJ
    have hrec := existingDelta_entriesPassFold cfg snap st1 time tid htid es
      (reconcileEntry cfg time tid acc se)
      (fun se2 hse2 => hnr se2 (List.mem_cons_of_mem se hse2)) hJ2
    obtain ⟨j1, j2, j3, j4, j5, j6, j7, j8⟩ := hJ
    cases hro : rOut cfg st1.players st1.aliases (normalizeName se.rawName) with
    | create => exact absurd hro (hnr se (List.mem_cons_self se es)).1
    | link pid =>
      have hlinks : linksName cfg st1.players st1.aliases se.rawName = true := by
        unfold linksName
        rw [hro]
      rw [if_pos hlinks]
      have hro2 : rOut cfg acc.1.store.players acc.1.store.aliases
          (normalizeName se.rawName) = ROut.link pid := by
        rw [j1, j2]
        exact hro
      have hany : acc.1.store.entries.any (entryMatches tid pid) = true :=
        j5 tid pid ((hnr se (List.mem_cons_self se es)).2 pid hro)
      have hany2 : (⟨acc.1.store, acc.1.run⟩ : RunState).store.entries.any
          (entryMatches tid pid) = true := hany
      have hstep : (reconcileEntry cfg time tid acc se).1 =
          upsertEntry time tid pid se.paymentStatus ⟨acc.1.store, acc.1.run⟩ := by
        simp only [reconcileEntry, resolveName_link cfg tid se.rawName acc.1.store hro2]
        rfl
      rw [hrec, hstep, upsertEntry_entriesExisting_existing _ _ _ _ _ hany2]
      dsimp only
      rw [List.length_cons]
      omega
    | quar =>
      have hlinks : linksName cfg st1.players st1.aliases se.rawName = false := by
        unfold linksName
        rw [hro]
      rw [if_neg (by rw [hlinks]; simp)]
      have hro2 : rOut cfg acc.1.store.players acc.1.store.aliases
          (normalizeName se.rawName) = ROut.quar := by
        rw [j1, j2]
        exact hro
      obtain ⟨pendId, st2, heq, _, _, _, _, _⟩ :=
        resolveName_quar cfg tid se.rawName acc.1.store hro2
      have hstep : (reconcileEntry cfg time tid acc se).1 = ⟨st2, acc.1.run⟩ := by
        simp only [reconcileEntry, heq]
      rw [hrec, hstep]

/-- Reconciling one snapshot tournament in the second run counts exactly
its touched roster entries into `entries_existing`. -/
theorem existingDelta_reconcileTournament (cfg : MatchCfg) (snap : Snapshot)
    (st1 : Store) (time : Nat) (rs : RunState) (t : SnapTournament) (ht : t ∈ snap)
    (hready : SnapReady cfg snap st1) (hJ : IdemInv snap st1 rs) :
    (reconcileTournament cfg time rs t).run.entriesExisting =
      rs.run.entriesExisting + touchedCount cfg st1 [t] := by
  obtain ⟨j1, j2, j3, j4, j5, j6, j7, j8⟩ := hJ
  have htids : t.tid ∈ snapTids snap := List.mem_map_of_mem _ ht
  have hcorr := tourFind_eq rs.store.tournaments st1.tournaments j3 t.tid
  unfold reconcileTournament
  split
  · rename_i existing hfind
    rw [hfind] at hcorr
    cases hst1find : st1.tournaments.find? (fun x => x.id = t.tid) with
    | none =>
      rw [hst1find] at hcorr
      exact absurd hcorr (by simp)
    | some tr1 =>
      rw [hst1find] at hcorr
      dsimp only [Option.map] at hcorr
      injection hcorr with hk
      have harcheq : existing.archivedAt = tr1.archivedAt := congrArg Prod.snd hk
      have hTC : touchedCount cfg st1 [t] =
          (if tr1.archivedAt.isSome then 0
           else (t.entries.filter (fun se =>
             linksName cfg st1.players st1.aliases se.rawName)).length) := by
        unfold touchedCount
        simp only [List.map_cons, List.map_nil, List.sum_cons, List.sum_nil,
          Nat.add_zero]
        rw [hst1find]
      split
      · rename_i hissome
        rw [hTC, if_pos (by rw [← harcheq]; exact hissome)]
        omega
      · rename_i hnotsome
        have hleft : ∀ se ∈ t.entries, NameReady cfg t.tid se.rawName st1 := by
          rcases hready.2.2 t ht with hl | hr
          · exact hl
          · exfalso
            have := hr tr1 hst1find
            rw [← harcheq] at this
            exact hnotsome this
        have hJ2 : IdemInv snap st1
            ⟨{ rs.store with tournaments := rs.store.tournaments.map (fun tr =>
                if tr.id = t.tid then
                  { tr with title := t.title, format := t.format, active := true,
                            lastSeenInSource := time }
                else tr) },
              { rs.run with tournamentsUpsert := rs.run.tournamentsUpsert + 1 }⟩ := by
          refine ⟨j1, j2, ?_, j4, j5, j6, j7, j8⟩
          show (rs.store.tournaments.map _).map tourKey = _
          rw [List.map_map]
          refine Eq.trans (List.map_congr_left ?_) j3
          intro tr _
          dsimp only [Function.comp]
          unfold tourKey
          split <;> rfl
        have hdelta := existingDelta_entriesPassFold cfg snap st1 time t.tid htids
          t.entries
          (⟨⟨{ rs.store with tournaments := rs.store.tournaments.map (fun tr =>
                if tr.id = t.tid then
                  { tr with title := t.title, format := t.format, active := true,
                            lastSeenInSource := time }
                else tr) },
              { rs.run with tournamentsUpsert := rs.run.tournamentsUpsert + 1 }⟩,
            []⟩) hleft hJ2
        rw [hTC, if_neg (by rw [← harcheq]; exact hnotsome)]
        unfold reconcileEntries entriesPass deactivateMissing
        dsimp only
        exact hdelta
  · rename_i hnone
    exfalso
    obtain ⟨tr1, htr1, hid1⟩ := hready.1 t ht
    rw [hnone] at hcorr
    cases hst1find : st1.tournaments.find? (fun x => x.id = t.tid) with
    | some tr2 =>
      rw [hst1find] at hcorr
      exact absurd hcorr (by simp)
    | none =>
      have := List.find?_eq_none.mp hst1find tr1 htr1
      rw [decide_eq_true_eq] at this
      exact this hid1

/-- The reconcile pass of the second run counts exactly the touched
roster entries of the unchanged snapshot into `entries_existing`. -/
theorem existingDelta_reconcileAll (cfg : MatchCfg) (st1 : Store) (time : Nat)
    {snap : Snapshot} (hready : SnapReady cfg snap st1) :
    ∀ (snapPart : Snapshot) (rs : RunState), (∀ t ∈ snapPart, t ∈ snap) →
      IdemInv snap st1 rs →
      (reconcileAll cfg time snapPart rs).run.entriesExisting =
        rs.run.entriesExisting + touchedCount cfg st1 snapPart
  | [], _, _, _ => by
    unfold reconcileAll touchedCount
    simp
  | t :: sp, rs, hsub, hJ => by
    unfold reconcileAll
    rw [List.foldl_cons]
    have hstep := existingDelta_reconcileTournament cfg snap st1 time rs t
      (hsub t (List.mem_cons_self t sp)) hready hJ
    have hJ2 := idemInv_reconcileTournament cfg snap st1 time rs t
      (hsub t (List.mem_cons_self t sp)) hready hJ
    have hrec := existingDelta_reconcileAll cfg st1 time hready sp _
      (fun t2 ht2 => hsub t2 (List.mem_cons_of_mem t ht2)) hJ2
    unfold reconcileAll at hrec
    have hTCcons : touchedCount cfg st1 (t :: sp) =
        touchedCount cfg st1 [t] + touchedCount cfg st1 sp := by
      unfold touchedCount
      simp only [List.map_cons, List.map_nil, List.sum_cons, List.sum_nil,
        Nat.add_zero]
    rw [hrec, hstep, hTCcons]
    omega

/-- The second run over an unchanged snapshot creates no Player,
Tournament or Entry rows — the three tables keep their contents up to
in-place rewrites of existing rows — and appends exactly one SyncRun row
with `entries_new = 0`, the touched entries counted in
`entries_existing`, and `started_at` at the second run's time. -/
theorem runSync_idem_tables (cfg : MatchCfg) (t2 : Nat) (snap : Snapshot)
    (st1 : Store) (hready : SnapReady cfg snap st1) :
    (runSync cfg t2 snap st1).players = st1.players ∧
    (runSync cfg t2 snap st1).tournaments.map Tournament.id =
      st1.tournaments.map Tournament.id ∧
    (runSync cfg t2 snap st1).entries.map Entry.id = st1.entries.map Entry.id ∧
    ∃ r2, (runSync cfg t2 snap st1).runs = st1.runs ++ [r2] ∧
      r2.entriesNew = 0 ∧ r2.entriesExisting = touchedCount cfg st1 snap ∧
      r2.startedAt = t2 := by
  have hJ0 : IdemInv snap st1 { store := st1, run := openRun st1.nextRunId t2 } :=
    ⟨rfl, rfl, rfl, rfl, fun _ _ h => h, fun _ _ => rfl, rfl, rfl⟩
  have hJ := idemInv_reconcileAll cfg st1 t2 hready snap
    { store := st1, run := openRun st1.nextRunId t2 } (fun _ h => h) hJ0
  have hdelta := existingDelta_reconcileAll cfg st1 t2 hready snap
    { store := st1, run := openRun st1.nextRunId t2 } (fun _ h => h) hJ0
  obtain ⟨hpres, habs, hnames⟩ := hready
  obtain ⟨j1, j2, j3, j4, j5, j6, j7, j8⟩ := hJ
  obtain ⟨⟨m1, m2, m3, m4⟩, m5⟩ := @reconcileAll_runMeta cfg t2 snap
    { store := st1, run := openRun st1.nextRunId t2 }
  have hpaidmid : ∀ tr ∈ (reconcileAll cfg t2 snap
      { store := st1, run := openRun st1.nextRunId t2 }).store.tournaments,
      tr.id ∉ snapTids snap →
      hasPaidEntry (reconcileAll cfg t2 snap
        { store := st1, run := openRun st1.nextRunId t2 }).store.entries tr.id = true := by
    intro tr htr hna
    have hmemk : tourKey tr ∈ st1.tournaments.map tourKey := by
      rw [← j3]
      exact List.mem_map_of_mem _ htr
    rw [List.mem_map] at hmemk
    obtain ⟨tr1, htr1, hk1⟩ := hmemk
    have hid1 : tr1.id = tr.id := congrArg Prod.fst hk1
    have habs1 : hasPaidEntry st1.entries tr.id = true := by
      rw [← hid1]
      exact habs tr1 htr1 (by rw [hid1]; exact hna)
    rw [hasPaid_eq_entriesOf, j6 tr.id hna, ← hasPaid_eq_entriesOf]
    exact habs1
  have hdead : ((reconcileAll cfg t2 snap
      { store := st1, run := openRun st1.nextRunId t2 }).store.tournaments.filter
      (fun t => t.id ∉ snapTids snap ∧
        ¬ hasPaidEntry (reconcileAll cfg t2 snap
          { store := st1, run := openRun st1.nextRunId t2 }).store.entries t.id)) = [] := by
    rw [List.filter_eq_nil_iff]
    intro a ha
    intro hcon
    rw [decide_eq_true_eq] at hcon
    exact hcon.2 (hpaidmid a ha hcon.1)
  have hkeep : ((reconcileAll cfg t2 snap
      { store := st1, run := openRun st1.nextRunId t2 }).store.tournaments.filter
      (fun t => t.id ∈ snapTids snap ∨
        hasPaidEntry (reconcileAll cfg t2 snap
          { store := st1, run := openRun st1.nextRunId t2 }).store.entries t.id)) =
      (reconcileAll cfg t2 snap
        { store := st1, run := openRun st1.nextRunId t2 }).store.tournaments := by
    rw [List.filter_eq_self]
    intro a ha
    rw [decide_eq_true_eq]
    by_cases hin : a.id ∈ snapTids snap
    · exact Or.inl hin
    · exact Or.inr (hpaidmid a ha hin)
  have hentkeep : ((reconcileAll cfg t2 snap
      { store := st1, run := openRun st1.nextRunId t2 }).store.entries.filter
      (fun e => e.tournamentId ∉
        (((reconcileAll cfg t2 snap
          { store := st1, run := openRun st1.nextRunId t2 }).store.tournaments.filter
          (fun t => t.id ∉ snapTids snap ∧
            ¬ hasPaidEntry (reconcileAll cfg t2 snap
              { store := st1, run := openRun st1.nextRunId t2 }).store.entries t.id)).map
            (·.id)))) =
      (reconcileAll cfg t2 snap
        { store := st1, run := openRun st1.nextRunId t2 }).store.entries := by
    rw [List.filter_eq_self]
    intro a ha
    rw [decide_eq_true_eq, hdead]
    simp
  refine ⟨?_, ?_, ?_, ?_⟩
  · exact j1
  · show (((reconcileAll cfg t2 snap
      { store := st1, run := openRun st1.nextRunId t2 }).store.tournaments.filter
        _).map _).map Tournament.id = _
    rw [hkeep, List.map_map]
    have hids : (reconcileAll cfg t2 snap
        { store := st1, run := openRun st1.nextRunId t2 }).store.tournaments.map
          Tournament.id = st1.tournaments.map Tournament.id := by
      have hfst := congrArg (List.map Prod.fst) j3
      rw [List.map_map, List.map_map] at hfst
      exact hfst
    refine Eq.trans (List.map_congr_left ?_) hids
    intro tr _
    dsimp only [Function.comp]
    split <;> rfl
  · show ((reconcileAll cfg t2 snap
      { store := st1, run := openRun st1.nextRunId t2 }).store.entries.filter _).map
        Entry.id = _
    rw [hentkeep]
    exact j4
  · refine ⟨{ (archivePhase t2 (snapTids snap) (reconcileAll cfg t2 snap
      { store := st1, run := openRun st1.nextRunId t2 })).run with
        finishedAt := some t2, error := none }, ?_, ?_, ?_, ?_⟩
    · show (archivePhase t2 (snapTids snap) _).store.runs ++ _ = _
      have hruns : (archivePhase t2 (snapTids snap) (reconcileAll cfg t2 snap
          { store := st1, run := openRun st1.nextRunId t2 })).store.runs = st1.runs := j7
      rw [hruns]
    · exact j8
    · show (reconcileAll cfg t2 snap
        { store := st1, run := openRun st1.nextRunId t2 }).run.entriesExisting =
          touchedCount cfg st1 snap
      rw [hdelta]
      show 0 + touchedCount cfg st1 snap = touchedCount cfg st1 snap
      omega
    · exact m2

/-- The touch postcondition transfers along equal tables. -/
theorem touchedDone_of_eq (time tid0 : Nat) (st st' : Store)
    (hT : st'.tournaments = st.tournaments) (hE : st'.entries = st.entries)
    (h : TouchedDone time tid0 st) : TouchedDone time tid0 st' := by
  unfold TouchedDone
  rw [hT, hE]
  exact h

/-- An upsert at the run time preserves the touch postcondition. -/
theorem touchedDone_upsertEntry (time tid0 tid pid : Nat) (ps : PayStatus)
    (rs : RunState) (h : TouchedDone time tid0 rs.store) :
    TouchedDone time tid0 (upsertEntry time tid pid ps rs).store := by
  obtain ⟨h1, h2⟩ := h
  unfold TouchedDone
  constructor
  · rw [upsertEntry_tournaments]
    exact h1
  · intro e he htid hact
    unfold upsertEntry at he
    split at he
    · dsimp only at he
      rw [List.mem_map] at he
      obtain ⟨e0, he0, rfl⟩ := he
      by_cases hm : entryMatches tid pid e0 = true
      · rw [if_pos hm]
      · rw [if_neg hm] at htid hact ⊢
        exact h2 e0 he0 htid hact
    · dsimp only at he
      rcases List.mem_append.mp he with hold | hnew
      · exact h2 e hold htid hact
      · rw [List.mem_singleton] at hnew
        rw [hnew]

/-- Deactivation at the run time preserves the touch postcondition. -/
theorem touchedDone_deactivateMissing (time tid0 tid : Nat) (pids : List Nat)
    (rs : RunState) (h : TouchedDone time tid0 rs.store) :
    TouchedDone time tid0 (deactivateMissing tid pids rs).store := by
  obtain ⟨h1, h2⟩ := h
  unfold TouchedDone
  constructor
  · exact h1
  · intro e he htid hact
    unfold deactivateMissing at he
    dsimp only at he
    rw [List.mem_map] at he
    obtain ⟨e0, he0, rfl⟩ := he
    by_cases hm : (e0.tournamentId = tid ∧ e0.playerId ∉ pids ∧ e0.active = true)
    · rw [if_pos hm] at hact
      exact absurd hact (by simp)
    · rw [if_neg hm] at htid hact ⊢
      exact h2 e0 he0 htid hact

/-- Identity resolution preserves the touch postcondition. -/
theorem touchedDone_resolveName (cfg : MatchCfg) (time tid0 tid : Nat) (raw : String)
    (st : Store) (h : TouchedDone time tid0 st) :
    TouchedDone time tid0 (resolveName cfg tid raw st).2.1 :=
  touchedDone_of_eq time tid0 st _ (resolveName_tournaments cfg tid raw st)
    (resolveName_entries cfg tid raw st) h

/-- A roster step at the run time preserves the touch postcondition. -/
theorem touchedDone_reconcileEntry (cfg : MatchCfg) (time tid0 tid : Nat)
    (acc : RunState × List Nat) (se : SnapEntry)
    (h : TouchedDone time tid0 acc.1.store) :
    TouchedDone time tid0 (reconcileEntry cfg time tid acc se).1.store := by
  rcases hres : resolveName cfg tid se.rawName acc.1.store with ⟨res, st', created⟩
  have hst' : TouchedDone time tid0 st' := by
    have := touchedDone_resolveName cfg time tid0 tid se.rawName acc.1.store h
    rw [hres] at this
    exact this
  cases res with
  | linked pid =>
    simp only [reconcileEntry, hres]
    exact touchedDone_upsertEntry time tid0 tid pid se.paymentStatus _ hst'
  | quarantined pendId =>
    simp only [reconcileEntry, hres]
    exact hst'

/-- The roster pass at the run time preserves the touch postcondition. -/
theorem touchedDone_entriesPassFold (cfg : MatchCfg) (time tid0 tid : Nat) :
    ∀ (es : List SnapEntry) (acc : RunState × List Nat),
      TouchedDone time tid0 acc.1.store →
      TouchedDone time tid0 ((es.foldl (reconcileEntry cfg time tid) acc).1.store)
  | [], _, h => h
  | se :: es, acc, h => by
    rw [List.foldl_cons]
    exact touchedDone_entriesPassFold cfg time tid0 tid es _
      (touchedDone_reconcileEntry cfg time tid0 tid acc se h)

/-- Reconciling any snapshot tournament preserves the touch
postcondition. -/
theorem touchedDone_reconcileTournament (cfg : MatchCfg) (time tid0 : Nat)
    (rs : RunState) (t : SnapTournament) (h : TouchedDone time tid0 rs.store) :
    TouchedDone time tid0 (reconcileTournament cfg time rs t).store := by
  obtain ⟨h1, h2⟩ := h
  unfold reconcileTournament
  split
  · split
    · exact ⟨h1, h2⟩
    · unfold reconcileEntries entriesPass
      refine touchedDone_deactivateMissing _ _ _ _ _ ?_
      refine touchedDone_entriesPassFold _ _ _ _ _ _ ?_
      constructor
      · intro tr htr hid
        dsimp only at htr
        rw [List.mem_map] at htr
        obtain ⟨tr0, htr0, rfl⟩ := htr
        by_cases hm : tr0.id = t.tid
        · rw [if_pos hm]
        · rw [if_neg hm] at hid ⊢
          exact h1 tr0 htr0 hid
      · intro e he htid hact
        exact h2 e he htid hact
  · unfold reconcileEntries entriesPass
    refine touchedDone_deactivateMissing _ _ _ _ _ ?_
    refine touchedDone_entriesPassFold _ _ _ _ _ _ ?_
    constructor
    · intro tr htr hid
      dsimp only at htr
      rcases List.mem_append.mp htr with hold | hnew
      · exact h1 tr hold hid
      · rw [List.mem_singleton] at hnew
        rw [hnew]
    · intro e he htid hact
      exact h2 e he htid hact

/-- An upsert at the run time extends the linked-players invariant of
the roster pass by its own player. -/
theorem upsertEntry_inv_step (time tid pid : Nat) (ps : PayStatus) (rs : RunState)
    (pids : List Nat)
    (h : ∀ e ∈ rs.store.entries, e.tournamentId = tid → e.playerId ∈ pids →
      e.active = true → e.lastSeenInSource = time) :
    ∀ e ∈ (upsertEntry time tid pid ps rs).store.entries, e.tournamentId = tid →
      e.playerId ∈ pids ++ [pid] → e.active = true → e.lastSeenInSource = time := by
  intro e he htid hpm hact
  unfold upsertEntry at he
  split at he
  · rename_i hany
    dsimp only at he
    rw [List.mem_map] at he
    obtain ⟨e0, he0, rfl⟩ := he
    by_cases hm : entryMatches tid pid e0 = true
    · rw [if_pos hm]
    · rw [if_neg hm] at htid hpm hact ⊢
      rcases List.mem_append.mp hpm with hp1 | hp2
      · exact h e0 he0 htid hp1 hact
      · exfalso
        rw [List.mem_singleton] at hp2
        exact hm (by unfold entryMatches; exact decide_eq_true ⟨htid, hp2⟩)
  · rename_i hnone
    dsimp only at he
    rcases List.mem_append.mp he with hold | hnew
    · rcases List.mem_append.mp hpm with hp1 | hp2
      · exact h e hold htid hp1 hact
      · exfalso
        rw [List.mem_singleton] at hp2
        exact hnone (by
          rw [List.any_eq_true]
          exact ⟨e, hold, by unfold entryMatches; exact decide_eq_true ⟨htid, hp2⟩⟩)
    · rw [List.mem_singleton] at hnew
      rw [hnew]

/-- Along the roster pass, every stored active entry of the tournament
whose player the pass has linked carries the run time. -/
theorem touchedDone_entriesPass_inv (cfg : MatchCfg) (time tid : Nat) :
    ∀ (es : List SnapEntry) (acc : RunState × List Nat),
      (∀ e ∈ acc.1.store.entries, e.tournamentId = tid → e.playerId ∈ acc.2 →
        e.active = true → e.lastSeenInSource = time) →
      ∀ e ∈ (es.foldl (reconcileEntry cfg time tid) acc).1.store.entries,
        e.tournamentId = tid →
        e.playerId ∈ (es.foldl (reconcileEntry cfg time tid) acc).2 →
        e.active = true → e.lastSeenInSource = time
  | [], _, h => h
  | se :: es, acc, h => by
    rw [List.foldl_cons]
    refine touchedDone_entriesPass_inv cfg time tid es _ ?_
    rcases hres : resolveName cfg tid se.rawName acc.1.store with ⟨res, st', created⟩
    have hen : st'.entries = acc.1.store.entries := by
      have := resolveName_entries cfg tid se.rawName acc.1.store
      rw [hres] at this
      exact this
    cases res with
    | quarantined pendId =>
      simp only [reconcileEntry, hres]
      intro e he htid hpm hact
      rw [hen] at he
      exact h e he htid hpm hact
    | linked pid =>
      simp only [reconcileEntry, hres]
      refine upsertEntry_inv_step time tid pid se.paymentStatus _ acc.2 ?_
      intro e he2 htid hpm hact
      have he3 : e ∈ st'.entries := he2
      rw [hen] at he3
      exact h e he3 htid hpm hact

/-- After a tournament's roster pass every still-active entry of it
carries the run time. -/
theorem touchedDone_reconcileEntries_est (cfg : MatchCfg) (time tid : Nat)
    (es : List SnapEntry) (rs : RunState) :
    ∀ e ∈ (reconcileEntries cfg time tid es rs).store.entries,
      e.tournamentId = tid → e.active = true → e.lastSeenInSource = time := by
  intro e he htid hact
  unfold reconcileEntries at he
  unfold deactivateMissing at he
  dsimp only at he
  rw [List.mem_map] at he
  obtain ⟨e0, he0, rfl⟩ := he
  by_cases hm : (e0.tournamentId = tid ∧
      e0.playerId ∉ (entriesPass cfg time tid es rs).2 ∧ e0.active = true)
  · rw [if_pos hm] at hact
    exact absurd hact (by simp)
  · rw [if_neg hm] at htid hact ⊢
    by_cases hpm : e0.playerId ∈ (entriesPass cfg time tid es rs).2
    · exact touchedDone_entriesPass_inv cfg time tid es (rs, [])
        (fun e1 _ _ hmem _ => absurd hmem (by simp)) e0 he0 htid hpm hact
    · exact absurd ⟨htid, hpm, hact⟩ hm

/-- Processing a snapshot tournament either touches every row of it —
tournament rows and still-active entries stamp the run time — or finds
it blocked behind an archived deciding row. -/
theorem touchedDone_reconcileTournament_self (cfg : MatchCfg) (time : Nat)
    (rs : RunState) (t : SnapTournament) :
    TouchedDone time t.tid (reconcileTournament cfg time rs t).store ∨
    (∃ tr, (reconcileTournament cfg time rs t).store.tournaments.find?
        (fun x => x.id = t.tid) = some tr ∧ tr.archivedAt.isSome = true) := by
  unfold reconcileTournament
  split
  · rename_i existing hfind
    split
    · rename_i harch
      exact Or.inr ⟨existing, hfind, harch⟩
    · left
      unfold TouchedDone
      constructor
      · intro tr htr hid
        rw [reconcileEntries_tournaments] at htr
        dsimp only at htr
        rw [List.mem_map] at htr
        obtain ⟨tr0, htr0, rfl⟩ := htr
        by_cases hm : tr0.id = t.tid
        · rw [if_pos hm]
        · rw [if_neg hm] at hid ⊢
          exact absurd hid hm
      · exact touchedDone_reconcileEntries_est cfg time t.tid t.entries _
  · rename_i hnone
    left
    unfold TouchedDone
    constructor
    · intro tr htr hid
      rw [reconcileEntries_tournaments] at htr
      dsimp only at htr
      rcases List.mem_append.mp htr with hold | hnew
      · exfalso
        have := List.find?_eq_none.mp hnone tr hold
        rw [decide_eq_true_eq] at this
        exact this hid
      · rw [List.mem_singleton] at hnew
        rw [hnew]
    · exact touchedDone_reconcileEntries_est cfg time t.tid t.entries _

/-- The whole reconcile pass preserves the touch postcondition. -/
theorem touchedDone_reconcileAll_pres (cfg : MatchCfg) (time tid0 : Nat) :
    ∀ (snapPart : Snapshot) (rs : RunState), TouchedDone time tid0 rs.store →
      TouchedDone time tid0 (reconcileAll cfg time snapPart rs).store
  | [], _, h => h
  | t :: sp, rs, h => by
    unfold reconcileAll
    rw [List.foldl_cons]
    exact touchedDone_reconcileAll_pres cfg time tid0 sp _
      (touchedDone_reconcileTournament cfg time tid0 rs t h)

/-- After the reconcile pass every snapshot tournament is touched or
blocked behind an archived deciding row. -/
theorem touch_names (cfg : MatchCfg) (time : Nat) :
    ∀ (snapPart : Snapshot) (rs : RunState), ∀ t ∈ snapPart,
      TouchedDone time t.tid (reconcileAll cfg time snapPart rs).store ∨
      (∃ tr, (reconcileAll cfg time snapPart rs).store.tournaments.find?
          (fun x => x.id = t.tid) = some tr ∧ tr.archivedAt.isSome = true)
  | [], _, _, ht => absurd ht (by simp)
  | t0 :: sp, rs, t, ht => by
    unfold reconcileAll
    rw [List.foldl_cons]
    rcases List.mem_cons.mp ht with rfl | ht2
    · rcases touchedDone_reconcileTournament_self cfg time rs t with hl | hr
      · exact Or.inl (touchedDone_reconcileAll_pres cfg time t.tid sp _ hl)
      · exact Or.inr (archivedDeciding_reconcileAll cfg t.tid time sp _ hr)
    · exact touch_names cfg time sp _ t ht2

/-- The archive phase preserves the touch postcondition. -/
theorem touchedDone_archivePhase (time tid0 : Nat) (tids : List Nat) (rs : RunState)
    (h : TouchedDone time tid0 rs.store) :
    TouchedDone time tid0 (archivePhase time tids rs).store := by
  obtain ⟨h1, h2⟩ := h
  unfold TouchedDone
  constructor
  · intro tr htr hid
    unfold archivePhase at htr
    dsimp only at htr
    rw [List.mem_map] at htr
    obtain ⟨tr0, htr0, rfl⟩ := htr
    have htr0mem := List.mem_of_mem_filter htr0
    by_cases hm : tr0.id ∈ tids
    · rw [if_pos hm] at hid ⊢
      exact h1 tr0 htr0mem hid
    · rw [if_neg hm] at hid ⊢
      exact h1 tr0 htr0mem hid
  · intro e he htid hact
    unfold archivePhase at he
    dsimp only at he
    exact h2 e (List.mem_of_mem_filter he) htid hact

/-- Every run advances `last_seen_in_source` to its run time on every
touched row: for each snapshot tournament whose deciding row ends the
run unarchived, all its tournament rows and all its still-active entries
carry the run time. -/
theorem runSync_touched (cfg : MatchCfg) (time : Nat) (snap : Snapshot) (st : Store) :
    ∀ t ∈ snap, ∀ trd,
      (runSync cfg time snap st).tournaments.find? (fun x => x.id = t.tid) =
        some trd →
      trd.archivedAt = none →
      (∀ tr ∈ (runSync cfg time snap st).tournaments, tr.id = t.tid →
        tr.lastSeenInSource = time) ∧
      (∀ e ∈ (runSync cfg time snap st).entries, e.tournamentId = t.tid →
        e.active = true → e.lastSeenInSource = time) := by
  intro t ht trd hfind harch
  have htids : t.tid ∈ snapTids snap := List.mem_map_of_mem _ ht
  rcases touch_names cfg time snap
      { store := st, run := openRun st.nextRunId time } t ht with hl | hr
  · have hT := touchedDone_archivePhase time t.tid (snapTids snap) _ hl
    exact ⟨fun tr htr hid => hT.1 tr htr hid, fun e he h1 h2 => hT.2 e he h1 h2⟩
  · exfalso
    obtain ⟨tra, hfinda, harcha⟩ := hr
    have hstable : (runSync cfg time snap st).tournaments.find?
        (fun x => x.id = t.tid) = some tra := by
      show ((archivePhase time (snapTids snap) _).store.tournaments).find? _ = _
      unfold archivePhase
      dsimp only
      rw [find?_filter_map_stable _ _ _ ?hk ?hf1 ?hf2]
      · exact hfinda
      case hk =>
        intro a hpa
        rw [decide_eq_true_eq] at hpa
        rw [decide_eq_true_eq]
        exact Or.inl (by rw [hpa]; exact htids)
      case hf1 =>
        intro a hpa
        rw [decide_eq_true_eq] at hpa
        rw [if_pos (by rw [hpa]; exact htids)]
      case hf2 =>
        intro a
        dsimp only
        split <;> rfl
    rw [hstable] at hfind
    injection hfind with hfind
    rw [hfind] at harcha
    rw [harch] at harcha
    exact absurd harcha (by simp)

/-- C1: running the engine a second time over the unchanged snapshot is
idempotent — the second run creates zero new Player, Tournament or Entry
rows (the players table is untouched verbatim and the tournament and
entry tables keep exactly their row identities), it appends exactly one
new SyncRun row recording `entries_new = 0` with the touched entries
counted in `entries_existing` (its `entries_existing` equals the number
of roster entries the run touches, i.e. resolves to a link), and it
advances `last_seen_in_source` to the second run's time on every
touched row: every row of each snapshot tournament whose deciding row
ends the run unarchived, and every still-active entry of it. -/
theorem runSync_idempotent (cfg : MatchCfg) (t1 t2 : Nat) (snap : Snapshot)
    (st0 : Store) :
    (runSync cfg t2 snap (runSync cfg t1 snap st0)).players =
      (runSync cfg t1 snap st0).players ∧
    (runSync cfg t2 snap (runSync cfg t1 snap st0)).tournaments.map Tournament.id =
      (runSync cfg t1 snap st0).tournaments.map Tournament.id ∧
    (runSync cfg t2 snap (runSync cfg t1 snap st0)).entries.map Entry.id =
      (runSync cfg t1 snap st0).entries.map Entry.id ∧
    (∃ r2, (runSync cfg t2 snap (runSync cfg t1 snap st0)).runs =
        (runSync cfg t1 snap st0).runs ++ [r2] ∧
      r2.entriesNew = 0 ∧
      r2.entriesExisting = touchedCount cfg (runSync cfg t1 snap st0) snap ∧
      r2.startedAt = t2) ∧
    (∀ t ∈ snap, ∀ trd,
      (runSync cfg t2 snap (runSync cfg t1 snap st0)).tournaments.find?
        (fun x => x.id = t.tid) = some trd →
      trd.archivedAt = none →
      (∀ tr ∈ (runSync cfg t2 snap (runSync cfg t1 snap st0)).tournaments,
        tr.id = t.tid → tr.lastSeenInSource = t2) ∧
      (∀ e ∈ (runSync cfg t2 snap (runSync cfg t1 snap st0)).entries,
        e.tournamentId = t.tid → e.active = true → e.lastSeenInSource = t2)) := by
  obtain ⟨c1, c2, c3, c4⟩ := runSync_idem_tables cfg t2 snap
    (runSync cfg t1 snap st0) (runSync_snapReady cfg t1 snap st0)
  exact ⟨c1, c2, c3, c4, runSync_touched cfg t2 snap (runSync cfg t1 snap st0)⟩

/-- C1 witness: the idempotence statement evaluated at a concrete run —
an empty store, a one-tournament one-name snapshot, first run at time 3
and second run at time 7. -/
theorem runSync_idempotent_witness :
    (runSync (⟨fun _ _ => 0, 1⟩ : MatchCfg) 7 ([⟨1, "T", .personal, [⟨"Anna", .paid⟩]⟩] : Snapshot) (runSync (⟨fun _ _ => 0, 1⟩ : MatchCfg) 3 ([⟨1, "T", .personal, [⟨"Anna", .paid⟩]⟩] : Snapshot) Store.empty)).players =
      (runSync (⟨fun _ _ => 0, 1⟩ : MatchCfg) 3 ([⟨1, "T", .personal, [⟨"Anna", .paid⟩]⟩] : Snapshot) Store.empty).players ∧
    (runSync (⟨fun _ _ => 0, 1⟩ : MatchCfg) 7 ([⟨1, "T", .personal, [⟨"Anna", .paid⟩]⟩] : Snapshot) (runSync (⟨fun _ _ => 0, 1⟩ : MatchCfg) 3 ([⟨1, "T", .personal, [⟨"Anna", .paid⟩]⟩] : Snapshot) Store.empty)).tournaments.map Tournament.id =
      (runSync (⟨fun _ _ => 0, 1⟩ : MatchCfg) 3 ([⟨1, "T", .personal, [⟨"Anna", .paid⟩]⟩] : Snapshot) Store.empty).tournaments.map Tournament.id ∧
    (runSync (⟨fun _ _ => 0, 1⟩ : MatchCfg) 7 ([⟨1, "T", .personal, [⟨"Anna", .paid⟩]⟩] : Snapshot) (runSync (⟨fun _ _ => 0, 1⟩ : MatchCfg) 3 ([⟨1, "T", .personal, [⟨"Anna", .paid⟩]⟩] : Snapshot) Store.empty)).entries.map Entry.id =
      (runSync (⟨fun _ _ => 0, 1⟩ : MatchCfg) 3 ([⟨1, "T", .personal, [⟨"Anna", .paid⟩]⟩] : Snapshot) Store.empty).entries.map Entry.id ∧
    (∃ r2, (runSync (⟨fun _ _ => 0, 1⟩ : MatchCfg) 7 ([⟨1, "T", .personal, [⟨"Anna", .paid⟩]⟩] : Snapshot) (runSync (⟨fun _ _ => 0, 1⟩ : MatchCfg) 3 ([⟨1, "T", .personal, [⟨"Anna", .paid⟩]⟩] : Snapshot) Store.empty)).runs =
        (runSync (⟨fun _ _ => 0, 1⟩ : MatchCfg) 3 ([⟨1, "T", .personal, [⟨"Anna", .paid⟩]⟩] : Snapshot) Store.empty).runs ++ [r2] ∧
      r2.entriesNew = 0 ∧
      r2.entriesExisting = touchedCount (⟨fun _ _ => 0, 1⟩ : MatchCfg) (runSync (⟨fun _ _ => 0, 1⟩ : MatchCfg) 3 ([⟨1, "T", .personal, [⟨"Anna", .paid⟩]⟩] : Snapshot) Store.empty) ([⟨1, "T", .personal, [⟨"Anna", .paid⟩]⟩] : Snapshot) ∧
      r2.startedAt = 7) ∧
    (∀ t ∈ ([⟨1, "T", .personal, [⟨"Anna", .paid⟩]⟩] : Snapshot), ∀ trd,
      (runSync (⟨fun _ _ => 0, 1⟩ : MatchCfg) 7 ([⟨1, "T", .personal, [⟨"Anna", .paid⟩]⟩] : Snapshot) (runSync (⟨fun _ _ => 0, 1⟩ : MatchCfg) 3 ([⟨1, "T", .personal, [⟨"Anna", .paid⟩]⟩] : Snapshot) Store.empty)).tournaments.find?
        (fun x => x.id = t.tid) = some trd →
      trd.archivedAt = none →
      (∀ tr ∈ (runSync (⟨fun _ _ => 0, 1⟩ : MatchCfg) 7 ([⟨1, "T", .personal, [⟨"Anna", .paid⟩]⟩] : Snapshot) (runSync (⟨fun _ _ => 0, 1⟩ : MatchCfg) 3 ([⟨1, "T", .personal, [⟨"Anna", .paid⟩]⟩] : Snapshot) Store.empty)).tournaments,
        tr.id = t.tid → tr.lastSeenInSource = 7) ∧
      (∀ e ∈ (runSync (⟨fun _ _ => 0, 1⟩ : MatchCfg) 7 ([⟨1, "T", .personal, [⟨"Anna", .paid⟩]⟩] : Snapshot) (runSync (⟨fun _ _ => 0, 1⟩ : MatchCfg) 3 ([⟨1, "T", .personal, [⟨"Anna", .paid⟩]⟩] : Snapshot) Store.empty)).entries,
        e.tournamentId = t.tid → e.active = true → e.lastSeenInSource = 7)) :=
  runSync_idempotent ⟨fun _ _ => 0, 1⟩ 3 7
    ([⟨1, "T", .personal, [⟨"Anna", .paid⟩]⟩] : Snapshot) Store.empty

end Padel
